import Mathlib

/-! MangoDB memtable: skip list and snapshot reads

A shallow embedding of `internal/memtable.go`.

* Go pointers `*Node` are addresses into an explicit heap (`Heap`), `nil` is `none`.
  Allocation appends a node to the heap, so a fresh address is the old heap length.
* Every operation takes the heap and the `SkipList` record and returns the new heap and
  record; a run-time panic (nil dereference, index out of range) or a loop that never
  ends is a `Fault`.
* The process-wide generator of `math/rand` is the explicit state `Rand`: a stream of
  `Float64()` results and the position of the next draw.
* Go's `int` fields are `Int`; indices and loop counters that start at `0` are `Nat`.
-/

namespace MangoDB

/-- `const maxLevel = 6`. -/
def maxLevel : Nat := 6

/-- `const p = 0.5`, the rational one half in lowest terms. -/
def p : ℚ := ⟨1, 2, by decide, by decide⟩

/-- `const memtableLimit = 50`. -/
def memtableLimit : Int := 50

/-- Ways in which the Go code can fail to return. -/
inductive Fault where
  | nilDeref
  | indexOutOfRange
  | dangling
  | typeAssertion
  | diverges
  deriving DecidableEq, Repr

/-- A `*Node`: `none` is `nil`, `some a` is the node stored at address `a`. -/
abbrev Ptr := Option Nat

/-- `type Node struct { key, value string; forward []*Node }`. -/
structure Node where
  key : String
  value : String
  forward : List Ptr
  deriving DecidableEq, Repr

/-- The nodes allocated so far, by address. -/
abbrev Heap := List Node

/-- `type SkipList struct { header *Node; level int; size int }`. -/
structure SkipList where
  header : Ptr
  level : Int
  size : Int
  deriving DecidableEq, Repr

/-- The state of the global generator: the stream of `rand.Float64()` results and the index
of the next one. -/
structure Rand where
  draws : Nat → ℚ
  pos : Nat

/-- `rand.Float64()`: the next draw, and the generator advanced by one. -/
def Rand.Float64 (r : Rand) : ℚ × Rand :=
  (r.draws r.pos, { r with pos := r.pos + 1 })

/-- Go's `<` on strings is lexicographic on bytes; on UTF-8 text that is the lexicographic
order on code points, decided here on the character lists. -/
def strLess (a b : String) : Bool :=
  decide (a.data < b.data)

/-- Dereference `x`. -/
def load (h : Heap) : Ptr → Except Fault Node
  | none => .error .nilDeref
  | some a =>
    match h[a]? with
    | some n => .ok n
    | none => .error .dangling

/-- The slice read `l[i]`. -/
def index {α : Type} (l : List α) (i : Nat) : Except Fault α :=
  match l[i]? with
  | some x => .ok x
  | none => .error .indexOutOfRange

/-- The slice write `l[i] = x`. -/
def assign {α : Type} (l : List α) (i : Nat) (x : α) : Except Fault (List α) :=
  if i < l.length then .ok (l.set i x) else .error .indexOutOfRange

/-- The read `x.forward[i]`. -/
def forwardAt (h : Heap) (x : Ptr) (i : Nat) : Except Fault Ptr :=
  match load h x with
  | .ok n => index n.forward i
  | .error e => .error e

/-- The write `x.forward[i] = q`. -/
def storeForward (h : Heap) (x : Ptr) (i : Nat) (q : Ptr) : Except Fault Heap :=
  match x with
  | none => .error .nilDeref
  | some a =>
    match h[a]? with
    | none => .error .dangling
    | some n =>
      if i < n.forward.length then
        .ok (h.set a { n with forward := n.forward.set i q })
      else .error .indexOutOfRange

/-- The write `x.value = v`. -/
def storeValue (h : Heap) (x : Ptr) (v : String) : Except Fault Heap :=
  match x with
  | none => .error .nilDeref
  | some a =>
    match h[a]? with
    | none => .error .dangling
    | some n => .ok (h.set a { n with value := v })

/-- `newNode(level, key, value)`: a node with `level+1` nil links at a fresh address. -/
def newNode (h : Heap) (level : Nat) (key value : String) : Heap × Ptr :=
  (h ++ [{ key := key, value := value, forward := List.replicate (level + 1) none }],
    some h.length)

/-- `NewSkipList()`. `rand.Seed(time.Now().UnixNano())` replaces the generator state by one
that depends on the clock: it is the argument `seed`. -/
def NewSkipList (h : Heap) (seed : Rand) : Heap × SkipList × Rand :=
  ((newNode h maxLevel "" "").1,
    { header := (newNode h maxLevel "" "").2, level := 0, size := 0 }, seed)

/-- The loop of `randomLevel`: each test draws first and only then compares `lvl` with
`maxLevel`. The counter `fuel` bounds the number of tests. -/
def randomLevelLoop : Nat → Nat → Rand → Nat × Rand
  | 0, lvl, r => (lvl, r)
  | fuel + 1, lvl, r =>
    if (r.Float64).1 < p ∧ lvl < maxLevel then
      randomLevelLoop fuel (lvl + 1) (r.Float64).2
    else (lvl, (r.Float64).2)

/-- `sl.randomLevel()`: at most `maxLevel + 1` tests are ever made. -/
def randomLevel (r : Rand) : Nat × Rand :=
  randomLevelLoop (maxLevel + 1) 0 r

/-- The inner loop `for x.forward[i] != nil && x.forward[i].key < key { x = x.forward[i] }`.
It is run with `fuel = len(heap) + 1`: a walk of more steps than there are nodes has met a
node twice and never ends. -/
def advance (h : Heap) (key : String) (i : Nat) : Nat → Ptr → Except Fault Ptr
  | 0, _ => .error .diverges
  | fuel + 1, x =>
    match forwardAt h x i with
    | .error e => .error e
    | .ok none => .ok x
    | .ok (some y) =>
      match load h (some y) with
      | .error e => .error e
      | .ok n => if strLess n.key key then advance h key i fuel (some y) else .ok x

/-- The descent of `Search`: `for i := sl.level; i >= 0; i--`, with `n = i + 1` levels left. -/
def descend (h : Heap) (key : String) : Nat → Ptr → Except Fault Ptr
  | 0, x => .ok x
  | i + 1, x =>
    match advance h key i (h.length + 1) x with
    | .error e => .error e
    | .ok x' => descend h key i x'

/-- The descent of `Insert` and `Delete`, which also records `update[i] = x`. -/
def findUpdate (h : Heap) (key : String) : Nat → Ptr → List Ptr → Except Fault (Ptr × List Ptr)
  | 0, x, update => .ok (x, update)
  | i + 1, x, update =>
    match advance h key i (h.length + 1) x with
    | .error e => .error e
    | .ok x' =>
      match assign update i x' with
      | .error e => .error e
      | .ok update' => findUpdate h key i x' update'

/-- The loop `for i := sl.level + 1; i <= lvl; i++ { update[i] = sl.header }`, with `n`
iterations left. -/
def raiseHeader (header : Ptr) : Nat → Int → List Ptr → Except Fault (List Ptr)
  | 0, _, update => .ok update
  | n + 1, i, update =>
    if i < 0 then .error .indexOutOfRange
    else
      match assign update i.toNat header with
      | .error e => .error e
      | .ok update' => raiseHeader header n (i + 1) update'

/-- The loop `for i := 0; i <= lvl; i++` of `Insert`, with `n` iterations left. -/
def splice (nn : Ptr) (update : List Ptr) : Nat → Nat → Heap → Except Fault Heap
  | 0, _, h => .ok h
  | n + 1, i, h =>
    match index update i with
    | .error e => .error e
    | .ok u =>
      match forwardAt h u i with
      | .error e => .error e
      | .ok f =>
        match storeForward h nn i f with
        | .error e => .error e
        | .ok h1 =>
          match storeForward h1 u i nn with
          | .error e => .error e
          | .ok h2 => splice nn update n (i + 1) h2

/-- The loop `for i := 0; i <= sl.level; i++` of `Delete`, with its `break`. -/
def unlink (x : Ptr) (update : List Ptr) : Nat → Nat → Heap → Except Fault Heap
  | 0, _, h => .ok h
  | n + 1, i, h =>
    match index update i with
    | .error e => .error e
    | .ok u =>
      match forwardAt h u i with
      | .error e => .error e
      | .ok f =>
        if f ≠ x then .ok h
        else
          match forwardAt h x i with
          | .error e => .error e
          | .ok fx =>
            match storeForward h u i fx with
            | .error e => .error e
            | .ok h1 => unlink x update n (i + 1) h1

/-- The test `x != nil && x.key == key` after a descent. -/
def hit (h : Heap) (x : Ptr) (key : String) : Except Fault Bool :=
  match x with
  | none => .ok false
  | some a =>
    match load h (some a) with
    | .error e => .error e
    | .ok n => .ok (n.key == key)

namespace SkipList

/-- `func (sl *SkipList) Search(key string) (string, bool)`. -/
def Search (h : Heap) (sl : SkipList) (key : String) : Except Fault (String × Bool) :=
  match descend h key (sl.level + 1).toNat sl.header with
  | .error e => .error e
  | .ok x =>
    match forwardAt h x 0 with
    | .error e => .error e
    | .ok x0 =>
      match hit h x0 key with
      | .error e => .error e
      | .ok false => .ok ("", false)
      | .ok true =>
        match load h x0 with
        | .error e => .error e
        | .ok n => .ok (n.value, true)

/-- `func (sl *SkipList) Get(key string) (interface{}, bool)`; the `nil` interface is `none`. -/
def Get (h : Heap) (sl : SkipList) (key : String) : Except Fault (Option String × Bool) :=
  match Search h sl key with
  | .error e => .error e
  | .ok (val, true) => .ok (some val, true)
  | .ok (_, false) => .ok (none, false)

/-- `func (sl *SkipList) Insert(key, value string)`. -/
def Insert (h : Heap) (sl : SkipList) (rng : Rand) (key value : String) :
    Except Fault (Heap × SkipList × Rand) :=
  match findUpdate h key (sl.level + 1).toNat sl.header (List.replicate (maxLevel + 1) none) with
  | .error e => .error e
  | .ok (x, update) =>
    match forwardAt h x 0 with
    | .error e => .error e
    | .ok x0 =>
      match hit h x0 key with
      | .error e => .error e
      | .ok true =>
        match storeValue h x0 value with
        | .error e => .error e
        | .ok h1 => .ok (h1, sl, rng)
      | .ok false =>
        let lvl := (randomLevel rng).1
        let rng1 := (randomLevel rng).2
        let raised :=
          if (lvl : Int) > sl.level then
            raiseHeader sl.header (lvl - sl.level).toNat (sl.level + 1) update
          else .ok update
        match raised with
        | .error e => .error e
        | .ok update1 =>
          let level1 : Int := if (lvl : Int) > sl.level then lvl else sl.level
          match splice (newNode h lvl key value).2 update1 (lvl + 1) 0 (newNode h lvl key value).1 with
          | .error e => .error e
          | .ok h2 => .ok (h2, { sl with level := level1, size := sl.size + 1 }, rng1)

/-- `func (sl *SkipList) Delete(key string) bool`. -/
def Delete (h : Heap) (sl : SkipList) (key : String) : Except Fault (Heap × SkipList × Bool) :=
  match findUpdate h key (sl.level + 1).toNat sl.header (List.replicate (maxLevel + 1) none) with
  | .error e => .error e
  | .ok (x, update) =>
    match forwardAt h x 0 with
    | .error e => .error e
    | .ok x0 =>
      match hit h x0 key with
      | .error e => .error e
      | .ok false => .ok (h, sl, false)
      | .ok true =>
        match unlink x0 update (sl.level + 1).toNat 0 h with
        | .error e => .error e
        | .ok h1 => .ok (h1, { sl with size := sl.size - 1 }, true)

/-- `func (sl *SkipList) Reset()`. -/
def Reset (h : Heap) (sl : SkipList) : Heap × SkipList :=
  ((newNode h maxLevel "" "").1,
    { sl with header := (newNode h maxLevel "" "").2, level := 0, size := 0 })

/-- `func (sl *SkipList) IsFull() bool`. -/
def IsFull (sl : SkipList) : Bool :=
  decide (sl.size ≥ memtableLimit)

/-- The loop `for x != nil { clone.Insert(x.key, x.value); x = x.forward[0] }` of `Clone`. -/
def cloneLoop : Nat → Ptr → Heap → SkipList → Rand → Except Fault (Heap × SkipList × Rand)
  | 0, _, _, _, _ => .error .diverges
  | fuel + 1, x, h, clone, rng =>
    match x with
    | none => .ok (h, clone, rng)
    | some a =>
      match load h (some a) with
      | .error e => .error e
      | .ok n =>
        match Insert h clone rng n.key n.value with
        | .error e => .error e
        | .ok (h1, clone1, rng1) =>
          match forwardAt h1 (some a) 0 with
          | .error e => .error e
          | .ok x1 => cloneLoop fuel x1 h1 clone1 rng1

/-- `func (sl *SkipList) Clone() *SkipList`; `seed` is the generator state left by the
`rand.Seed` call inside `NewSkipList`. -/
def Clone (h : Heap) (sl : SkipList) (seed : Rand) : Except Fault (Heap × SkipList × Rand) :=
  match forwardAt (NewSkipList h seed).1 sl.header 0 with
  | .error e => .error e
  | .ok x =>
    cloneLoop (h.length + 1) x (NewSkipList h seed).1 (NewSkipList h seed).2.1
      (NewSkipList h seed).2.2

/-- The traversal `for x != nil { ...; x = x.forward[0] }` that `Clone` and `GetAll` share,
as the sequence of (key, value) pairs it visits. -/
def walk : Nat → Heap → Ptr → Except Fault (List (String × String))
  | 0, _, _ => .error .diverges
  | fuel + 1, h, x =>
    match x with
    | none => .ok []
    | some a =>
      match load h (some a) with
      | .error e => .error e
      | .ok n =>
        match forwardAt h (some a) 0 with
        | .error e => .error e
        | .ok x1 =>
          match walk fuel h x1 with
          | .error e => .error e
          | .ok rest => .ok ((n.key, n.value) :: rest)

/-- The level-0 sequence of (key, value) pairs of the index: what the traversal from
`sl.header.forward[0]` visits, in order. -/
def level0 (h : Heap) (sl : SkipList) : Except Fault (List (String × String)) :=
  match forwardAt h sl.header 0 with
  | .error e => .error e
  | .ok x => walk (h.length + 1) h x

end SkipList

/-- Go's built-in `map[string]string`: a finite mapping with at most one value per key. The
order in which `entries` lists the bindings is internal and cannot be observed. -/
structure GoMap where
  entries : List (String × String)

/-- `make(map[string]string)`. -/
def GoMap.empty : GoMap := ⟨[]⟩

/-- The map write `m[k] = v`. -/
def GoMap.set (m : GoMap) (k v : String) : GoMap :=
  ⟨(k, v) :: m.entries.filter (fun q => q.1 ≠ k)⟩

/-- The orders in which `for k, v := range m` may visit the map: Go leaves the iteration
order of a map unspecified, so every arrangement of the bindings is one. -/
def GoMap.RangeOrder (m : GoMap) (l : List (String × String)) : Prop :=
  l.Perm m.entries

namespace SkipList

/-- The loop `for x != nil { result[x.key] = x.value; x = x.forward[0] }` of `GetAll`. -/
def getAllLoop : Nat → Heap → Ptr → GoMap → Except Fault GoMap
  | 0, _, _, _ => .error .diverges
  | fuel + 1, h, x, result =>
    match x with
    | none => .ok result
    | some a =>
      match load h (some a) with
      | .error e => .error e
      | .ok n =>
        match forwardAt h (some a) 0 with
        | .error e => .error e
        | .ok x1 => getAllLoop fuel h x1 (result.set n.key n.value)

/-- `func (sl *SkipList) GetAll() map[string]string`. -/
def GetAll (h : Heap) (sl : SkipList) : Except Fault GoMap :=
  match forwardAt h sl.header 0 with
  | .error e => .error e
  | .ok x => getAllLoop (h.length + 1) h x GoMap.empty

/-- A run of `Insert` calls, one per pair of the list, in order. -/
def insertAll : List (String × String) → Heap → SkipList → Rand →
    Except Fault (Heap × SkipList × Rand)
  | [], h, sl, rng => .ok (h, sl, rng)
  | (k, v) :: kvs, h, sl, rng =>
    match Insert h sl rng k v with
    | .error e => .error e
    | .ok (h1, sl1, rng1) => insertAll kvs h1 sl1 rng1

end SkipList

/-- A mutating call on an index. -/
inductive Op where
  | insert (key value : String)
  | delete (key : String)

/-- One call of `Insert` or `Delete` (whose result is dropped). -/
def applyOp (h : Heap) (sl : SkipList) (rng : Rand) : Op → Except Fault (Heap × SkipList × Rand)
  | .insert key value => SkipList.Insert h sl rng key value
  | .delete key =>
    match SkipList.Delete h sl key with
    | .error e => .error e
    | .ok (h1, sl1, _) => .ok (h1, sl1, rng)

/-- A run of calls on one index, in order. -/
def runOps : List Op → Heap → SkipList → Rand → Except Fault (Heap × SkipList × Rand)
  | [], h, sl, rng => .ok (h, sl, rng)
  | op :: ops, h, sl, rng =>
    match applyOp h sl rng op with
    | .error e => .error e
    | .ok (h1, sl1, rng1) => runOps ops h1 sl1 rng1

/-- The index states reachable from `NewSkipList()` by `Insert`, `Delete` and `Reset`, for any
heap the index is created in and any random draws. -/
inductive Reachable : Heap → SkipList → Prop
  | new (h0 : Heap) (seed : Rand) :
      Reachable (NewSkipList h0 seed).1 (NewSkipList h0 seed).2.1
  | insert {h : Heap} {sl : SkipList} (rng : Rand) (key value : String)
      {h1 : Heap} {sl1 : SkipList} {rng1 : Rand} :
      Reachable h sl → SkipList.Insert h sl rng key value = .ok (h1, sl1, rng1) →
      Reachable h1 sl1
  | delete {h : Heap} {sl : SkipList} (key : String)
      {h1 : Heap} {sl1 : SkipList} {b : Bool} :
      Reachable h sl → SkipList.Delete h sl key = .ok (h1, sl1, b) → Reachable h1 sl1
  | reset {h : Heap} {sl : SkipList} :
      Reachable h sl → Reachable (SkipList.Reset h sl).1 (SkipList.Reset h sl).2

/-- Modelled from the spec: the on-disk table entry `sstable.Entry`, whose declaration is in
a package outside this file. It is a triple of key, value and sequence number, the sequence
number an unsigned integer that is only ever compared. -/
structure Entry where
  Key : String
  Value : String
  SequenceNumber : Nat
  deriving DecidableEq, Repr

/-- `type Snapshot struct { Memtable *SkipList; SSTables [][]sstable.Entry; Sequence uint64;
Released bool }`. -/
structure Snapshot where
  Memtable : SkipList
  SSTables : List (List Entry)
  Sequence : Nat
  Released : Bool

/-- The test `entry.Key == key && entry.SequenceNumber <= s.Sequence`. -/
def eligible (key : String) (seq : Nat) (e : Entry) : Bool :=
  e.Key == key && decide (e.SequenceNumber ≤ seq)

/-- The inner loop `for _, entry := range level` of `Snapshot.Get`: the value of the first
entry that passes the test. -/
def scanLevel (key : String) (seq : Nat) : List Entry → Option String
  | [] => none
  | e :: es => if eligible key seq e then some e.Value else scanLevel key seq es

/-- The outer loop `for _, level := range s.SSTables` of `Snapshot.Get`. -/
def scanSSTables (key : String) (seq : Nat) : List (List Entry) → Option String
  | [] => none
  | level :: rest =>
    match scanLevel key seq level with
    | some v => some v
    | none => scanSSTables key seq rest

/-- `func (s *Snapshot) Get(key string) (string, bool)`. -/
def Snapshot.Get (h : Heap) (s : Snapshot) (key : String) : Except Fault (String × Bool) :=
  match SkipList.Get h s.Memtable key with
  | .error e => .error e
  | .ok (some val, true) => .ok (val, true)
  | .ok (none, true) => .error .typeAssertion
  | .ok (_, false) =>
    match scanSSTables key s.Sequence s.SSTables with
    | some v => .ok (v, true)
    | none => .ok ("", false)

/-! ## Concrete inputs -/

/-- A generator all of whose draws are `0`: every new node gets the top level. -/
def zeroRand : Rand := ⟨fun _ => 0, 0⟩

/-- A generator all of whose draws are `3/4`: every new node gets level `0`. -/
def highRand : Rand := ⟨fun _ => ⟨3, 4, by decide, by decide⟩, 0⟩

/-- The heap after `NewSkipList()`, `Insert("a","1")`, `Insert("b","2")` in an empty heap
when every node gets level `0`. -/
def abHeap : Heap :=
  [ { key := "", value := "", forward := [some 1, none, none, none, none, none, none] },
    { key := "a", value := "1", forward := [some 2] },
    { key := "b", value := "2", forward := [none] } ]

/-- The index record that goes with `abHeap`. -/
def abList : SkipList := { header := some 0, level := 0, size := 2 }

/-- A snapshot with an empty memtable over one on-disk collection that holds key `"x"` at
sequence 5 and, behind it, at sequence 7; the ceiling is 10. -/
def staleSnapshot : Snapshot :=
  { Memtable := (NewSkipList [] zeroRand).2.1
    SSTables := [[⟨"x", "old", 5⟩, ⟨"x", "new", 7⟩]]
    Sequence := 10
    Released := false }

/-! ## Reading the heap

Total readers of a node's fields, used to state the representation invariant. -/

/-- The length of the `forward` slice of the node at `a` (`0` when there is no such node). -/
def hgt (h : Heap) (a : Nat) : Nat :=
  match h[a]? with
  | some n => n.forward.length
  | none => 0

/-- The key of the node at `a`. -/
def keyOf (h : Heap) (a : Nat) : String :=
  match h[a]? with
  | some n => n.key
  | none => ""

/-- The value of the node at `a`. -/
def valOf (h : Heap) (a : Nat) : String :=
  match h[a]? with
  | some n => n.value
  | none => ""

/-- The link `forward[i]` of the node at `a`, when the node and the index exist. -/
def fwd (h : Heap) (a i : Nat) : Option Ptr :=
  match h[a]? with
  | some n => n.forward[i]?
  | none => none

/-- The heap after `forward[i] = q` on the node at `a`. -/
def putFwd (h : Heap) (a i : Nat) (q : Ptr) : Heap :=
  match h[a]? with
  | some n => h.set a { n with forward := n.forward.set i q }
  | none => h

/-- The heap after `value = v` on the node at `a`. -/
def putVal (h : Heap) (a : Nat) (v : String) : Heap :=
  match h[a]? with
  | some n => h.set a { n with value := v }
  | none => h

/-- The chain of `forward[i]` links that starts at the node `x`, visits exactly the nodes of
the list, in order, and ends in `nil`. -/
def Linked (h : Heap) (i : Nat) : Nat → List Nat → Prop
  | x, [] => fwd h x i = some none
  | x, a :: l => fwd h x i = some (some a) ∧ Linked h i a l

/-- The last node of the walk that starts at `x` and goes through `l`. -/
def lastFrom : Nat → List Nat → Nat
  | x, [] => x
  | _, a :: l => lastFrom a l

/-- The nodes of `L` that take part in level `i`. -/
def lane (h : Heap) (i : Nat) (L : List Nat) : List Nat :=
  L.filter (fun a => decide (i < hgt h a))

/-- The (key, value) pairs held by the nodes of `L`, in order. -/
def pairs (h : Heap) (L : List Nat) : List (String × String) :=
  L.map (fun a => (keyOf h a, valOf h a))

/-- Representation invariant: `sl` is a skip list in `h` whose header is at `hd` and whose
level-0 chain is `L`. -/
structure Rep (h : Heap) (sl : SkipList) (hd : Nat) (L : List Nat) : Prop where
  header_eq : sl.header = some hd
  header_hgt : hgt h hd = maxLevel + 1
  level_nonneg : 0 ≤ sl.level
  level_le : sl.level ≤ maxLevel
  nodup : (hd :: L).Nodup
  hgt_pos : ∀ a ∈ L, 0 < hgt h a
  hgt_le : ∀ a ∈ L, hgt h a ≤ sl.level.toNat + 1
  sorted : L.Pairwise (fun a b => keyOf h a < keyOf h b)
  linked : ∀ i, i ≤ maxLevel → Linked h i hd (lane h i L)
  size_eq : sl.size = L.length

/-- The cut of the level-0 chain `L` at `key`: the nodes with a smaller key, then the rest. -/
structure Cut (h : Heap) (key : String) (L L1 L2 : List Nat) : Prop where
  split : L = L1 ++ L2
  below : ∀ a ∈ L1, keyOf h a < key
  above : ∀ b ∈ L2, ¬ keyOf h b < key

/-- First value bound to `k` in a list of pairs. -/
def lookup (k : String) : List (String × String) → Option String
  | [] => none
  | (k', v) :: t => if k' = k then some v else lookup k t

/-- Insert-or-overwrite in a list of pairs kept in ascending key order. -/
def upsert (k v : String) : List (String × String) → List (String × String)
  | [] => [(k, v)]
  | (k', v') :: t =>
    if k' < k then (k', v') :: upsert k v t
    else if k' = k then (k, v) :: t
    else (k, v) :: (k', v') :: t

/-- Removal of the pair bound to `k`. -/
def remove (k : String) : List (String × String) → List (String × String)
  | [] => []
  | (k', v') :: t => if k' = k then t else (k', v') :: remove k t

/-- What `Search` returns for a looked-up binding. -/
def found : Option String → String × Bool
  | some v => (v, true)
  | none => ("", false)

/-- The abstract effect of a run of inserts on a sequence of pairs. -/
def upsertAll (m kvs : List (String × String)) : List (String × String) :=
  kvs.foldl (fun m q => upsert q.1 q.2 m) m

/-- The map a sequence of writes `result[key] = value` builds from `m`. -/
def GoMap.setAll (m : GoMap) (l : List (String × String)) : GoMap :=
  l.foldl (fun m q => m.set q.1 q.2) m

/-- The snapshot `staleSnapshot` after `release()`: the same fields with `Released` set. -/
def releasedSnapshot : Snapshot := { staleSnapshot with Released := true }

/-- The fifth scenario of the spec: a snapshot at sequence 10 over one on-disk collection
with entries for `"x"` at sequence 5 and at sequence 12; `newestFirst` chooses the order. -/
def ceilingSnapshot (newestFirst : Bool) : Snapshot :=
  { Memtable := (NewSkipList [] zeroRand).2.1
    SSTables :=
      if newestFirst then [[⟨"x", "late", 12⟩, ⟨"x", "seen", 5⟩]]
      else [[⟨"x", "seen", 5⟩, ⟨"x", "late", 12⟩]]
    Sequence := 10
    Released := false }

/-- The collections of a snapshot without the entries above the sequence ceiling. -/
def visibleTables (seq : Nat) (tables : List (List Entry)) : List (List Entry) :=
  tables.map (fun level => level.filter (fun e => decide (e.SequenceNumber ≤ seq)))

/-- The number of leading draws below `p` among the `cap` draws from position `start` on:
the count of leading successes, capped at `cap`. -/
def leadingBelow (draws : Nat → ℚ) : Nat → Nat → Nat
  | _, 0 => 0
  | start, cap + 1 => if draws start < p then leadingBelow draws (start + 1) cap + 1 else 0

/-- The plain linear lookup of `k` in a sequence of (key, value) pairs, as the claim words
it: `(v, true)` for the pair `(k, v)` of the sequence, `("", false)` when there is none. -/
def linearSearch (k : String) : List (String × String) → String × Bool
  | [] => ("", false)
  | (k', v) :: t => if k' = k then (v, true) else linearSearch k t

/-- A call on an index variable `sl`: `sl.Insert(key, value)`, `sl.Delete(key)`,
`sl.Reset()`, `sl = sl.Clone()` (the run goes on with the clone), or a clone taken aside, as
for a snapshot, while the run goes on with `sl` itself. -/
inductive Call where
  | insert (key value : String)
  | delete (key : String)
  | reset
  | clone
  | cloneAside

/-- A run of calls on an index. `seeds n` is the generator state that the `n`-th call of
`rand.Seed` installs; the run returns the final heap, index and generator and the results of
its `Delete` calls, in order. -/
def runCalls (seeds : Nat → Rand) : List Call → Nat → Heap → SkipList → Rand →
    Except Fault (Heap × SkipList × Rand × List Bool)
  | [], _, h, sl, rng => .ok (h, sl, rng, [])
  | Call.insert key value :: cs, n, h, sl, rng =>
    match SkipList.Insert h sl rng key value with
    | .error e => .error e
    | .ok (h1, sl1, rng1) => runCalls seeds cs n h1 sl1 rng1
  | Call.delete key :: cs, n, h, sl, rng =>
    match SkipList.Delete h sl key with
    | .error e => .error e
    | .ok (h1, sl1, b) =>
      match runCalls seeds cs n h1 sl1 rng with
      | .error e => .error e
      | .ok (h2, sl2, rng2, bs) => .ok (h2, sl2, rng2, b :: bs)
  | Call.reset :: cs, n, h, sl, rng =>
    runCalls seeds cs n (SkipList.Reset h sl).1 (SkipList.Reset h sl).2 rng
  | Call.clone :: cs, n, h, sl, _ =>
    match SkipList.Clone h sl (seeds n) with
    | .error e => .error e
    | .ok (h1, c, rng1) => runCalls seeds cs (n + 1) h1 c rng1
  | Call.cloneAside :: cs, n, h, sl, _ =>
    match SkipList.Clone h sl (seeds n) with
    | .error e => .error e
    | .ok (h1, _, rng1) => runCalls seeds cs (n + 1) h1 sl rng1

/-- A run of calls on a new index: `NewSkipList()` in the heap `h0`, then the calls. -/
def runFromNew (seeds : Nat → Rand) (calls : List Call) (h0 : Heap) :
    Except Fault (Heap × SkipList × Rand × List Bool) :=
  runCalls seeds calls 1 (NewSkipList h0 (seeds 0)).1 (NewSkipList h0 (seeds 0)).2.1
    (NewSkipList h0 (seeds 0)).2.2

/-- The effect of a run of calls on the sequence of pairs, with the results of its `Delete`
calls: what the run does when no random draw is looked at. -/
def absCalls : List Call → List (String × String) → List (String × String) × List Bool
  | [], m => (m, [])
  | Call.insert key value :: cs, m => absCalls cs (upsert key value m)
  | Call.delete key :: cs, m =>
    ((absCalls cs (remove key m)).1, (lookup key m).isSome :: (absCalls cs (remove key m)).2)
  | Call.reset :: cs, _ => absCalls cs []
  | Call.clone :: cs, m => absCalls cs m
  | Call.cloneAside :: cs, m => absCalls cs m

/-- The invariant of the data model: at every level `0..level` the chain of forward links
from the header visits keys in strictly increasing order, no key is held by two nodes of the
chains, and `size` is the number of nodes of the level-0 chain. -/
def Invariant (h : Heap) (sl : SkipList) : Prop :=
  ∃ (hd : Nat) (chain : Nat → List Nat), sl.header = some hd ∧
    (∀ i : Nat, (i : Int) ≤ sl.level →
      Linked h i hd (chain i) ∧ (chain i).Pairwise (fun a b => keyOf h a < keyOf h b)) ∧
    (∀ i j : Nat, (i : Int) ≤ sl.level → (j : Int) ≤ sl.level →
      ∀ a ∈ chain i, ∀ b ∈ chain j, keyOf h a = keyOf h b → a = b) ∧
    sl.size = (chain 0).length

/-! ## Basic facts about the heap readers -/

theorem strLess_iff (a b : String) : strLess a b = true ↔ a < b := by
  simp [strLess, String.lt_iff_toList_lt, String.toList]

theorem strLess_false_iff (a b : String) : strLess a b = false ↔ ¬ a < b := by
  rw [← strLess_iff]; simp

/-- The constant `p` is one half. -/
theorem p_eq_half : p = 1 / 2 := by
  unfold p
  rw [Rat.mk'_eq_divInt]
  norm_num [Rat.divInt_eq_div]

theorem valid_of_hgt_pos {h : Heap} {a : Nat} (hp : 0 < hgt h a) : ∃ n, h[a]? = some n := by
  unfold hgt at hp
  cases e : h[a]? with
  | none => simp [e] at hp
  | some n => exact ⟨n, rfl⟩

theorem lt_length_of_hgt_pos {h : Heap} {a : Nat} (hp : 0 < hgt h a) : a < h.length := by
  obtain ⟨n, hn⟩ := valid_of_hgt_pos hp
  by_contra hc
  rw [List.getElem?_eq_none (by omega)] at hn
  cases hn

theorem fwd_some_of_lt {h : Heap} {a i : Nat} (hi : i < hgt h a) : ∃ q, fwd h a i = some q := by
  unfold hgt at hi
  unfold fwd
  cases e : h[a]? with
  | none => simp [e] at hi
  | some n =>
    simp only [e] at hi
    exact ⟨n.forward[i], by simp [List.getElem?_eq_getElem hi]⟩

theorem lt_hgt_of_fwd {h : Heap} {a i : Nat} {q : Ptr} (hq : fwd h a i = some q) :
    i < hgt h a := by
  unfold fwd at hq
  unfold hgt
  cases e : h[a]? with
  | none => simp [e] at hq
  | some n =>
    simp only [e] at hq ⊢
    by_contra hc
    rw [List.getElem?_eq_none (by omega)] at hq
    cases hq

theorem forwardAt_of_fwd {h : Heap} {a i : Nat} {q : Ptr} (hq : fwd h a i = some q) :
    forwardAt h (some a) i = .ok q := by
  unfold fwd at hq
  unfold forwardAt load index
  cases e : h[a]? with
  | none => simp [e] at hq
  | some n => simp only [e] at hq ⊢; simp [hq]

theorem load_of_hgt_pos {h : Heap} {a : Nat} (hp : 0 < hgt h a) :
    ∃ n, load h (some a) = .ok n ∧ n.key = keyOf h a ∧ n.value = valOf h a := by
  obtain ⟨n, hn⟩ := valid_of_hgt_pos hp
  exact ⟨n, by simp [load, hn], by simp [keyOf, hn], by simp [valOf, hn]⟩

theorem length_putFwd (h : Heap) (a i : Nat) (q : Ptr) : (putFwd h a i q).length = h.length := by
  unfold putFwd
  cases e : h[a]? <;> simp

theorem getElem?_putFwd_ne (h : Heap) {a b : Nat} (i : Nat) (q : Ptr) (hne : b ≠ a) :
    (putFwd h a i q)[b]? = h[b]? := by
  unfold putFwd
  cases e : h[a]? with
  | none => rfl
  | some n => simp [List.getElem?_set, Ne.symm hne]

theorem getElem?_putFwd_self (h : Heap) {a : Nat} {n : Node} (i : Nat) (q : Ptr)
    (hn : h[a]? = some n) :
    (putFwd h a i q)[a]? = some { n with forward := n.forward.set i q } := by
  have hlt : a < h.length := by
    by_contra hc
    rw [List.getElem?_eq_none (by omega)] at hn
    cases hn
  unfold putFwd
  simp [hn, List.getElem?_set, hlt]

theorem hgt_putFwd (h : Heap) (a i : Nat) (q : Ptr) (b : Nat) :
    hgt (putFwd h a i q) b = hgt h b := by
  by_cases hb : b = a
  · subst hb
    cases e : h[b]? with
    | none => simp [putFwd, e]
    | some n => simp [hgt, getElem?_putFwd_self h i q e, e]
  · simp [hgt, getElem?_putFwd_ne h i q hb]

theorem keyOf_putFwd (h : Heap) (a i : Nat) (q : Ptr) (b : Nat) :
    keyOf (putFwd h a i q) b = keyOf h b := by
  by_cases hb : b = a
  · subst hb
    cases e : h[b]? with
    | none => simp [putFwd, e]
    | some n => simp [keyOf, getElem?_putFwd_self h i q e, e]
  · simp [keyOf, getElem?_putFwd_ne h i q hb]

theorem valOf_putFwd (h : Heap) (a i : Nat) (q : Ptr) (b : Nat) :
    valOf (putFwd h a i q) b = valOf h b := by
  by_cases hb : b = a
  · subst hb
    cases e : h[b]? with
    | none => simp [putFwd, e]
    | some n => simp [valOf, getElem?_putFwd_self h i q e, e]
  · simp [valOf, getElem?_putFwd_ne h i q hb]

theorem fwd_putFwd (h : Heap) (a i : Nat) (q : Ptr) (b j : Nat) :
    fwd (putFwd h a i q) b j =
      if b = a ∧ j = i ∧ i < hgt h a then some q else fwd h b j := by
  by_cases hb : b = a
  · subst hb
    cases e : h[b]? with
    | none => simp [putFwd, e, fwd, hgt]
    | some n =>
      simp only [fwd, getElem?_putFwd_self h i q e, e, hgt, true_and]
      by_cases hj : j = i
      · subst hj
        by_cases hl : j < n.forward.length
        · simp [hl, List.getElem?_set]
        · have hle := Nat.le_of_not_lt hl
          simp [hl, List.getElem?_eq_none hle, List.getElem?_eq_none (l := n.forward.set j q)
            (by simpa using hle)]
      · simp [hj, List.getElem?_set, Ne.symm hj]
  · simp [fwd, getElem?_putFwd_ne h i q hb, hb]

theorem storeForward_eq {h : Heap} {a i : Nat} (q : Ptr) (hi : i < hgt h a) :
    storeForward h (some a) i q = .ok (putFwd h a i q) := by
  unfold hgt at hi
  unfold storeForward putFwd
  cases e : h[a]? with
  | none => simp [e] at hi
  | some n => simp only [e] at hi ⊢; simp [hi]

theorem length_putVal (h : Heap) (a : Nat) (v : String) : (putVal h a v).length = h.length := by
  unfold putVal
  cases e : h[a]? <;> simp

theorem getElem?_putVal_ne (h : Heap) {a b : Nat} (v : String) (hne : b ≠ a) :
    (putVal h a v)[b]? = h[b]? := by
  unfold putVal
  cases e : h[a]? with
  | none => rfl
  | some n => simp [List.getElem?_set, Ne.symm hne]

theorem getElem?_putVal_self (h : Heap) {a : Nat} {n : Node} (v : String)
    (hn : h[a]? = some n) : (putVal h a v)[a]? = some { n with value := v } := by
  have hlt : a < h.length := by
    by_contra hc
    rw [List.getElem?_eq_none (by omega)] at hn
    cases hn
  unfold putVal
  simp [hn, List.getElem?_set, hlt]

theorem hgt_putVal (h : Heap) (a : Nat) (v : String) (b : Nat) :
    hgt (putVal h a v) b = hgt h b := by
  by_cases hb : b = a
  · subst hb
    cases e : h[b]? with
    | none => simp [putVal, e]
    | some n => simp [hgt, getElem?_putVal_self h v e, e]
  · simp [hgt, getElem?_putVal_ne h v hb]

theorem keyOf_putVal (h : Heap) (a : Nat) (v : String) (b : Nat) :
    keyOf (putVal h a v) b = keyOf h b := by
  by_cases hb : b = a
  · subst hb
    cases e : h[b]? with
    | none => simp [putVal, e]
    | some n => simp [keyOf, getElem?_putVal_self h v e, e]
  · simp [keyOf, getElem?_putVal_ne h v hb]

theorem fwd_putVal (h : Heap) (a : Nat) (v : String) (b j : Nat) :
    fwd (putVal h a v) b j = fwd h b j := by
  by_cases hb : b = a
  · subst hb
    cases e : h[b]? with
    | none => simp [putVal, e]
    | some n => simp [fwd, getElem?_putVal_self h v e, e]
  · simp [fwd, getElem?_putVal_ne h v hb]

theorem valOf_putVal (h : Heap) (a : Nat) (v : String) (b : Nat) :
    valOf (putVal h a v) b = if b = a ∧ a < h.length then v else valOf h b := by
  by_cases hb : b = a
  · subst hb
    cases e : h[b]? with
    | none =>
      have hge : ¬ b < h.length := by
        intro hlt
        rw [List.getElem?_eq_getElem hlt] at e
        cases e
      simp [putVal, e, hge]
    | some n =>
      have hlt : b < h.length := by
        by_contra hc
        rw [List.getElem?_eq_none (by omega)] at e
        cases e
      simp [valOf, getElem?_putVal_self h v e, hlt]
  · simp [valOf, getElem?_putVal_ne h v hb, hb]

/-! ## Frame facts: readers only depend on the node they read -/

theorem hgt_congr {h h' : Heap} {a : Nat} (e : h'[a]? = h[a]?) : hgt h' a = hgt h a := by
  simp [hgt, e]

theorem keyOf_congr {h h' : Heap} {a : Nat} (e : h'[a]? = h[a]?) : keyOf h' a = keyOf h a := by
  simp [keyOf, e]

theorem valOf_congr {h h' : Heap} {a : Nat} (e : h'[a]? = h[a]?) : valOf h' a = valOf h a := by
  simp [valOf, e]

theorem fwd_congr {h h' : Heap} {a : Nat} (i : Nat) (e : h'[a]? = h[a]?) :
    fwd h' a i = fwd h a i := by
  simp [fwd, e]

theorem getElem?_alloc_old (h : Heap) (nd : Node) {a : Nat} (ha : a < h.length) :
    (h ++ [nd])[a]? = h[a]? := by
  simp [List.getElem?_append_left ha]

theorem getElem?_alloc_new (h : Heap) (nd : Node) : (h ++ [nd])[h.length]? = some nd := by
  simp

/-! ## Chains of links -/

theorem Linked.congr {h h' : Heap} {i : Nat} :
    ∀ (l : List Nat) (x : Nat), (∀ a ∈ x :: l, fwd h' a i = fwd h a i) →
      Linked h i x l → Linked h' i x l
  | [], x, hc, hl => by
    simp only [Linked] at hl ⊢
    rw [hc x (by simp)]; exact hl
  | a :: l, x, hc, hl => by
    simp only [Linked] at hl ⊢
    refine ⟨by rw [hc x (by simp)]; exact hl.1, ?_⟩
    exact Linked.congr l a (fun b hb => hc b (List.mem_cons_of_mem _ hb)) hl.2

theorem Linked.drop {h : Heap} {i : Nat} {b : Nat} {B : List Nat} :
    ∀ (A : List Nat) (x : Nat), Linked h i x (A ++ b :: B) → Linked h i b B
  | [], _, hl => hl.2
  | _ :: A, _, hl => Linked.drop A _ hl.2

theorem Linked.fwd_last {h : Heap} {i : Nat} {B : List Nat} :
    ∀ (A : List Nat) (x : Nat), Linked h i x (A ++ B) → fwd h (lastFrom x A) i = some B.head?
  | [], x, hl => by
    cases B with
    | nil => simpa [Linked, lastFrom] using hl
    | cons b B => simpa [Linked, lastFrom] using hl.1
  | a :: A, _, hl => by
    simpa [lastFrom] using Linked.fwd_last A a hl.2

/-- The inner loop walks over the nodes whose key is smaller than `key` and stops in front
of the first other one. -/
theorem advance_walk (h : Heap) (key : String) (i : Nat) (B : List Nat) :
    ∀ (A : List Nat) (x fuel : Nat), Linked h i x (A ++ B) →
      (∀ a ∈ A, 0 < hgt h a ∧ keyOf h a < key) →
      (∀ b, B.head? = some b → 0 < hgt h b ∧ ¬ keyOf h b < key) →
      A.length < fuel →
      advance h key i fuel (some x) = .ok (some (lastFrom x A))
  | [], x, fuel, hl, _, hB, hf => by
    obtain ⟨f, rfl⟩ : ∃ f, fuel = f + 1 := ⟨fuel - 1, by simp at hf; omega⟩
    cases B with
    | nil =>
      have h0 : fwd h x i = some none := by simpa [Linked] using hl
      simp [advance, forwardAt_of_fwd h0, lastFrom]
    | cons b B =>
      have h0 : fwd h x i = some (some b) := by simpa [Linked] using hl.1
      obtain ⟨hp, hk⟩ := hB b rfl
      obtain ⟨n, hn, hkey, -⟩ := load_of_hgt_pos hp
      have hs : strLess n.key key = false := by rw [strLess_false_iff, hkey]; exact hk
      simp [advance, forwardAt_of_fwd h0, hn, hs, lastFrom]
  | a :: A, x, fuel, hl, hA, hB, hf => by
    obtain ⟨f, rfl⟩ : ∃ f, fuel = f + 1 := ⟨fuel - 1, by simp at hf; omega⟩
    have h0 : fwd h x i = some (some a) := hl.1
    obtain ⟨hp, hk⟩ := hA a (by simp)
    obtain ⟨n, hn, hkey, -⟩ := load_of_hgt_pos hp
    have hs : strLess n.key key = true := by rw [strLess_iff, hkey]; exact hk
    have ih := advance_walk h key i B A a f hl.2
      (fun c hc => hA c (List.mem_cons_of_mem _ hc)) hB (by simpa using hf)
    simp [advance, forwardAt_of_fwd h0, hn, hs, ih, lastFrom]

/-! ## Lists of nodes -/

theorem lastFrom_append_cons (x b : Nat) (P A : List Nat) :
    lastFrom x (P ++ b :: A) = lastFrom b A := by
  induction P generalizing x with
  | nil => rfl
  | cons c P ih => simpa [lastFrom] using ih c

theorem lastFrom_mem (x : Nat) (A : List Nat) : lastFrom x A = x ∨ lastFrom x A ∈ A := by
  induction A generalizing x with
  | nil => exact Or.inl rfl
  | cons a A ih =>
    rcases ih a with e | e
    · exact Or.inr (by simp [lastFrom, e])
    · exact Or.inr (by simp [lastFrom, e])

theorem length_le_of_nodup_lt {l : List Nat} {n : Nat} (hn : l.Nodup) (hl : ∀ a ∈ l, a < n) :
    l.length ≤ n := by
  have hsub : l.toFinset ⊆ Finset.range n := by
    intro a ha
    simpa using hl a (by simpa using ha)
  have hc := Finset.card_le_card hsub
  rwa [List.toFinset_card_of_nodup hn, Finset.card_range] at hc

theorem mem_lane {h : Heap} {i a : Nat} {L : List Nat} :
    a ∈ lane h i L ↔ a ∈ L ∧ i < hgt h a := by
  simp [lane]

theorem lane_append (h : Heap) (i : Nat) (A B : List Nat) :
    lane h i (A ++ B) = lane h i A ++ lane h i B := by
  simp [lane]

theorem lane_cons (h : Heap) (i a : Nat) (L : List Nat) :
    lane h i (a :: L) = if i < hgt h a then a :: lane h i L else lane h i L := by
  by_cases hc : i < hgt h a <;> simp [lane, hc]

theorem lane_zero {h : Heap} {L : List Nat} (hp : ∀ a ∈ L, 0 < hgt h a) : lane h 0 L = L := by
  unfold lane
  rw [List.filter_eq_self]
  intro a ha
  simpa using hp a ha

theorem lane_top {h : Heap} {L : List Nat} {n : Nat} (hp : ∀ a ∈ L, hgt h a ≤ n) :
    lane h n L = [] := by
  unfold lane
  rw [List.filter_eq_nil_iff]
  intro a ha
  have := hp a ha
  simp; omega

theorem lane_congr {h h' : Heap} (i : Nat) {L : List Nat}
    (hc : ∀ a ∈ L, hgt h' a = hgt h a) : lane h' i L = lane h i L := by
  unfold lane
  apply List.filter_congr
  intro a ha
  rw [hc a ha]

theorem length_lane_le (h : Heap) (i : Nat) (L : List Nat) : (lane h i L).length ≤ L.length :=
  List.length_filter_le _ _

/-! ## Cutting a sorted chain at a key -/

theorem exists_cut (h : Heap) (key : String) :
    ∀ L : List Nat, L.Pairwise (fun a b => keyOf h a < keyOf h b) →
      ∃ L1 L2, Cut h key L L1 L2
  | [], _ => ⟨[], [], rfl, by simp, by simp⟩
  | a :: L, hs => by
    rw [List.pairwise_cons] at hs
    by_cases hk : keyOf h a < key
    · obtain ⟨L1, L2, hC⟩ := exists_cut h key L hs.2
      refine ⟨a :: L1, L2, by simp [hC.split], ?_, hC.above⟩
      intro b hb
      rcases List.mem_cons.mp hb with rfl | hb
      · exact hk
      · exact hC.below b hb
    · refine ⟨[], a :: L, rfl, by simp, ?_⟩
      intro b hb
      rcases List.mem_cons.mp hb with rfl | hb
      · exact hk
      · intro hlt
        exact hk (lt_trans (hs.1 b hb) hlt)

/-! ## The descent on a well-formed skip list -/

namespace Rep

variable {h : Heap} {sl : SkipList} {hd : Nat} {L L1 L2 : List Nat} {key : String}

theorem lt_length (R : Rep h sl hd L) {a : Nat} (ha : a ∈ L) : a < h.length :=
  lt_length_of_hgt_pos (R.hgt_pos a ha)

theorem hd_lt (R : Rep h sl hd L) : hd < h.length :=
  lt_length_of_hgt_pos (by rw [R.header_hgt]; simp [maxLevel])

theorem length_le (R : Rep h sl hd L) : L.length ≤ h.length :=
  length_le_of_nodup_lt (List.nodup_cons.mp R.nodup).2 (fun _ ha => R.lt_length ha)

theorem levels (R : Rep h sl hd L) : (sl.level + 1).toNat = sl.level.toNat + 1 := by
  have := R.level_nonneg
  omega

theorem level_toNat_le (R : Rep h sl hd L) : sl.level.toNat ≤ maxLevel := by
  have h1 := R.level_nonneg
  have h2 := R.level_le
  omega

theorem hd_not_mem (R : Rep h sl hd L) : hd ∉ L :=
  (List.nodup_cons.mp R.nodup).1

theorem advance_lane (R : Rep h sl hd L) (C : Cut h key L L1 L2) {i : Nat} (hi : i ≤ maxLevel)
    {x : Nat} (hx : x = hd ∨ x ∈ lane h i L1) :
    advance h key i (h.length + 1) (some x) = .ok (some (lastFrom hd (lane h i L1))) := by
  have hl := R.linked i hi
  rw [C.split, lane_append] at hl
  have hmem1 : ∀ a ∈ lane h i L1, a ∈ L := fun a ha => by
    rw [C.split]; exact List.mem_append_left _ (mem_lane.mp ha).1
  have hB : ∀ b, (lane h i L2).head? = some b → 0 < hgt h b ∧ ¬ keyOf h b < key := by
    intro b hb
    have hb2 : b ∈ L2 := (mem_lane.mp (List.mem_of_mem_head? hb)).1
    exact ⟨R.hgt_pos b (by rw [C.split]; exact List.mem_append_right _ hb2), C.above b hb2⟩
  have hlen : (lane h i L1).length < h.length + 1 := by
    have h1 := length_lane_le h i L1
    have h2 := R.length_le
    have h3 : L1.length ≤ L.length := by rw [C.split]; simp
    omega
  rcases hx with rfl | hx
  · exact advance_walk h key i _ _ x _ hl
      (fun a ha => ⟨R.hgt_pos a (hmem1 a ha), C.below a (mem_lane.mp ha).1⟩) hB hlen
  · obtain ⟨P, A, hPA⟩ := List.append_of_mem hx
    rw [hPA, List.append_assoc, List.cons_append] at hl
    have hl2 := Linked.drop P hd hl
    have hsub : ∀ a ∈ A, a ∈ lane h i L1 := fun a ha => by
      rw [hPA]; exact List.mem_append_right _ (List.mem_cons_of_mem _ ha)
    have hlenA : A.length < h.length + 1 := by
      have : A.length ≤ (lane h i L1).length := by rw [hPA]; simp; omega
      omega
    rw [hPA, lastFrom_append_cons]
    exact advance_walk h key i _ _ x _ hl2
      (fun a ha => ⟨R.hgt_pos a (hmem1 a (hsub a ha)), C.below a (mem_lane.mp (hsub a ha)).1⟩)
      hB hlenA

theorem lane_zero_left (R : Rep h sl hd L) (C : Cut h key L L1 L2) : lane h 0 L1 = L1 :=
  lane_zero (fun a ha => R.hgt_pos a (by rw [C.split]; exact List.mem_append_left _ ha))

theorem lane_top_left (R : Rep h sl hd L) (C : Cut h key L L1 L2) :
    lane h (sl.level.toNat + 1) L1 = [] :=
  lane_top (fun a ha => R.hgt_le a (by rw [C.split]; exact List.mem_append_left _ ha))

theorem pred_mem_lane (hd : Nat) (h : Heap) (n : Nat) (L1 : List Nat) :
    lastFrom hd (lane h (n + 1) L1) = hd ∨ lastFrom hd (lane h (n + 1) L1) ∈ lane h n L1 := by
  rcases lastFrom_mem hd (lane h (n + 1) L1) with e | e
  · exact Or.inl e
  · right
    have := mem_lane.mp e
    exact mem_lane.mpr ⟨this.1, by omega⟩

theorem descend_lane (R : Rep h sl hd L) (C : Cut h key L L1 L2) :
    ∀ n, n ≤ maxLevel + 1 →
      descend h key n (some (lastFrom hd (lane h n L1))) = .ok (some (lastFrom hd L1))
  | 0, _ => by simp [descend, R.lane_zero_left C]
  | n + 1, hn => by
    have hstep := R.advance_lane C (i := n) (by omega) (pred_mem_lane hd h n L1)
    simp only [descend, hstep]
    exact descend_lane R C n (by omega)

theorem findUpdate_lane (R : Rep h sl hd L) (C : Cut h key L L1 L2) :
    ∀ n, n ≤ maxLevel + 1 → ∀ upd : List Ptr, n ≤ upd.length →
      ∃ upd', findUpdate h key n (some (lastFrom hd (lane h n L1))) upd
          = .ok (some (lastFrom hd L1), upd') ∧ upd'.length = upd.length ∧
        (∀ i, i < n → upd'[i]? = some (some (lastFrom hd (lane h i L1)))) ∧
        (∀ i, n ≤ i → upd'[i]? = upd[i]?)
  | 0, _, upd, _ => ⟨upd, by simp [findUpdate, R.lane_zero_left C], rfl, by simp, by simp⟩
  | n + 1, hn, upd, hu => by
    have hstep := R.advance_lane C (i := n) (by omega) (pred_mem_lane hd h n L1)
    have hlt : n < upd.length := by omega
    obtain ⟨upd', he, hlen, hlow, hhigh⟩ :=
      findUpdate_lane R C n (by omega) (upd.set n (some (lastFrom hd (lane h n L1))))
        (by simp; omega)
    refine ⟨upd', ?_, by simpa using hlen, ?_, ?_⟩
    · simp only [findUpdate, hstep, assign, hlt, if_true]
      exact he
    · intro i hi
      by_cases hin : i < n
      · exact hlow i hin
      · have : i = n := by omega
        subst this
        rw [hhigh i (le_refl _)]
        simp [List.getElem?_set, hlt]
    · intro i hi
      rw [hhigh i (by omega)]
      simp [List.getElem?_set]
      omega

theorem descend_top (R : Rep h sl hd L) (C : Cut h key L L1 L2) :
    descend h key (sl.level + 1).toNat sl.header = .ok (some (lastFrom hd L1)) := by
  have hn : sl.level.toNat + 1 ≤ maxLevel + 1 := by have := R.level_toNat_le; omega
  have := R.descend_lane C (sl.level.toNat + 1) hn
  rw [R.lane_top_left C] at this
  rw [R.levels, R.header_eq]
  exact this

theorem findUpdate_top (R : Rep h sl hd L) (C : Cut h key L L1 L2) :
    ∃ upd', findUpdate h key (sl.level + 1).toNat sl.header (List.replicate (maxLevel + 1) none)
        = .ok (some (lastFrom hd L1), upd') ∧ upd'.length = maxLevel + 1 ∧
      (∀ i, i ≤ sl.level.toNat → upd'[i]? = some (some (lastFrom hd (lane h i L1)))) ∧
      (∀ i, sl.level.toNat < i → i ≤ maxLevel → upd'[i]? = some none) := by
  have hn : sl.level.toNat + 1 ≤ maxLevel + 1 := by have := R.level_toNat_le; omega
  obtain ⟨upd', he, hlen, hlow, hhigh⟩ :=
    R.findUpdate_lane C (sl.level.toNat + 1) hn (List.replicate (maxLevel + 1) none)
      (by simpa using hn)
  rw [R.lane_top_left C] at he
  refine ⟨upd', ?_, by simpa using hlen, fun i hi => hlow i (by omega), ?_⟩
  · rw [R.levels, R.header_eq]
    exact he
  · intro i h1 h2
    rw [hhigh i (by omega)]
    simp [List.getElem?_replicate]
    omega

theorem probe (R : Rep h sl hd L) (C : Cut h key L L1 L2) :
    forwardAt h (some (lastFrom hd L1)) 0 = .ok L2.head? := by
  have hl := R.linked 0 (Nat.zero_le _)
  rw [lane_zero R.hgt_pos, C.split] at hl
  exact forwardAt_of_fwd (Linked.fwd_last L1 hd hl)

theorem mem_right (_ : Rep h sl hd L) (C : Cut h key L L1 L2) {b : Nat} (hb : b ∈ L2) : b ∈ L := by
  rw [C.split]; exact List.mem_append_right _ hb

theorem mem_left (_ : Rep h sl hd L) (C : Cut h key L L1 L2) {a : Nat} (ha : a ∈ L1) : a ∈ L := by
  rw [C.split]; exact List.mem_append_left _ ha

theorem hit_nil (h : Heap) (key : String) : hit h none key = .ok false := rfl

theorem hit_cons (R : Rep h sl hd L) (C : Cut h key L L1 L2) {b : Nat} {L2' : List Nat}
    (e : L2 = b :: L2') : hit h (some b) key = .ok (keyOf h b == key) := by
  obtain ⟨n, hn, hk, -⟩ := load_of_hgt_pos (R.hgt_pos b (R.mem_right C (by simp [e])))
  simp [hit, hn, hk]

theorem load_value (R : Rep h sl hd L) {b : Nat} (hb : b ∈ L) :
    ∃ n, load h (some b) = .ok n ∧ n.value = valOf h b ∧ n.key = keyOf h b := by
  obtain ⟨n, hn, hk, hv⟩ := load_of_hgt_pos (R.hgt_pos b hb)
  exact ⟨n, hn, hv, hk⟩

end Rep

/-! ## The abstract map held by a chain -/

theorem pairs_append (h : Heap) (A B : List Nat) : pairs h (A ++ B) = pairs h A ++ pairs h B := by
  simp [pairs]

theorem pairs_cons (h : Heap) (a : Nat) (A : List Nat) :
    pairs h (a :: A) = (keyOf h a, valOf h a) :: pairs h A := rfl

theorem length_pairs (h : Heap) (A : List Nat) : (pairs h A).length = A.length := by
  simp [pairs]

theorem pairs_congr {h h' : Heap} {A : List Nat}
    (hk : ∀ a ∈ A, keyOf h' a = keyOf h a) (hv : ∀ a ∈ A, valOf h' a = valOf h a) :
    pairs h' A = pairs h A := by
  unfold pairs
  apply List.map_congr_left
  intro a ha
  rw [hk a ha, hv a ha]

theorem lookup_eq_none {k : String} :
    ∀ {l : List (String × String)}, (∀ q ∈ l, q.1 ≠ k) → lookup k l = none
  | [], _ => rfl
  | (k', v) :: t, hl => by
    have h1 : k' ≠ k := hl (k', v) (by simp)
    simp only [lookup, h1, if_false]
    exact lookup_eq_none (fun q hq => hl q (List.mem_cons_of_mem _ hq))

theorem lookup_append_left {k : String} :
    ∀ {l1 : List (String × String)} (l2 : List (String × String)),
      (∀ q ∈ l1, q.1 ≠ k) → lookup k (l1 ++ l2) = lookup k l2
  | [], _, _ => rfl
  | (k', v) :: t, l2, hl => by
    have h1 : k' ≠ k := hl (k', v) (by simp)
    simp only [List.cons_append, lookup, h1, if_false]
    exact lookup_append_left l2 (fun q hq => hl q (List.mem_cons_of_mem _ hq))

theorem keys_ne_of_below {h : Heap} {key : String} {A : List Nat}
    (hA : ∀ a ∈ A, keyOf h a < key) : ∀ q ∈ pairs h A, q.1 ≠ key := by
  intro q hq
  obtain ⟨a, ha, rfl⟩ := List.mem_map.mp hq
  exact ne_of_lt (hA a ha)

theorem keys_ne_of_above {h : Heap} {key : String} {A : List Nat}
    (hA : ∀ a ∈ A, key < keyOf h a) : ∀ q ∈ pairs h A, q.1 ≠ key := by
  intro q hq
  obtain ⟨a, ha, rfl⟩ := List.mem_map.mp hq
  exact ne_of_gt (hA a ha)

namespace Rep

variable {h : Heap} {sl : SkipList} {hd : Nat} {L L1 L2 : List Nat} {key : String}

/-- Behind the first node of the upper part every key is larger than `key`. -/
theorem above_tail (R : Rep h sl hd L) (C : Cut h key L L1 L2) {b : Nat} {L2' : List Nat}
    (e : L2 = b :: L2') : ∀ c ∈ L2', key < keyOf h c := by
  intro c hc
  have hs := R.sorted
  rw [C.split, e, List.pairwise_append] at hs
  have hbc : keyOf h b < keyOf h c := (List.pairwise_cons.mp hs.2.1).1 c hc
  have hb : ¬ keyOf h b < key := C.above b (by simp [e])
  exact lt_of_le_of_lt (not_lt.mp hb) hbc

theorem head_gt (_ : Rep h sl hd L) (C : Cut h key L L1 L2) {b : Nat} {L2' : List Nat}
    (e : L2 = b :: L2') (hne : keyOf h b ≠ key) : key < keyOf h b :=
  lt_of_le_of_ne (not_lt.mp (C.above b (by simp [e]))) (Ne.symm hne)

theorem lookup_nil (_ : Rep h sl hd L) (C : Cut h key L L1 L2) (e : L2 = []) :
    lookup key (pairs h L) = none := by
  rw [C.split, e, List.append_nil]
  exact lookup_eq_none (keys_ne_of_below C.below)

theorem lookup_hit (_ : Rep h sl hd L) (C : Cut h key L L1 L2) {b : Nat} {L2' : List Nat}
    (e : L2 = b :: L2') (hk : keyOf h b = key) :
    lookup key (pairs h L) = some (valOf h b) := by
  rw [C.split, pairs_append, lookup_append_left _ (keys_ne_of_below C.below), e, pairs_cons]
  simp [lookup, hk]

theorem lookup_miss (R : Rep h sl hd L) (C : Cut h key L L1 L2) {b : Nat} {L2' : List Nat}
    (e : L2 = b :: L2') (hk : keyOf h b ≠ key) :
    lookup key (pairs h L) = none := by
  rw [C.split, pairs_append, lookup_append_left _ (keys_ne_of_below C.below), e, pairs_cons]
  simp only [lookup, hk, if_false]
  exact lookup_eq_none (keys_ne_of_above (R.above_tail C e))

/-- `Search` on a well-formed skip list is the lookup in the level-0 sequence of pairs. -/
theorem search_eq (R : Rep h sl hd L) (key : String) :
    SkipList.Search h sl key = .ok (found (lookup key (pairs h L))) := by
  obtain ⟨L1, L2, C⟩ := exists_cut h key L R.sorted
  unfold SkipList.Search
  rw [R.descend_top C]
  simp only [R.probe C]
  cases e : L2 with
  | nil => simp [hit_nil, R.lookup_nil C e, found]
  | cons b L2' =>
    simp only [List.head?_cons, R.hit_cons C e]
    by_cases hk : keyOf h b = key
    · obtain ⟨n, hn, hv, -⟩ := R.load_value (R.mem_right C (by simp [e] : b ∈ L2))
      simp [hk, hn, hv, R.lookup_hit C e hk, found]
    · have hb : (keyOf h b == key) = false := by simpa using hk
      simp [hb, R.lookup_miss C e hk, found]

end Rep

/-! ## The loops of `Insert` -/

theorem randomLevelLoop_le :
    ∀ (fuel lvl : Nat) (r : Rand), lvl ≤ maxLevel → (randomLevelLoop fuel lvl r).1 ≤ maxLevel
  | 0, _, _, hl => hl
  | fuel + 1, lvl, r, hl => by
    unfold randomLevelLoop
    split
    · rename_i hc
      exact randomLevelLoop_le fuel (lvl + 1) _ (by omega)
    · exact hl

theorem randomLevel_le (r : Rand) : (randomLevel r).1 ≤ maxLevel :=
  randomLevelLoop_le _ 0 r (Nat.zero_le _)

theorem raiseHeader_spec (hdp : Ptr) :
    ∀ (cnt s : Nat) (upd : List Ptr), s + cnt ≤ upd.length →
      ∃ upd', raiseHeader hdp cnt (s : Int) upd = .ok upd' ∧ upd'.length = upd.length ∧
        ∀ i, upd'[i]? = if s ≤ i ∧ i < s + cnt then some hdp else upd[i]?
  | 0, s, upd, _ => ⟨upd, rfl, rfl, fun i => by
      have : ¬ (s ≤ i ∧ i < s + 0) := by omega
      rw [if_neg this]⟩
  | cnt + 1, s, upd, hl => by
    have hlt : s < upd.length := by omega
    obtain ⟨upd', he, hlen, hget⟩ := raiseHeader_spec hdp cnt (s + 1) (upd.set s hdp)
      (by simp; omega)
    refine ⟨upd', ?_, by simpa using hlen, ?_⟩
    · have hneg : ¬ ((s : Int) < 0) := by omega
      simp only [raiseHeader, hneg, if_false, Int.toNat_ofNat, assign, hlt, if_true]
      exact_mod_cast he
    · intro i
      rw [hget i]
      by_cases h1 : s + 1 ≤ i ∧ i < s + 1 + cnt
      · have h2 : s ≤ i ∧ i < s + (cnt + 1) := by omega
        simp [h1, h2]
      · by_cases h3 : i = s
        · subst h3
          have h2 : i ≤ i ∧ i < i + (cnt + 1) := by omega
          simp [h1, h2, List.getElem?_set, hlt]
        · have h2 : ¬ (s ≤ i ∧ i < s + (cnt + 1)) := by omega
          simp [h1, h2, List.getElem?_set, Ne.symm h3]

/-- The relinking loop of `Insert`, run for the levels `i .. i + cnt - 1` with the recorded
predecessors `u j`: at each of these levels the new node `n` takes over the link of `u j`,
and `u j` points to `n`. -/
theorem splice_spec (n : Nat) (u : Nat → Nat) (upd : List Ptr) :
    ∀ (cnt i : Nat) (g : Heap),
      (∀ j, i ≤ j → j < i + cnt → upd[j]? = some (some (u j)) ∧ j < hgt g (u j) ∧ u j ≠ n) →
      i + cnt ≤ hgt g n →
      ∃ g', splice (some n) upd cnt i g = .ok g' ∧ g'.length = g.length ∧
        (∀ a, hgt g' a = hgt g a) ∧ (∀ a, keyOf g' a = keyOf g a) ∧
        (∀ a, valOf g' a = valOf g a) ∧
        (∀ a j, fwd g' a j =
          if i ≤ j ∧ j < i + cnt then
            (if a = u j then some (some n) else if a = n then fwd g (u j) j else fwd g a j)
          else fwd g a j) ∧
        (∀ a, a ≠ n → (∀ j, i ≤ j → j < i + cnt → a ≠ u j) → g'[a]? = g[a]?)
  | 0, i, g, _, _ => by
    refine ⟨g, rfl, rfl, fun _ => rfl, fun _ => rfl, fun _ => rfl, ?_, fun _ _ _ => rfl⟩
    intro a j
    have : ¬ (i ≤ j ∧ j < i + 0) := by omega
    rw [if_neg this]
  | cnt + 1, i, g, hu, hn => by
    obtain ⟨hui, hlt, hne⟩ := hu i (le_refl _) (by omega)
    obtain ⟨f, hf⟩ := fwd_some_of_lt hlt
    have hidx : index upd i = .ok (some (u i)) := by simp [index, hui]
    have hs1 : storeForward g (some n) i f = .ok (putFwd g n i f) :=
      storeForward_eq f (by omega)
    have hs2 : storeForward (putFwd g n i f) (some (u i)) i (some n)
        = .ok (putFwd (putFwd g n i f) (u i) i (some n)) :=
      storeForward_eq _ (by rw [hgt_putFwd]; exact hlt)
    have hin : i < hgt g n := by omega
    have key : ∀ x j, fwd (putFwd (putFwd g n i f) (u i) i (some n)) x j =
        if x = u i ∧ j = i then some (some n) else if x = n ∧ j = i then some f
        else fwd g x j := by
      intro x j
      simp only [fwd_putFwd, hgt_putFwd, hlt, hin, and_true]
    obtain ⟨g', he, hlen, hh, hk, hv, hfw, hfr⟩ :=
      splice_spec n u upd cnt (i + 1) (putFwd (putFwd g n i f) (u i) i (some n))
        (fun j h1 h2 => by
          obtain ⟨a1, a2, a3⟩ := hu j (by omega) (by omega)
          exact ⟨a1, by simpa [hgt_putFwd] using a2, a3⟩)
        (by simp only [hgt_putFwd]; omega)
    refine ⟨g', ?_, ?_, ?_, ?_, ?_, ?_, ?_⟩
    · simp only [splice, hidx, forwardAt_of_fwd hf, hs1, hs2]
      exact he
    · simpa [length_putFwd] using hlen
    · intro a; rw [hh a]; simp [hgt_putFwd]
    · intro a; rw [hk a]; simp [keyOf_putFwd]
    · intro a; rw [hv a]; simp [valOf_putFwd]
    · intro a j
      rw [hfw a j]
      by_cases hj : j = i
      · subst hj
        have c1 : ¬ (j + 1 ≤ j ∧ j < j + 1 + cnt) := by omega
        have c2 : j ≤ j ∧ j < j + (cnt + 1) := by omega
        simp only [c1, c2, if_false, if_true, key, and_true]
        by_cases ha : a = u j
        · simp [ha]
        · by_cases ha2 : a = n
          · simp [ha, ha2, hf, Ne.symm hne]
          · simp [ha, ha2]
      · by_cases c1 : i + 1 ≤ j ∧ j < i + 1 + cnt
        · have c2 : i ≤ j ∧ j < i + (cnt + 1) := by omega
          simp only [c1, c2, if_true, key, hj, and_false, if_false]
        · have c2 : ¬ (i ≤ j ∧ j < i + (cnt + 1)) := by omega
          simp only [c1, c2, if_false, key, hj, and_false]
    · intro a ha hau
      rw [hfr a ha (fun j h1 h2 => hau j (by omega) (by omega))]
      rw [getElem?_putFwd_ne _ _ _ (hau i (le_refl _) (by omega)), getElem?_putFwd_ne _ _ _ ha]

theorem storeValue_eq {h : Heap} {a : Nat} (v : String) (hp : 0 < hgt h a) :
    storeValue h (some a) v = .ok (putVal h a v) := by
  obtain ⟨n, hn⟩ := valid_of_hgt_pos hp
  simp [storeValue, putVal, hn]

theorem Linked.splice_in {h h' : Heap} {i n : Nat} {B : List Nat} :
    ∀ (A : List Nat) (x : Nat), Linked h i x (A ++ B) → (x :: (A ++ B)).Nodup →
      fwd h' (lastFrom x A) i = some (some n) → fwd h' n i = fwd h (lastFrom x A) i →
      (∀ a ∈ x :: (A ++ B), a ≠ lastFrom x A → fwd h' a i = fwd h a i) →
      Linked h' i x (A ++ n :: B)
  | [], x, hl, hnd, h1, h2, h3 => by
    simp only [lastFrom] at h1 h2 h3
    simp only [List.nil_append] at hl hnd h3 ⊢
    refine ⟨h1, ?_⟩
    cases B with
    | nil =>
      simp only [Linked] at hl ⊢
      rw [h2]; exact hl
    | cons b B =>
      simp only [Linked] at hl ⊢
      refine ⟨by rw [h2]; exact hl.1, ?_⟩
      refine Linked.congr B b (fun a ha => h3 a (List.mem_cons_of_mem _ ha) ?_) hl.2
      rintro rfl
      exact (List.nodup_cons.mp hnd).1 ha
  | a :: A, x, hl, hnd, h1, h2, h3 => by
    simp only [lastFrom] at h1 h2 h3
    have hx : x ≠ lastFrom a A := by
      intro hc
      have hmem : lastFrom a A ∈ a :: A := by
        rcases lastFrom_mem a A with e | e
        · rw [e]; simp
        · exact List.mem_cons_of_mem _ e
      apply (List.nodup_cons.mp hnd).1
      rw [hc]
      exact List.mem_append_left B hmem
    refine ⟨by rw [h3 x (by simp) hx]; exact hl.1, ?_⟩
    exact Linked.splice_in A a hl.2 (List.nodup_cons.mp hnd).2 h1 h2
      (fun c hc hne => h3 c (List.mem_cons_of_mem _ hc) hne)

/-! ## The abstract insert -/

theorem upsert_append_below {k v : String} :
    ∀ {l1 : List (String × String)} (l2 : List (String × String)),
      (∀ q ∈ l1, q.1 < k) → upsert k v (l1 ++ l2) = l1 ++ upsert k v l2
  | [], _, _ => rfl
  | (k', v') :: t, l2, hl => by
    have h1 : k' < k := hl (k', v') (by simp)
    have ih := upsert_append_below (k := k) (v := v) l2
      (fun q hq => hl q (List.mem_cons_of_mem _ hq))
    show upsert k v ((k', v') :: (t ++ l2)) = (k', v') :: (t ++ upsert k v l2)
    simp only [upsert, h1, if_true, ih]

theorem upsert_above {k v : String} {l : List (String × String)}
    (hl : ∀ q ∈ l, k < q.1) : upsert k v l = (k, v) :: l := by
  cases l with
  | nil => rfl
  | cons q t =>
    obtain ⟨k', v'⟩ := q
    have h1 : k < k' := hl (k', v') (by simp)
    simp [upsert, not_lt_of_lt h1, ne_of_gt h1]

theorem upsert_head (k v v' : String) (t : List (String × String)) :
    upsert k v ((k, v') :: t) = (k, v) :: t := by
  simp [upsert]

theorem keys_lt_of_below {h : Heap} {key : String} {A : List Nat}
    (hA : ∀ a ∈ A, keyOf h a < key) : ∀ q ∈ pairs h A, q.1 < key := by
  intro q hq
  obtain ⟨a, ha, rfl⟩ := List.mem_map.mp hq
  exact hA a ha

theorem keys_gt_of_above {h : Heap} {key : String} {A : List Nat}
    (hA : ∀ a ∈ A, key < keyOf h a) : ∀ q ∈ pairs h A, key < q.1 := by
  intro q hq
  obtain ⟨a, ha, rfl⟩ := List.mem_map.mp hq
  exact hA a ha

namespace Rep

variable {h : Heap} {sl : SkipList} {hd : Nat} {L L1 L2 : List Nat} {key : String}

/-- The invariant only reads the heights, keys and links of the header and of the chain. -/
theorem transfer (R : Rep h sl hd L) {h' : Heap}
    (hh : ∀ a ∈ hd :: L, hgt h' a = hgt h a) (hk : ∀ a ∈ L, keyOf h' a = keyOf h a)
    (hf : ∀ i, ∀ a ∈ hd :: L, fwd h' a i = fwd h a i) : Rep h' sl hd L where
  header_eq := R.header_eq
  header_hgt := by rw [hh hd (by simp)]; exact R.header_hgt
  level_nonneg := R.level_nonneg
  level_le := R.level_le
  nodup := R.nodup
  hgt_pos := fun a ha => by rw [hh a (List.mem_cons_of_mem _ ha)]; exact R.hgt_pos a ha
  hgt_le := fun a ha => by rw [hh a (List.mem_cons_of_mem _ ha)]; exact R.hgt_le a ha
  sorted := R.sorted.imp_of_mem (fun {a b} ha hb hab => by rw [hk a ha, hk b hb]; exact hab)
  linked := fun i hi => by
    rw [lane_congr i (fun a ha => hh a (List.mem_cons_of_mem _ ha))]
    refine Linked.congr _ hd (fun a ha => hf i a ?_) (R.linked i hi)
    rcases List.mem_cons.mp ha with rfl | ha
    · simp
    · exact List.mem_cons_of_mem _ (mem_lane.mp ha).1
  size_eq := R.size_eq

/-- A heap that agrees with `h` on the header and the chain represents the same skip list. -/
theorem frame (R : Rep h sl hd L) {h' : Heap} (hfr : ∀ a ∈ hd :: L, h'[a]? = h[a]?) :
    Rep h' sl hd L ∧ pairs h' L = pairs h L :=
  ⟨R.transfer (fun a ha => hgt_congr (hfr a ha))
      (fun a ha => keyOf_congr (hfr a (List.mem_cons_of_mem _ ha)))
      (fun i a ha => fwd_congr i (hfr a ha)),
    pairs_congr (fun a ha => keyOf_congr (hfr a (List.mem_cons_of_mem _ ha)))
      (fun a ha => valOf_congr (hfr a (List.mem_cons_of_mem _ ha)))⟩

/-- `Insert` of a key that is present overwrites the value of its node and nothing else. -/
theorem insert_present (R : Rep h sl hd L) (C : Cut h key L L1 L2) {b : Nat} {L2' : List Nat}
    (e : L2 = b :: L2') (hk : keyOf h b = key) (rng : Rand) (value : String) :
    SkipList.Insert h sl rng key value = .ok (putVal h b value, sl, rng) ∧
      Rep (putVal h b value) sl hd L ∧
      pairs (putVal h b value) L = upsert key value (pairs h L) := by
  have hbL : b ∈ L := R.mem_right C (by simp [e])
  obtain ⟨upd', he, -, -, -⟩ := R.findUpdate_top C
  have hhit : hit h (some b) key = .ok true := by rw [R.hit_cons C e]; simp [hk]
  refine ⟨?_, ?_, ?_⟩
  · unfold SkipList.Insert
    simp only [he, R.probe C, e, List.head?_cons, hhit, storeValue_eq value (R.hgt_pos b hbL)]
  · exact R.transfer (fun a _ => hgt_putVal _ _ _ _) (fun a _ => keyOf_putVal _ _ _ _)
      (fun i a _ => fwd_putVal _ _ _ _ _)
  · have hnd : (L1 ++ b :: L2').Nodup := by
      have := (List.nodup_cons.mp R.nodup).2
      rwa [C.split, e] at this
    have hb1 : ∀ a ∈ L1, a ≠ b := fun a ha hab =>
      (List.disjoint_of_nodup_append hnd) ha (by simp [hab])
    have hb2 : ∀ a ∈ L2', a ≠ b := fun a ha hab => by
      have := (List.nodup_cons.mp (List.nodup_append.mp hnd).2.1).1
      exact this (hab ▸ ha)
    have hblt : b < h.length := R.lt_length hbL
    have p1 : pairs (putVal h b value) L1 = pairs h L1 :=
      pairs_congr (fun a _ => keyOf_putVal _ _ _ _)
        (fun a ha => by rw [valOf_putVal]; simp [hb1 a ha])
    have p2 : pairs (putVal h b value) L2' = pairs h L2' :=
      pairs_congr (fun a _ => keyOf_putVal _ _ _ _)
        (fun a ha => by rw [valOf_putVal]; simp [hb2 a ha])
    rw [C.split, e, pairs_append, pairs_append, pairs_cons, pairs_cons, p1, p2,
      upsert_append_below _ (keys_lt_of_below C.below), keyOf_putVal, valOf_putVal, hk,
      upsert_head]
    simp [hblt]

theorem pred_cases (hd : Nat) (h : Heap) (j : Nat) (L1 : List Nat) :
    lastFrom hd (lane h j L1) = hd ∨
      (lastFrom hd (lane h j L1) ∈ L1 ∧ j < hgt h (lastFrom hd (lane h j L1))) := by
  rcases lastFrom_mem hd (lane h j L1) with e | e
  · exact Or.inl e
  · exact Or.inr (mem_lane.mp e)

theorem pred_mem (R : Rep h sl hd L) (C : Cut h key L L1 L2) (j : Nat) :
    lastFrom hd (lane h j L1) ∈ hd :: L := by
  rcases pred_cases hd h j L1 with e | e
  · rw [e]; simp
  · exact List.mem_cons_of_mem _ (R.mem_left C e.1)

theorem pred_lt_hgt (R : Rep h sl hd L) {j : Nat} (hj : j ≤ maxLevel) (L1 : List Nat) :
    j < hgt h (lastFrom hd (lane h j L1)) := by
  rcases pred_cases hd h j L1 with e | e
  · rw [e, R.header_hgt]; omega
  · exact e.2

theorem mem_lt (R : Rep h sl hd L) {a : Nat} (ha : a ∈ hd :: L) : a < h.length := by
  rcases List.mem_cons.mp ha with rfl | ha
  · exact R.hd_lt
  · exact R.lt_length ha

theorem hit_absent (R : Rep h sl hd L) (C : Cut h key L L1 L2)
    (hm : ∀ b, L2.head? = some b → keyOf h b ≠ key) : hit h L2.head? key = .ok false := by
  cases e : L2 with
  | nil => rfl
  | cons b L2' =>
    rw [List.head?_cons, R.hit_cons C e]
    have := hm b (by simp [e])
    simp [this]

theorem above_strict (R : Rep h sl hd L) (C : Cut h key L L1 L2)
    (hm : ∀ b, L2.head? = some b → keyOf h b ≠ key) : ∀ b ∈ L2, key < keyOf h b := by
  intro b hb
  cases e : L2 with
  | nil => simp [e] at hb
  | cons c L2' =>
    rw [e] at hb
    rcases List.mem_cons.mp hb with rfl | hb
    · exact R.head_gt C e (hm b (by simp [e]))
    · exact R.above_tail C e b hb

/-- The recorded predecessors after the header has been entered for the new top levels. -/
theorem raised_spec (R : Rep h sl hd L) (C : Cut h key L L1 L2) {upd' : List Ptr}
    (hlen : upd'.length = maxLevel + 1)
    (hlow : ∀ i, i ≤ sl.level.toNat → upd'[i]? = some (some (lastFrom hd (lane h i L1))))
    {lvl : Nat} (hlvl : lvl ≤ maxLevel) :
    ∃ update1,
      (if (lvl : Int) > sl.level then
          raiseHeader sl.header (lvl - sl.level).toNat (sl.level + 1) upd'
        else .ok upd') = .ok update1 ∧
      ∀ j, j ≤ lvl → update1[j]? = some (some (lastFrom hd (lane h j L1))) := by
  have hlv : sl.level = (sl.level.toNat : Int) := (Int.toNat_of_nonneg R.level_nonneg).symm
  by_cases hc : (lvl : Int) > sl.level
  · have hlt : sl.level.toNat < lvl := by omega
    obtain ⟨u1, he, -, hget⟩ := raiseHeader_spec (some hd) (lvl - sl.level.toNat)
      (sl.level.toNat + 1) upd' (by omega)
    have e1 : (lvl - sl.level).toNat = lvl - sl.level.toNat := by omega
    have e2 : sl.level + 1 = ((sl.level.toNat + 1 : Nat) : Int) := by omega
    refine ⟨u1, ?_, ?_⟩
    · rw [if_pos hc, e1, e2, R.header_eq]
      exact he
    · intro j hj
      rw [hget j]
      by_cases hjl : j ≤ sl.level.toNat
      · have : ¬ (sl.level.toNat + 1 ≤ j ∧ j < sl.level.toNat + 1 + (lvl - sl.level.toNat)) := by
          omega
        rw [if_neg this]
        exact hlow j hjl
      · have : sl.level.toNat + 1 ≤ j ∧ j < sl.level.toNat + 1 + (lvl - sl.level.toNat) := by
          omega
        rw [if_pos this]
        have htop : lane h j L1 = [] :=
          lane_top (fun a ha => by have := R.hgt_le a (R.mem_left C ha); omega)
        rw [htop]
        rfl
  · refine ⟨upd', by rw [if_neg hc], ?_⟩
    intro j hj
    exact hlow j (by omega)

theorem lane_sublist (h : Heap) (i : Nat) (L : List Nat) : (lane h i L).Sublist L :=
  List.filter_sublist _

/-- `Insert` of a key that is absent allocates one node at the fresh address `len(heap)` and
links it in between the two parts of the cut. -/
theorem insert_absent (R : Rep h sl hd L) (C : Cut h key L L1 L2)
    (hm : ∀ b, L2.head? = some b → keyOf h b ≠ key) (rng : Rand) (value : String) :
    ∃ h' sl', SkipList.Insert h sl rng key value = .ok (h', sl', (randomLevel rng).2) ∧
      Rep h' sl' hd (L1 ++ h.length :: L2) ∧
      pairs h' (L1 ++ h.length :: L2) = upsert key value (pairs h L) ∧
      h'.length = h.length + 1 ∧
      (∀ a, a < h.length → a ∉ hd :: L → h'[a]? = h[a]?) ∧
      sl'.size = sl.size + 1 := by
  obtain ⟨lvl, hl⟩ : ∃ lvl, (randomLevel rng).1 = lvl := ⟨_, rfl⟩
  have hlvl : lvl ≤ maxLevel := hl ▸ randomLevel_le rng
  obtain ⟨upd', he, hlen, hlow, -⟩ := R.findUpdate_top C
  obtain ⟨update1, hraise, hupd⟩ := R.raised_spec C hlen hlow hlvl
  have hnn : (newNode h lvl key value).2 = some h.length := rfl
  have hold : ∀ a, a < h.length → (newNode h lvl key value).1[a]? = h[a]? :=
    fun a ha => getElem?_alloc_old h _ ha
  have hnew : (newNode h lvl key value).1[h.length]? =
      some { key := key, value := value, forward := List.replicate (lvl + 1) none } :=
    getElem?_alloc_new h _
  have hgt_new : hgt (newNode h lvl key value).1 h.length = lvl + 1 := by
    simp [hgt, hnew]
  obtain ⟨g', hsp, hglen, hgh, hgk, hgv, hgf, hgfr⟩ :=
    splice_spec h.length (fun j => lastFrom hd (lane h j L1)) update1 (lvl + 1) 0
      (newNode h lvl key value).1
      (fun j _ hj => ⟨hupd j (by omega),
        by rw [hgt_congr (hold _ (R.mem_lt (R.pred_mem C j)))]
           exact R.pred_lt_hgt (by omega) L1,
        ne_of_lt (R.mem_lt (R.pred_mem C j))⟩)
      (by rw [hgt_new]; omega)
  have hgf' : ∀ a j, fwd g' a j =
      if j < lvl + 1 then
        (if a = lastFrom hd (lane h j L1) then some (some h.length)
          else if a = h.length then
            fwd (newNode h lvl key value).1 (lastFrom hd (lane h j L1)) j
          else fwd (newNode h lvl key value).1 a j)
      else fwd (newNode h lvl key value).1 a j := by
    intro a j
    rw [hgf a j]
    by_cases hj : j < lvl + 1
    · rw [if_pos hj, if_pos ⟨Nat.zero_le _, by omega⟩]
    · rw [if_neg hj, if_neg (by omega)]
  have hL : ∀ a ∈ L, a < h.length := fun a ha => R.lt_length ha
  have oh : ∀ a, a < h.length → hgt g' a = hgt h a :=
    fun a ha => by rw [hgh a, hgt_congr (hold a ha)]
  have okey : ∀ a, a < h.length → keyOf g' a = keyOf h a :=
    fun a ha => by rw [hgk a, keyOf_congr (hold a ha)]
  have oval : ∀ a, a < h.length → valOf g' a = valOf h a :=
    fun a ha => by rw [hgv a, valOf_congr (hold a ha)]
  have ofw : ∀ a j, a < h.length → fwd (newNode h lvl key value).1 a j = fwd h a j :=
    fun a j ha => fwd_congr j (hold a ha)
  have nh : hgt g' h.length = lvl + 1 := by rw [hgh, hgt_new]
  have nk : keyOf g' h.length = key := by rw [hgk]; simp [keyOf, hnew]
  have nv : valOf g' h.length = value := by rw [hgv]; simp [valOf, hnew]
  have lane1 : ∀ i, lane g' i L1 = lane h i L1 :=
    fun i => lane_congr i (fun a ha => oh a (hL a (R.mem_left C ha)))
  have lane2 : ∀ i, lane g' i L2 = lane h i L2 :=
    fun i => lane_congr i (fun a ha => oh a (hL a (R.mem_right C ha)))
  have hnL : h.length ∉ hd :: L := fun hc => lt_irrefl _ (R.mem_lt hc)
  have hrep : Rep g' { sl with level := (if (lvl : Int) > sl.level then (lvl : Int) else sl.level),
                               size := sl.size + 1 } hd (L1 ++ h.length :: L2) := by
    refine ⟨R.header_eq, by rw [oh hd R.hd_lt]; exact R.header_hgt, ?_, ?_, ?_, ?_, ?_, ?_, ?_, ?_⟩
    · have := R.level_nonneg
      show (0 : Int) ≤ if (lvl : Int) > sl.level then (lvl : Int) else sl.level
      split_ifs <;> omega
    · have := R.level_le
      show (if (lvl : Int) > sl.level then (lvl : Int) else sl.level) ≤ maxLevel
      split_ifs <;> omega
    · have hnd := R.nodup
      rw [C.split] at hnd hnL
      rw [List.nodup_cons] at hnd ⊢
      refine ⟨?_, (List.perm_middle.nodup_iff).mpr (List.nodup_cons.mpr ⟨?_, hnd.2⟩)⟩
      · intro hc
        rcases List.mem_append.mp hc with hc | hc
        · exact hnd.1 (List.mem_append_left _ hc)
        · rcases List.mem_cons.mp hc with hc | hc
          · exact hnL (by rw [hc]; simp)
          · exact hnd.1 (List.mem_append_right _ hc)
      · intro hc
        exact hnL (List.mem_cons_of_mem _ hc)
    · intro a ha
      rcases List.mem_append.mp ha with ha | ha
      · rw [oh a (hL a (R.mem_left C ha))]; exact R.hgt_pos a (R.mem_left C ha)
      · rcases List.mem_cons.mp ha with rfl | ha
        · rw [nh]; omega
        · rw [oh a (hL a (R.mem_right C ha))]; exact R.hgt_pos a (R.mem_right C ha)
    · have hnn0 := R.level_nonneg
      have key1 : ∀ a ∈ L, hgt g' a ≤
          (if (lvl : Int) > sl.level then (lvl : Int) else sl.level).toNat + 1 := by
        intro a ha
        rw [oh a (hL a ha)]
        have := R.hgt_le a ha
        split_ifs <;> omega
      intro a ha
      show hgt g' a ≤ (if (lvl : Int) > sl.level then (lvl : Int) else sl.level).toNat + 1
      rcases List.mem_append.mp ha with ha | ha
      · exact key1 a (R.mem_left C ha)
      · rcases List.mem_cons.mp ha with rfl | ha
        · rw [nh]
          split_ifs <;> omega
        · exact key1 a (R.mem_right C ha)
    · have hs := R.sorted
      rw [C.split, List.pairwise_append] at hs
      rw [List.pairwise_append]
      refine ⟨hs.1.imp_of_mem (fun {a b} ha hb hab => ?_),
        List.pairwise_cons.mpr ⟨fun b hb => ?_, hs.2.1.imp_of_mem (fun {a b} ha hb hab => ?_)⟩,
        ?_⟩
      · rw [okey a (hL a (R.mem_left C ha)), okey b (hL b (R.mem_left C hb))]; exact hab
      · rw [nk, okey b (hL b (R.mem_right C hb))]; exact R.above_strict C hm b hb
      · rw [okey a (hL a (R.mem_right C ha)), okey b (hL b (R.mem_right C hb))]; exact hab
      · intro a ha b hb
        rcases List.mem_cons.mp hb with rfl | hb
        · rw [nk, okey a (hL a (R.mem_left C ha))]; exact C.below a ha
        · rw [okey a (hL a (R.mem_left C ha)), okey b (hL b (R.mem_right C hb))]
          exact hs.2.2 a ha b hb
    · intro i hi
      have hlk := R.linked i hi
      have hnd : (hd :: lane h i L).Nodup :=
        R.nodup.sublist (List.Sublist.cons₂ _ (lane_sublist h i L))
      have hmemL : ∀ a ∈ hd :: lane h i L, a < h.length := by
        intro a ha
        rcases List.mem_cons.mp ha with rfl | ha
        · exact R.hd_lt
        · exact hL a (mem_lane.mp ha).1
      rw [C.split, lane_append] at hlk hnd hmemL
      rw [lane_append, lane_cons, lane1, lane2, nh]
      by_cases hil : i < lvl + 1
      · rw [if_pos hil]
        refine Linked.splice_in _ hd hlk hnd ?_ ?_ ?_
        · rw [hgf', if_pos hil, if_pos rfl]
        · rw [hgf', if_pos hil, if_neg (ne_of_gt (R.mem_lt (R.pred_mem C i))), if_pos rfl,
            ofw _ _ (R.mem_lt (R.pred_mem C i))]
        · intro a ha hne
          rw [hgf', if_pos hil, if_neg hne, if_neg (ne_of_lt (hmemL a ha)), ofw a i (hmemL a ha)]
      · rw [if_neg hil]
        refine Linked.congr _ hd (fun a ha => ?_) hlk
        rw [hgf', if_neg hil, ofw a i (hmemL a ha)]
    · show sl.size + 1 = ((L1 ++ h.length :: L2).length : Int)
      rw [R.size_eq, C.split]
      simp only [List.length_append, List.length_cons]
      push_cast
      ring
  refine ⟨g', _, ?_, hrep, ?_, ?_, ?_, rfl⟩
  · unfold SkipList.Insert
    simp only [he, R.probe C, R.hit_absent C hm, hl, hraise, hnn, hsp]
  · rw [pairs_append, pairs_cons, nk, nv,
      @pairs_congr h g' L1 (fun a ha => okey a (hL a (R.mem_left C ha)))
        (fun a ha => oval a (hL a (R.mem_left C ha))),
      @pairs_congr h g' L2 (fun a ha => okey a (hL a (R.mem_right C ha)))
        (fun a ha => oval a (hL a (R.mem_right C ha))),
      C.split, pairs_append, upsert_append_below _ (keys_lt_of_below C.below),
      upsert_above (keys_gt_of_above (R.above_strict C hm))]
  · rw [hglen]; simp [newNode]
  · intro a ha hnot
    rw [hgfr a (ne_of_lt ha) (fun j _ _ hc => hnot (hc ▸ R.pred_mem C j)), hold a ha]

end Rep

/-! ## The loop of `Delete` -/

/-- The relinking loop of `Delete` on a node `x` of height `hx`: at the levels below `hx` the
predecessor `u j` points to `x` and takes over the link of `x`; at level `hx` the loop
breaks. -/
theorem unlink_spec (x hx : Nat) (u : Nat → Nat) (upd : List Ptr) :
    ∀ (cnt i : Nat) (g : Heap),
      (∀ j, i ≤ j → j < i + cnt → upd[j]? = some (some (u j)) ∧ j < hgt g (u j) ∧ u j ≠ x) →
      (∀ j, i ≤ j → j < i + cnt → j < hx → fwd g (u j) j = some (some x)) →
      (hx < i + cnt → fwd g (u hx) hx ≠ some (some x)) →
      hgt g x = hx → i ≤ hx →
      ∃ g', unlink (some x) upd cnt i g = .ok g' ∧ g'.length = g.length ∧
        (∀ a, hgt g' a = hgt g a) ∧ (∀ a, keyOf g' a = keyOf g a) ∧
        (∀ a, valOf g' a = valOf g a) ∧
        (∀ a j, fwd g' a j =
          if (i ≤ j ∧ j < i + cnt ∧ j < hx) ∧ a = u j then fwd g x j else fwd g a j) ∧
        (∀ a, (∀ j, i ≤ j → j < i + cnt → j < hx → a ≠ u j) → g'[a]? = g[a]?)
  | 0, i, g, _, _, _, _, _ => by
    refine ⟨g, rfl, rfl, fun _ => rfl, fun _ => rfl, fun _ => rfl, ?_, fun _ _ => rfl⟩
    intro a j
    have : ¬ ((i ≤ j ∧ j < i + 0 ∧ j < hx) ∧ a = u j) := by omega
    rw [if_neg this]
  | cnt + 1, i, g, hu, hpt, hbr, hhx, hi => by
    obtain ⟨hui, hlt, hne⟩ := hu i (le_refl _) (by omega)
    have hidx : index upd i = .ok (some (u i)) := by simp [index, hui]
    by_cases hih : i < hx
    · have hf := hpt i (le_refl _) (by omega) hih
      obtain ⟨fx, hfx⟩ := fwd_some_of_lt (h := g) (a := x) (i := i) (by omega)
      have hs : storeForward g (some (u i)) i fx = .ok (putFwd g (u i) i fx) :=
        storeForward_eq fx hlt
      have key : ∀ a j, fwd (putFwd g (u i) i fx) a j =
          if a = u i ∧ j = i then some fx else fwd g a j := by
        intro a j
        simp only [fwd_putFwd, hlt, and_true]
      obtain ⟨g', he, hlen, hh, hk, hv, hfw, hfr⟩ :=
        unlink_spec x hx u upd cnt (i + 1) (putFwd g (u i) i fx)
          (fun j h1 h2 => by
            obtain ⟨a1, a2, a3⟩ := hu j (by omega) (by omega)
            exact ⟨a1, by simpa [hgt_putFwd] using a2, a3⟩)
          (fun j h1 h2 h3 => by
            rw [key, if_neg (by omega)]
            exact hpt j (by omega) (by omega) h3)
          (fun h1 => by
            rw [key, if_neg (by omega)]
            exact hbr (by omega))
          (by rw [hgt_putFwd]; exact hhx) (by omega)
      refine ⟨g', ?_, ?_, ?_, ?_, ?_, ?_, ?_⟩
      · simp only [unlink, hidx, forwardAt_of_fwd hf, forwardAt_of_fwd hfx, hs, ne_eq,
          not_true_eq_false, if_false]
        exact he
      · simpa [length_putFwd] using hlen
      · intro a; rw [hh a]; simp [hgt_putFwd]
      · intro a; rw [hk a]; simp [keyOf_putFwd]
      · intro a; rw [hv a]; simp [valOf_putFwd]
      · intro a j
        rw [hfw a j, key, key]
        have hxu : ¬ (x = u i ∧ j = i) := fun hc => hne hc.1.symm
        rw [if_neg hxu]
        by_cases hj : j = i
        · subst hj
          have c1 : ¬ ((j + 1 ≤ j ∧ j < j + 1 + cnt ∧ j < hx) ∧ a = u j) := by omega
          rw [if_neg c1]
          by_cases ha : a = u j
          · have c2 : (j ≤ j ∧ j < j + (cnt + 1) ∧ j < hx) ∧ a = u j := ⟨by omega, ha⟩
            rw [if_pos c2, if_pos ⟨ha, rfl⟩, hfx]
          · have c2 : ¬ ((j ≤ j ∧ j < j + (cnt + 1) ∧ j < hx) ∧ a = u j) := fun hc => ha hc.2
            rw [if_neg c2, if_neg (fun hc => ha hc.1)]
        · have c3 : ¬ (a = u i ∧ j = i) := fun hc => hj hc.2
          rw [if_neg c3]
          by_cases c1 : (i + 1 ≤ j ∧ j < i + 1 + cnt ∧ j < hx) ∧ a = u j
          · have c2 : (i ≤ j ∧ j < i + (cnt + 1) ∧ j < hx) ∧ a = u j := ⟨by omega, c1.2⟩
            rw [if_pos c1, if_pos c2]
          · have c2 : ¬ ((i ≤ j ∧ j < i + (cnt + 1) ∧ j < hx) ∧ a = u j) := by
              intro hc
              exact c1 ⟨by omega, hc.2⟩
            rw [if_neg c1, if_neg c2]
      · intro a hau
        rw [hfr a (fun j h1 h2 h3 => hau j (by omega) (by omega) h3)]
        exact getElem?_putFwd_ne _ _ _ (hau i (le_refl _) (by omega) hih)
    · have hieq : i = hx := by omega
      obtain ⟨f, hf⟩ := fwd_some_of_lt hlt
      have hfne : f ≠ some x := by
        intro hc
        have := hbr (by omega)
        rw [← hieq, hf, hc] at this
        exact this rfl
      refine ⟨g, ?_, rfl, fun _ => rfl, fun _ => rfl, fun _ => rfl, ?_, fun _ _ => rfl⟩
      · simp only [unlink, hidx, forwardAt_of_fwd hf, ne_eq, hfne, not_false_eq_true, if_true]
      · intro a j
        have : ¬ ((i ≤ j ∧ j < i + (cnt + 1) ∧ j < hx) ∧ a = u j) := by omega
        rw [if_neg this]

theorem Linked.cut_out {h h' : Heap} {i x : Nat} {B : List Nat} :
    ∀ (A : List Nat) (y : Nat), Linked h i y (A ++ x :: B) → (y :: (A ++ x :: B)).Nodup →
      fwd h' (lastFrom y A) i = fwd h x i →
      (∀ a ∈ y :: (A ++ B), a ≠ lastFrom y A → fwd h' a i = fwd h a i) →
      Linked h' i y (A ++ B)
  | [], y, hl, hnd, h1, h2 => by
    simp only [lastFrom] at h1 h2
    simp only [List.nil_append] at hl hnd h2 ⊢
    have hlx : Linked h i x B := hl.2
    cases B with
    | nil =>
      simp only [Linked] at hlx ⊢
      rw [h1]; exact hlx
    | cons b B =>
      simp only [Linked] at hlx ⊢
      refine ⟨by rw [h1]; exact hlx.1, ?_⟩
      refine Linked.congr B b (fun a ha => h2 a (List.mem_cons_of_mem _ ha) ?_) hlx.2
      rintro rfl
      exact (List.nodup_cons.mp hnd).1 (List.mem_cons_of_mem _ ha)
  | a :: A, y, hl, hnd, h1, h2 => by
    simp only [lastFrom] at h1 h2
    have hy : y ≠ lastFrom a A := by
      intro hc
      have hmem : lastFrom a A ∈ a :: A := by
        rcases lastFrom_mem a A with e | e
        · rw [e]; simp
        · exact List.mem_cons_of_mem _ e
      apply (List.nodup_cons.mp hnd).1
      rw [hc]
      exact List.mem_append_left _ hmem
    refine ⟨by rw [h2 y (by simp) hy]; exact hl.1, ?_⟩
    exact Linked.cut_out A a hl.2 (List.nodup_cons.mp hnd).2 h1
      (fun c hc hne => h2 c (List.mem_cons_of_mem _ hc) hne)

theorem remove_append_below {k : String} :
    ∀ {l1 : List (String × String)} (l2 : List (String × String)),
      (∀ q ∈ l1, q.1 ≠ k) → remove k (l1 ++ l2) = l1 ++ remove k l2
  | [], _, _ => rfl
  | (k', v') :: t, l2, hl => by
    have h1 : k' ≠ k := hl (k', v') (by simp)
    have ih := remove_append_below (k := k) l2 (fun q hq => hl q (List.mem_cons_of_mem _ hq))
    show remove k ((k', v') :: (t ++ l2)) = (k', v') :: (t ++ remove k l2)
    simp only [remove, h1, if_false, ih]

theorem remove_head (k v : String) (t : List (String × String)) :
    remove k ((k, v) :: t) = t := by
  simp [remove]

theorem remove_of_absent {k : String} :
    ∀ {l : List (String × String)}, (∀ q ∈ l, q.1 ≠ k) → remove k l = l
  | [], _ => rfl
  | (k', v') :: t, hl => by
    have h1 : k' ≠ k := hl (k', v') (by simp)
    simp only [remove, h1, if_false]
    rw [remove_of_absent (fun q hq => hl q (List.mem_cons_of_mem _ hq))]

namespace Rep

variable {h : Heap} {sl : SkipList} {hd : Nat} {L L1 L2 : List Nat} {key : String}

/-- `Delete` of a key that is absent returns `false` and changes nothing. -/
theorem delete_absent (R : Rep h sl hd L) (C : Cut h key L L1 L2)
    (hm : ∀ b, L2.head? = some b → keyOf h b ≠ key) :
    SkipList.Delete h sl key = .ok (h, sl, false) := by
  obtain ⟨upd', he, -, -, -⟩ := R.findUpdate_top C
  unfold SkipList.Delete
  simp only [he, R.probe C, R.hit_absent C hm]

/-- `Delete` of a key that is present unlinks its node at every level it takes part in. -/
theorem delete_present (R : Rep h sl hd L) (C : Cut h key L L1 L2) {b : Nat} {L2' : List Nat}
    (e : L2 = b :: L2') (hk : keyOf h b = key) :
    ∃ h', SkipList.Delete h sl key = .ok (h', { sl with size := sl.size - 1 }, true) ∧
      Rep h' { sl with size := sl.size - 1 } hd (L1 ++ L2') ∧
      pairs h' (L1 ++ L2') = remove key (pairs h L) ∧
      h'.length = h.length ∧
      (∀ a, a ∉ hd :: L → h'[a]? = h[a]?) ∧
      (∀ a, hgt h' a = hgt h a) ∧ (∀ a, keyOf h' a = keyOf h a) ∧
      (∀ a, valOf h' a = valOf h a) := by
  have hbL2 : b ∈ L2 := by simp [e]
  have hbL : b ∈ L := R.mem_right C hbL2
  obtain ⟨upd', he, hlen, hlow, -⟩ := R.findUpdate_top C
  have hhit : hit h (some b) key = .ok true := by rw [R.hit_cons C e]; simp [hk]
  have hnd0 : (hd :: (L1 ++ b :: L2')).Nodup := by
    have := R.nodup
    rwa [C.split, e] at this
  have hb_notin : b ∉ L1 ++ L2' := by
    have h2 := (List.perm_middle.nodup_iff).mp (List.nodup_cons.mp hnd0).2
    exact (List.nodup_cons.mp h2).1
  have hpred_ne : ∀ j, lastFrom hd (lane h j L1) ≠ b := by
    intro j hc
    rcases pred_cases hd h j L1 with e1 | e1
    · rw [e1] at hc
      exact (List.nodup_cons.mp hnd0).1 (by rw [hc]; simp)
    · rw [hc] at e1
      exact hb_notin (List.mem_append_left _ e1.1)
  have hlvmax := R.level_toNat_le
  have hxle : hgt h b ≤ sl.level.toNat + 1 := R.hgt_le b hbL
  have hpt : ∀ j, j < hgt h b → fwd h (lastFrom hd (lane h j L1)) j = some (some b) := by
    intro j hj
    have hlk := R.linked j (by omega)
    rw [C.split, lane_append, e, lane_cons, if_pos hj] at hlk
    simpa using Linked.fwd_last _ hd hlk
  have hbr : hgt h b < sl.level.toNat + 1 →
      fwd h (lastFrom hd (lane h (hgt h b) L1)) (hgt h b) ≠ some (some b) := by
    intro hlt hc
    have hlk := R.linked (hgt h b) (by omega)
    rw [C.split, lane_append, e, lane_cons, if_neg (lt_irrefl _)] at hlk
    have := Linked.fwd_last _ hd hlk
    rw [hc] at this
    have hmem : b ∈ lane h (hgt h b) L2' := List.mem_of_mem_head? (Option.some.inj this).symm
    exact hb_notin (List.mem_append_right _ (mem_lane.mp hmem).1)
  obtain ⟨g', hun, hglen, hgh, hgk, hgv, hgf, hgfr⟩ :=
    unlink_spec b (hgt h b) (fun j => lastFrom hd (lane h j L1)) upd' (sl.level.toNat + 1) 0 h
      (fun j _ hj => ⟨hlow j (by omega), R.pred_lt_hgt (by omega) L1, hpred_ne j⟩)
      (fun j _ _ hj => hpt j hj)
      (fun hlt => hbr (by omega)) rfl (Nat.zero_le _)
  have hgf' : ∀ a j, fwd g' a j =
      if j < hgt h b ∧ a = lastFrom hd (lane h j L1) then fwd h b j else fwd h a j := by
    intro a j
    rw [hgf a j]
    by_cases hc : j < hgt h b ∧ a = lastFrom hd (lane h j L1)
    · rw [if_pos hc, if_pos ⟨⟨Nat.zero_le _, by omega, hc.1⟩, hc.2⟩]
    · rw [if_neg hc, if_neg (fun hc2 => hc ⟨hc2.1.2.2, hc2.2⟩)]
  have hsub : (L1 ++ L2').Sublist L := by
    rw [C.split, e]
    exact List.Sublist.append (List.Sublist.refl _) (List.sublist_cons_self _ _)
  have hrep : Rep g' { sl with size := sl.size - 1 } hd (L1 ++ L2') := by
    refine ⟨R.header_eq, by rw [hgh]; exact R.header_hgt, R.level_nonneg, R.level_le, ?_, ?_, ?_,
      ?_, ?_, ?_⟩
    · exact R.nodup.sublist (List.Sublist.cons₂ _ hsub)
    · intro a ha
      rw [hgh]; exact R.hgt_pos a (hsub.subset ha)
    · intro a ha
      rw [hgh]; exact R.hgt_le a (hsub.subset ha)
    · refine (R.sorted.sublist hsub).imp (fun {a c} hac => ?_)
      rw [hgk, hgk]; exact hac
    · intro i hi
      have hlk := R.linked i hi
      have hnd : (hd :: lane h i L).Nodup :=
        R.nodup.sublist (List.Sublist.cons₂ _ (lane_sublist h i L))
      rw [C.split, lane_append, e, lane_cons] at hlk hnd
      rw [lane_congr i (fun a _ => hgh a), lane_append]
      by_cases hih : i < hgt h b
      · rw [if_pos hih] at hlk hnd
        refine Linked.cut_out _ hd hlk hnd ?_ ?_
        · rw [hgf', if_pos ⟨hih, rfl⟩]
        · intro a _ hne
          rw [hgf', if_neg (fun hc => hne hc.2)]
      · rw [if_neg hih] at hlk
        refine Linked.congr _ hd (fun a _ => ?_) hlk
        rw [hgf', if_neg (fun hc => hih hc.1)]
    · show sl.size - 1 = ((L1 ++ L2').length : Int)
      rw [R.size_eq, C.split, e]
      simp only [List.length_append, List.length_cons]
      push_cast
      ring
  refine ⟨g', ?_, hrep, ?_, hglen, ?_, hgh, hgk, hgv⟩
  · unfold SkipList.Delete
    rw [R.levels] at he
    simp only [R.levels, he, R.probe C, e, List.head?_cons, hhit, hun]
  · rw [@pairs_congr h g' _ (fun a _ => hgk a) (fun a _ => hgv a), C.split, e,
      pairs_append, pairs_append, pairs_cons, hk,
      remove_append_below _ (keys_ne_of_below C.below), remove_head]
  · intro a hnot
    exact hgfr a (fun j _ _ _ hc => hnot (hc ▸ R.pred_mem C j))

end Rep

/-! ## Every operation keeps the invariant -/

theorem rep_fresh (h : Heap) :
    Rep (newNode h maxLevel "" "").1
      { header := (newNode h maxLevel "" "").2, level := 0, size := 0 } h.length [] := by
  have hnew : (newNode h maxLevel "" "").1[h.length]? =
      some { key := "", value := "", forward := List.replicate (maxLevel + 1) none } :=
    getElem?_alloc_new h _
  refine ⟨rfl, by simp [hgt, hnew], le_refl _, by simp, by simp, by simp, by simp,
    List.Pairwise.nil, ?_, rfl⟩
  intro i hi
  have hlt : i < maxLevel + 1 := by omega
  simp [lane, Linked, fwd, hnew, List.getElem?_replicate, hlt]

theorem rep_new (h0 : Heap) (seed : Rand) :
    Rep (NewSkipList h0 seed).1 (NewSkipList h0 seed).2.1 h0.length [] :=
  rep_fresh h0

theorem rep_reset (h : Heap) (sl : SkipList) :
    Rep (SkipList.Reset h sl).1 (SkipList.Reset h sl).2 h.length [] :=
  rep_fresh h

namespace Rep

variable {h : Heap} {sl : SkipList} {hd : Nat} {L L1 L2 : List Nat} {key : String}

theorem present_or_absent (h : Heap) (key : String) (L2 : List Nat) :
    (∃ b L2', L2 = b :: L2' ∧ keyOf h b = key) ∨
      (∀ b, L2.head? = some b → keyOf h b ≠ key) := by
  cases L2 with
  | nil => exact Or.inr (by simp)
  | cons b L2' =>
    by_cases hk : keyOf h b = key
    · exact Or.inl ⟨b, L2', rfl, hk⟩
    · exact Or.inr (fun c hc => by
        simp only [List.head?_cons, Option.some.injEq] at hc
        rw [← hc]; exact hk)

theorem lookup_absent (R : Rep h sl hd L) (C : Cut h key L L1 L2)
    (hm : ∀ b, L2.head? = some b → keyOf h b ≠ key) : lookup key (pairs h L) = none := by
  cases e : L2 with
  | nil => exact R.lookup_nil C e
  | cons b L2' => exact R.lookup_miss C e (hm b (by simp [e]))

theorem keys_ne_absent (R : Rep h sl hd L) (C : Cut h key L L1 L2)
    (hm : ∀ b, L2.head? = some b → keyOf h b ≠ key) : ∀ q ∈ pairs h L, q.1 ≠ key := by
  intro q hq
  rw [C.split, pairs_append] at hq
  rcases List.mem_append.mp hq with hq | hq
  · exact keys_ne_of_below C.below q hq
  · exact keys_ne_of_above (R.above_strict C hm) q hq

/-- `Insert` returns on every well-formed skip list, keeps it well formed and acts on the
level-0 sequence as the insert-or-overwrite of the pair; it only touches the header, the
nodes of the chain and the node it allocates. -/
theorem insert_spec (R : Rep h sl hd L) (rng : Rand) (key value : String) :
    ∃ h' sl' rng' L', SkipList.Insert h sl rng key value = .ok (h', sl', rng') ∧
      Rep h' sl' hd L' ∧
      pairs h' L' = upsert key value (pairs h L) ∧
      h.length ≤ h'.length ∧
      (∀ a, a < h.length → a ∉ hd :: L → h'[a]? = h[a]?) ∧
      (∀ a ∈ L', a ∈ L ∨ h.length ≤ a) := by
  obtain ⟨L1, L2, C⟩ := exists_cut h key L R.sorted
  rcases present_or_absent h key L2 with ⟨b, L2', e, hk⟩ | hm
  · obtain ⟨h1, h2, h3⟩ := R.insert_present C e hk rng value
    refine ⟨_, _, _, L, h1, h2, h3, by rw [length_putVal], ?_, fun a ha => Or.inl ha⟩
    intro a _ hnot
    refine getElem?_putVal_ne h value ?_
    rintro rfl
    exact hnot (List.mem_cons_of_mem _ (R.mem_right C (by simp [e])))
  · obtain ⟨h', sl', h1, h2, h3, h4, h5, -⟩ := R.insert_absent C hm rng value
    refine ⟨h', sl', _, _, h1, h2, h3, by omega, h5, ?_⟩
    intro a ha
    rcases List.mem_append.mp ha with ha | ha
    · exact Or.inl (R.mem_left C ha)
    · rcases List.mem_cons.mp ha with rfl | ha
      · exact Or.inr (le_refl _)
      · exact Or.inl (R.mem_right C ha)

/-- `Delete` returns on every well-formed skip list, keeps it well formed, acts on the
level-0 sequence as the removal of the key and reports whether the key was there. -/
theorem delete_spec (R : Rep h sl hd L) (key : String) :
    ∃ h' sl' b L', SkipList.Delete h sl key = .ok (h', sl', b) ∧
      Rep h' sl' hd L' ∧
      pairs h' L' = remove key (pairs h L) ∧
      h'.length = h.length ∧
      (∀ a, a ∉ hd :: L → h'[a]? = h[a]?) ∧
      (∀ a ∈ L', a ∈ L) ∧
      b = (lookup key (pairs h L)).isSome ∧
      (b = true → sl'.size = sl.size - 1) ∧
      (b = false → h' = h ∧ sl' = sl) := by
  obtain ⟨L1, L2, C⟩ := exists_cut h key L R.sorted
  rcases present_or_absent h key L2 with ⟨b, L2', e, hk⟩ | hm
  · obtain ⟨h', h1, h2, h3, h4, h5, -⟩ := R.delete_present C e hk
    refine ⟨h', _, true, _, h1, h2, h3, h4, h5, ?_, ?_, fun _ => rfl, fun hc => by cases hc⟩
    · intro a ha
      rw [C.split, e]
      rcases List.mem_append.mp ha with ha | ha
      · exact List.mem_append_left _ ha
      · exact List.mem_append_right _ (List.mem_cons_of_mem _ ha)
    · rw [R.lookup_hit C e hk]; rfl
  · refine ⟨h, sl, false, L, R.delete_absent C hm, R, ?_, rfl, fun _ _ => rfl,
      fun _ ha => ha, ?_, (fun hc => by cases hc), fun _ => ⟨rfl, rfl⟩⟩
    · rw [remove_of_absent (R.keys_ne_absent C hm)]
    · rw [R.lookup_absent C hm]; rfl

end Rep

/-- Every reachable index state is a well-formed skip list. -/
theorem Reachable.rep {h : Heap} {sl : SkipList} (hr : Reachable h sl) :
    ∃ hd L, Rep h sl hd L := by
  induction hr with
  | new h0 seed => exact ⟨_, _, rep_new h0 seed⟩
  | insert rng key value _ he ih =>
    obtain ⟨hd, L, R⟩ := ih
    obtain ⟨h', sl', rng', L', h1, h2, -⟩ := R.insert_spec rng key value
    rw [h1] at he
    cases he
    exact ⟨hd, L', h2⟩
  | delete key _ he ih =>
    obtain ⟨hd, L, R⟩ := ih
    obtain ⟨h', sl', b, L', h1, h2, -⟩ := R.delete_spec key
    rw [h1] at he
    cases he
    exact ⟨hd, L', h2⟩
  | reset _ _ => exact ⟨_, _, rep_reset _ _⟩

/-! ## The level-0 traversal -/

theorem Linked.fwd_head {h : Heap} {i x : Nat} {l : List Nat} (hl : Linked h i x l) :
    fwd h x i = some l.head? :=
  Linked.fwd_last (B := l) [] x hl

theorem walk_linked (h : Heap) :
    ∀ (l : List Nat) (x fuel : Nat), Linked h 0 x l → (∀ a ∈ l, 0 < hgt h a) →
      l.length < fuel → SkipList.walk fuel h l.head? = .ok (pairs h l)
  | [], _, fuel, _, _, hf => by
    obtain ⟨f, rfl⟩ : ∃ f, fuel = f + 1 := ⟨fuel - 1, by simp at hf; omega⟩
    rfl
  | a :: l, x, fuel, hl, hp, hf => by
    obtain ⟨f, rfl⟩ : ∃ f, fuel = f + 1 := ⟨fuel - 1, by simp at hf; omega⟩
    obtain ⟨n, hn, hk, hv⟩ := load_of_hgt_pos (hp a (by simp))
    have hnext := forwardAt_of_fwd (Linked.fwd_head hl.2)
    have ih := walk_linked h l a f hl.2 (fun c hc => hp c (List.mem_cons_of_mem _ hc))
      (by simpa using hf)
    simp only [List.head?_cons, SkipList.walk, hn, hnext, ih, hk, hv, pairs_cons]

theorem Rep.level0_eq {h : Heap} {sl : SkipList} {hd : Nat} {L : List Nat} (R : Rep h sl hd L) :
    SkipList.level0 h sl = .ok (pairs h L) := by
  have hl := R.linked 0 (Nat.zero_le _)
  rw [lane_zero R.hgt_pos] at hl
  unfold SkipList.level0
  rw [R.header_eq, forwardAt_of_fwd (Linked.fwd_head hl)]
  exact walk_linked h L hd _ hl R.hgt_pos (by have := R.length_le; omega)

theorem getAllLoop_eq_walk :
    ∀ (fuel : Nat) (h : Heap) (x : Ptr) (m : GoMap),
      SkipList.getAllLoop fuel h x m =
        match SkipList.walk fuel h x with
        | .ok l => .ok (m.setAll l)
        | .error e => .error e
  | 0, _, _, _ => rfl
  | fuel + 1, h, x, m => by
    cases x with
    | none => rfl
    | some a =>
      simp only [SkipList.getAllLoop, SkipList.walk]
      cases load h (some a) with
      | error e => rfl
      | ok n =>
        simp only
        cases forwardAt h (some a) 0 with
        | error e => rfl
        | ok x1 =>
          simp only
          rw [getAllLoop_eq_walk fuel h x1 (m.set n.key n.value)]
          cases SkipList.walk fuel h x1 with
          | error e => rfl
          | ok rest => rfl

/-! ## Facts about the abstract map -/

theorem upsert_cons_lt {k v a b : String} {t : List (String × String)} (h1 : a < k) :
    upsert k v ((a, b) :: t) = (a, b) :: upsert k v t := by
  simp only [upsert, if_pos h1]

theorem upsert_cons_eq (k v b : String) (t : List (String × String)) :
    upsert k v ((k, b) :: t) = (k, v) :: t := by
  simp only [upsert, if_neg (lt_irrefl k), if_true]

theorem upsert_cons_gt {k v a b : String} {t : List (String × String)} (h1 : ¬ a < k)
    (h2 : a ≠ k) : upsert k v ((a, b) :: t) = (k, v) :: (a, b) :: t := by
  simp only [upsert, if_neg h1, if_neg h2]

theorem lookup_cons_eq (k v : String) (t : List (String × String)) :
    lookup k ((k, v) :: t) = some v := by
  simp only [lookup, if_true]

theorem lookup_cons_ne {k a : String} (b : String) (t : List (String × String)) (hne : a ≠ k) :
    lookup k ((a, b) :: t) = lookup k t := by
  simp only [lookup, if_neg hne]

theorem lookup_eq_none_iff {k : String} :
    ∀ {m : List (String × String)}, lookup k m = none ↔ k ∉ m.map Prod.fst
  | [] => by simp [lookup]
  | (a, b) :: t => by
    by_cases hk : a = k
    · subst hk
      rw [lookup_cons_eq]
      simp
    · rw [lookup_cons_ne b t hk, lookup_eq_none_iff (m := t)]
      simp [Ne.symm hk]

theorem lookup_isSome_iff {k : String} {m : List (String × String)} :
    (lookup k m).isSome = true ↔ k ∈ m.map Prod.fst := by
  rw [← not_iff_not, ← lookup_eq_none_iff]
  cases lookup k m <;> simp

theorem lookup_upsert (k v k' : String) :
    ∀ m : List (String × String),
      lookup k' (upsert k v m) = if k' = k then some v else lookup k' m
  | [] => by
    by_cases hk : k' = k
    · subst hk
      rw [if_pos rfl]
      exact lookup_cons_eq _ _ _
    · rw [if_neg hk]
      exact lookup_cons_ne _ _ (Ne.symm hk)
  | (a, b) :: t => by
    have ih := lookup_upsert k v k' t
    by_cases h1 : a < k
    · rw [upsert_cons_lt h1]
      by_cases ha : a = k'
      · subst ha
        rw [lookup_cons_eq, lookup_cons_eq, if_neg (ne_of_lt h1)]
      · rw [lookup_cons_ne _ _ ha, lookup_cons_ne _ _ ha, ih]
    · by_cases h2 : a = k
      · subst h2
        rw [upsert_cons_eq]
        by_cases hk : k' = a
        · subst hk
          rw [if_pos rfl, lookup_cons_eq]
        · rw [if_neg hk, lookup_cons_ne _ _ (Ne.symm hk), lookup_cons_ne _ _ (Ne.symm hk)]
      · rw [upsert_cons_gt h1 h2]
        by_cases hk : k' = k
        · subst hk
          rw [if_pos rfl, lookup_cons_eq]
        · rw [if_neg hk, lookup_cons_ne _ _ (Ne.symm hk)]

theorem mem_upsert {k v : String} {q : String × String} :
    ∀ {m : List (String × String)}, q ∈ upsert k v m → q = (k, v) ∨ q ∈ m
  | [], hq => by
    have : q ∈ [(k, v)] := hq
    exact Or.inl (List.mem_singleton.mp this)
  | (a, b) :: t, hq => by
    by_cases h1 : a < k
    · rw [upsert_cons_lt h1] at hq
      rcases List.mem_cons.mp hq with hq | hq
      · exact Or.inr (by rw [hq]; exact List.mem_cons_self _ _)
      · rcases mem_upsert hq with e | e
        · exact Or.inl e
        · exact Or.inr (List.mem_cons_of_mem _ e)
    · by_cases h2 : a = k
      · subst h2
        rw [upsert_cons_eq] at hq
        rcases List.mem_cons.mp hq with hq | hq
        · exact Or.inl hq
        · exact Or.inr (List.mem_cons_of_mem _ hq)
      · rw [upsert_cons_gt h1 h2] at hq
        rcases List.mem_cons.mp hq with hq | hq
        · exact Or.inl hq
        · exact Or.inr hq

theorem length_upsert_absent {k v : String} :
    ∀ {m : List (String × String)}, (∀ q ∈ m, q.1 ≠ k) →
      (upsert k v m).length = m.length + 1
  | [], _ => rfl
  | (a, b) :: t, hm => by
    have hne : a ≠ k := hm (a, b) (List.mem_cons_self _ _)
    have ih := length_upsert_absent (k := k) (v := v)
      (fun q hq => hm q (List.mem_cons_of_mem _ hq))
    by_cases h1 : a < k
    · rw [upsert_cons_lt h1, List.length_cons, ih, List.length_cons]
    · rw [upsert_cons_gt h1 hne, List.length_cons]

theorem lookup_remove_ne {k k' : String} (hne : k' ≠ k) :
    ∀ m : List (String × String), lookup k' (remove k m) = lookup k' m
  | [] => rfl
  | (a, b) :: t => by
    by_cases ha : a = k
    · subst ha
      rw [remove_head, lookup_cons_ne _ _ (Ne.symm hne)]
    · have hr : remove k ((a, b) :: t) = (a, b) :: remove k t := by
        simp only [remove, if_neg ha]
      rw [hr]
      by_cases hk : a = k'
      · subst hk
        rw [lookup_cons_eq, lookup_cons_eq]
      · rw [lookup_cons_ne _ _ hk, lookup_cons_ne _ _ hk, lookup_remove_ne hne t]

/-- In a sequence with strictly ascending keys a removed key is gone. -/
theorem lookup_remove_self {k : String} :
    ∀ {m : List (String × String)}, (m.map Prod.fst).Pairwise (· < ·) →
      lookup k (remove k m) = none
  | [], _ => rfl
  | (a, b) :: t, hs => by
    rw [List.map_cons, List.pairwise_cons] at hs
    by_cases ha : a = k
    · subst ha
      rw [remove_head, lookup_eq_none_iff]
      intro hc
      exact lt_irrefl _ (hs.1 _ hc)
    · have hr : remove k ((a, b) :: t) = (a, b) :: remove k t := by
        simp only [remove, if_neg ha]
      rw [hr, lookup_cons_ne _ _ ha]
      exact lookup_remove_self hs.2

theorem keys_pairs_sorted {h : Heap} {L : List Nat}
    (hs : L.Pairwise (fun a b => keyOf h a < keyOf h b)) :
    ((pairs h L).map Prod.fst).Pairwise (· < ·) := by
  unfold pairs
  rw [List.map_map, List.pairwise_map]
  exact hs

theorem nodup_of_sorted_keys {l : List String} (hs : l.Pairwise (· < ·)) : l.Nodup :=
  hs.imp (fun hab => ne_of_lt hab)

/-! ## Concrete states -/

theorem reachable_ab : Reachable abHeap abList :=
  @Reachable.insert _ _ highRand "b" "2" _ _ ⟨highRand.draws, 1⟩
    (@Reachable.insert _ _ highRand "a" "1" _ _ ⟨highRand.draws, 1⟩
      (Reachable.new [] highRand) rfl) rfl

/-! ## Snapshot reads -/

theorem scanLevel_append_none {key : String} {seq : Nat} :
    ∀ {l1 : List Entry} (l2 : List Entry), scanLevel key seq l1 = none →
      scanLevel key seq (l1 ++ l2) = scanLevel key seq l2
  | [], _, _ => rfl
  | e :: es, l2, hn => by
    by_cases he : eligible key seq e = true
    · simp [scanLevel, he] at hn
    · simp only [scanLevel, he] at hn
      simp only [List.cons_append, scanLevel, he]
      exact scanLevel_append_none l2 hn

theorem scanLevel_append_some {key : String} {seq : Nat} {v : String} :
    ∀ {l1 : List Entry} (l2 : List Entry), scanLevel key seq l1 = some v →
      scanLevel key seq (l1 ++ l2) = some v
  | [], _, hn => by simp [scanLevel] at hn
  | e :: es, l2, hn => by
    by_cases he : eligible key seq e = true
    · simp only [scanLevel, he, if_true] at hn
      simp only [List.cons_append, scanLevel, he, if_true]
      exact hn
    · simp only [scanLevel, he] at hn
      simp only [List.cons_append, scanLevel, he]
      exact scanLevel_append_some l2 hn

/-- The nested loops return what one pass over the concatenated collections returns. -/
theorem scanSSTables_flatten (key : String) (seq : Nat) :
    ∀ tables : List (List Entry),
      scanSSTables key seq tables = scanLevel key seq tables.flatten
  | [] => rfl
  | level :: rest => by
    rw [List.flatten_cons]
    cases hl : scanLevel key seq level with
    | none =>
      rw [scanLevel_append_none _ hl]
      simp only [scanSSTables, hl]
      exact scanSSTables_flatten key seq rest
    | some v =>
      rw [scanLevel_append_some _ hl]
      simp only [scanSSTables, hl]

theorem scanLevel_first {key : String} {seq : Nat} {e : Entry} (post : List Entry)
    (he : eligible key seq e = true) :
    ∀ pre : List Entry, (∀ e' ∈ pre, eligible key seq e' = false) →
      scanLevel key seq (pre ++ e :: post) = some e.Value
  | [], _ => by simp [scanLevel, he]
  | e' :: pre, hpre => by
    have h1 : eligible key seq e' = false := hpre e' (List.mem_cons_self _ _)
    simp only [List.cons_append, scanLevel, h1]
    exact scanLevel_first post he pre (fun x hx => hpre x (List.mem_cons_of_mem _ hx))

theorem snapshot_get_of_absent {h : Heap} {s : Snapshot} {k : String}
    (habs : SkipList.Search h s.Memtable k = .ok ("", false)) :
    Snapshot.Get h s k =
      match scanLevel k s.Sequence s.SSTables.flatten with
      | some v => .ok (v, true)
      | none => .ok ("", false) := by
  simp only [Snapshot.Get, SkipList.Get, habs, scanSSTables_flatten]

/-- C1 (as the code does it): for a key that is absent from the memtable clone of the
snapshot, `Snapshot.Get` returns the value of the first eligible entry in scan order, the
collections taken in order and each collection from its first entry on. -/
theorem snapshot_get_first_eligible (h : Heap) (s : Snapshot) (k : String)
    (habs : SkipList.Search h s.Memtable k = .ok ("", false))
    (pre post : List Entry) (e : Entry)
    (hsplit : s.SSTables.flatten = pre ++ e :: post)
    (he : eligible k s.Sequence e = true)
    (hpre : ∀ e' ∈ pre, eligible k s.Sequence e' = false) :
    Snapshot.Get h s k = .ok (e.Value, true) := by
  rw [snapshot_get_of_absent habs, hsplit, scanLevel_first post he pre hpre]

/-- C1, a concrete case of the amended claim: on `staleSnapshot` the first eligible entry for
`"x"` is the one at sequence 5. -/
theorem snapshot_get_first_eligible_witness :
    SkipList.Search (NewSkipList [] zeroRand).1 staleSnapshot.Memtable "x" = .ok ("", false) ∧
      eligible "x" staleSnapshot.Sequence ⟨"x", "old", 5⟩ = true ∧
      Snapshot.Get (NewSkipList [] zeroRand).1 staleSnapshot "x" = .ok ("old", true) :=
  ⟨rfl, by decide,
    snapshot_get_first_eligible (NewSkipList [] zeroRand).1 staleSnapshot "x" rfl []
      [⟨"x", "new", 7⟩] ⟨"x", "old", 5⟩ rfl (by decide) (by simp)⟩

/-- C1 fails as stated: on `staleSnapshot` the key `"x"` is absent from the memtable clone,
the eligible entry with the highest sequence number is the one at sequence 7 with value
`"new"`, and `Snapshot.Get` returns the value `"old"` of the entry at sequence 5, which the
scan meets first. -/
theorem snapshot_get_not_highest :
    SkipList.Search (NewSkipList [] zeroRand).1 staleSnapshot.Memtable "x" = .ok ("", false) ∧
      (⟨"x", "new", 7⟩ : Entry) ∈ staleSnapshot.SSTables.flatten ∧
      eligible "x" staleSnapshot.Sequence ⟨"x", "new", 7⟩ = true ∧
      (∀ e ∈ staleSnapshot.SSTables.flatten,
        eligible "x" staleSnapshot.Sequence e = true → e.SequenceNumber ≤ 7) ∧
      Snapshot.Get (NewSkipList [] zeroRand).1 staleSnapshot "x" = .ok ("old", true) ∧
      Snapshot.Get (NewSkipList [] zeroRand).1 staleSnapshot "x" ≠ .ok ("new", true) := by
  refine ⟨rfl, by decide, by decide, by decide, rfl, ?_⟩
  intro hc
  have h1 : Snapshot.Get (NewSkipList [] zeroRand).1 staleSnapshot "x" = .ok ("old", true) := rfl
  rw [h1] at hc
  simp at hc

/-! ## Runs of inserts -/

theorem upsertAll_nil (m : List (String × String)) : upsertAll m [] = m := rfl

theorem upsertAll_cons (m : List (String × String)) (q : String × String)
    (kvs : List (String × String)) :
    upsertAll m (q :: kvs) = upsertAll (upsert q.1 q.2 m) kvs := rfl

theorem upsertAll_append (m l1 l2 : List (String × String)) :
    upsertAll m (l1 ++ l2) = upsertAll (upsertAll m l1) l2 := by
  simp [upsertAll, List.foldl_append]

theorem lookup_upsertAll_ne {k : String} :
    ∀ (post m : List (String × String)), (∀ q ∈ post, q.1 ≠ k) →
      lookup k (upsertAll m post) = lookup k m
  | [], _, _ => rfl
  | q :: post, m, hp => by
    rw [upsertAll_cons, lookup_upsertAll_ne post _ (fun x hx => hp x (List.mem_cons_of_mem _ hx)),
      lookup_upsert, if_neg (Ne.symm (hp q (List.mem_cons_self _ _)))]

theorem lookup_upsertAll_last {k v : String} (m pre post : List (String × String))
    (hp : ∀ q ∈ post, q.1 ≠ k) :
    lookup k (upsertAll m (pre ++ (k, v) :: post)) = some v := by
  rw [upsertAll_append, upsertAll_cons, lookup_upsertAll_ne post _ hp, lookup_upsert, if_pos rfl]

theorem mem_upsertAll {r : String × String} :
    ∀ (kvs m : List (String × String)), r ∈ upsertAll m kvs → r ∈ kvs ∨ r ∈ m
  | [], _, hr => Or.inr hr
  | q :: kvs, m, hr => by
    rw [upsertAll_cons] at hr
    rcases mem_upsertAll kvs _ hr with e | e
    · exact Or.inl (List.mem_cons_of_mem _ e)
    · rcases mem_upsert e with e | e
      · exact Or.inl (by rw [e]; exact List.mem_cons_self _ _)
      · exact Or.inr e

theorem length_upsertAll :
    ∀ (kvs m : List (String × String)), (kvs.map Prod.fst).Nodup →
      (∀ q ∈ kvs, ∀ r ∈ m, r.1 ≠ q.1) →
      (upsertAll m kvs).length = m.length + kvs.length
  | [], _, _, _ => rfl
  | q :: kvs, m, hn, hd => by
    rw [List.map_cons, List.nodup_cons] at hn
    rw [upsertAll_cons, length_upsertAll kvs _ hn.2, length_upsert_absent
      (fun r hr => hd q (List.mem_cons_self _ _) r hr), List.length_cons]
    · omega
    · intro x hx r hr
      rcases mem_upsert hr with e | e
      · rw [e]
        intro hc
        exact hn.1 (by rw [show q.1 = x.1 from hc]; exact List.mem_map_of_mem _ hx)
      · exact hd x (List.mem_cons_of_mem _ hx) r e

theorem Rep.insertAll_spec {hd : Nat} :
    ∀ (kvs : List (String × String)) {h : Heap} {sl : SkipList} {L : List Nat}
      (_ : Rep h sl hd L) (rng : Rand),
      ∃ h' sl' rng' L', SkipList.insertAll kvs h sl rng = .ok (h', sl', rng') ∧
        Rep h' sl' hd L' ∧ pairs h' L' = upsertAll (pairs h L) kvs
  | [], h, sl, L, R, rng => ⟨h, sl, rng, L, rfl, R, rfl⟩
  | (k, v) :: kvs, h, sl, L, R, rng => by
    obtain ⟨h1, sl1, rng1, L1, e1, R1, p1, -⟩ := R.insert_spec rng k v
    obtain ⟨h2, sl2, rng2, L2, e2, R2, p2⟩ := Rep.insertAll_spec kvs R1 rng1
    refine ⟨h2, sl2, rng2, L2, ?_, R2, ?_⟩
    · simp only [SkipList.insertAll, e1]
      exact e2
    · rw [p2, p1]
      rfl

/-! ## The returned map -/

theorem GoMap.entries_setAll :
    ∀ (l : List (String × String)) (m : GoMap), (l.map Prod.fst).Nodup →
      (∀ q ∈ l, ∀ r ∈ m.entries, r.1 ≠ q.1) →
      (m.setAll l).entries = l.reverse ++ m.entries
  | [], _, _, _ => rfl
  | q :: l, m, hn, hd => by
    rw [List.map_cons, List.nodup_cons] at hn
    have hset : (m.set q.1 q.2).entries = q :: m.entries := by
      show (q.1, q.2) :: m.entries.filter (fun r => r.1 ≠ q.1) = q :: m.entries
      rw [List.filter_eq_self.mpr (fun r hr => by simpa using hd q (List.mem_cons_self _ _) r hr)]
    have ih := GoMap.entries_setAll l (m.set q.1 q.2) hn.2 (by
      intro x hx r hr
      rw [hset] at hr
      rcases List.mem_cons.mp hr with e | e
      · rw [e]
        intro hc
        exact hn.1 (by rw [hc]; exact List.mem_map_of_mem _ hx)
      · exact hd x (List.mem_cons_of_mem _ hx) r e)
    show ((m.set q.1 q.2).setAll l).entries = (q :: l).reverse ++ m.entries
    rw [ih, hset, List.reverse_cons, List.append_assoc]
    rfl

theorem Rep.getAll_eq {h : Heap} {sl : SkipList} {hd : Nat} {L : List Nat} (R : Rep h sl hd L) :
    SkipList.GetAll h sl = .ok (GoMap.empty.setAll (pairs h L)) := by
  have hl := R.linked 0 (Nat.zero_le _)
  rw [lane_zero R.hgt_pos] at hl
  unfold SkipList.GetAll
  rw [R.header_eq, forwardAt_of_fwd (Linked.fwd_head hl)]
  have hw : SkipList.walk (h.length + 1) h L.head? = .ok (pairs h L) :=
    walk_linked h L hd _ hl R.hgt_pos (by have := R.length_le; omega)
  show SkipList.getAllLoop (h.length + 1) h L.head? GoMap.empty = _
  rw [getAllLoop_eq_walk, hw]

/-! ## Presence of a key -/

theorem keys_pairs (h : Heap) (L : List Nat) :
    (pairs h L).map Prod.fst = L.map (keyOf h) := by
  simp [pairs, List.map_map, Function.comp_def]

theorem Rep.insert_present_spec {h : Heap} {sl : SkipList} {hd : Nat} {L : List Nat}
    (R : Rep h sl hd L) (rng : Rand) (k v : String) (hk : k ∈ (pairs h L).map Prod.fst) :
    ∃ a n, h[a]? = some n ∧ n.key = k ∧
      SkipList.Insert h sl rng k v = .ok (h.set a { n with value := v }, sl, rng) ∧
      Rep (h.set a { n with value := v }) sl hd L ∧
      pairs (h.set a { n with value := v }) L = upsert k v (pairs h L) ∧
      (pairs (h.set a { n with value := v }) L).map Prod.fst = (pairs h L).map Prod.fst := by
  obtain ⟨L1, L2, C⟩ := exists_cut h k L R.sorted
  rcases Rep.present_or_absent h k L2 with ⟨b, L2', e, hb⟩ | hm
  · obtain ⟨h1, h2, h3⟩ := R.insert_present C e hb rng v
    have hbL : b ∈ L := R.mem_right C (by simp [e])
    obtain ⟨n, hn⟩ := valid_of_hgt_pos (R.hgt_pos b hbL)
    have hput : putVal h b v = h.set b { n with value := v } := by simp [putVal, hn]
    have hkeys : (pairs (putVal h b v) L).map Prod.fst = (pairs h L).map Prod.fst := by
      rw [keys_pairs, keys_pairs]
      exact List.map_congr_left (fun a _ => keyOf_putVal h b v a)
    rw [hput] at h1 h2 h3 hkeys
    exact ⟨b, n, hn, by rw [← hb]; simp [keyOf, hn], h1, h2, h3, hkeys⟩
  · exfalso
    obtain ⟨q, hq, hqk⟩ := List.mem_map.mp hk
    exact R.keys_ne_absent C hm q hq hqk

/-! ## The claims about the index -/

/-- C2: after any run of `Insert` calls on a new index, for any random draws, `Search(k)`
returns the value of the last `Insert` with key `k` when there is one, and `("", false)`
when `k` was never inserted. -/
theorem search_returns_last_inserted (h0 : Heap) (seed : Rand) (kvs : List (String × String)) :
    ∃ h sl rng,
      SkipList.insertAll kvs (NewSkipList h0 seed).1 (NewSkipList h0 seed).2.1
        (NewSkipList h0 seed).2.2 = .ok (h, sl, rng) ∧
      (∀ k v pre post, kvs = pre ++ (k, v) :: post → (∀ q ∈ post, q.1 ≠ k) →
        SkipList.Search h sl k = .ok (v, true)) ∧
      (∀ k, (∀ q ∈ kvs, q.1 ≠ k) → SkipList.Search h sl k = .ok ("", false)) := by
  obtain ⟨h, sl, rng, L, e, R, hp⟩ := Rep.insertAll_spec kvs (rep_new h0 seed) seed
  refine ⟨h, sl, rng, e, ?_, ?_⟩
  · intro k v pre post hsplit hpost
    rw [R.search_eq, hp, hsplit, lookup_upsertAll_last _ pre post hpost]
    rfl
  · intro k hk
    rw [R.search_eq, hp, lookup_upsertAll_ne kvs _ hk]
    rfl

/-- C2, the first scenario of the spec: `insert("a","1")`, `insert("b","2")`, then
`search("a")` gives `("1", true)`. -/
theorem search_returns_last_inserted_witness :
    ∃ h sl rng,
      SkipList.insertAll [("a", "1"), ("b", "2")] (NewSkipList [] zeroRand).1
        (NewSkipList [] zeroRand).2.1 (NewSkipList [] zeroRand).2.2 = .ok (h, sl, rng) ∧
      SkipList.Search h sl "a" = .ok ("1", true) := by
  obtain ⟨h, sl, rng, e, hlast, -⟩ :=
    search_returns_last_inserted [] zeroRand [("a", "1"), ("b", "2")]
  exact ⟨h, sl, rng, e, hlast "a" "1" [] [("b", "2")] rfl (by decide)⟩

/-- C3: on a reachable index, `Insert(k, v)` of a key that is present returns with the same
index record (size and level) and the same generator state, in a heap that differs only in
the `value` field of the node that holds `k`; the level-0 keys are the same and `Search(k)`
then gives `v`. So a second `Insert` of the same key keeps the record, hence the count, of
the first and overwrites its value. -/
theorem insert_existing_key (h : Heap) (sl : SkipList) (hr : Reachable h sl) (rng : Rand)
    (k v : String) :
    (∀ l, SkipList.level0 h sl = .ok l → k ∈ l.map Prod.fst →
      ∃ a n, h[a]? = some n ∧ n.key = k ∧
        SkipList.Insert h sl rng k v = .ok (h.set a { n with value := v }, sl, rng) ∧
        SkipList.Search (h.set a { n with value := v }) sl k = .ok (v, true) ∧
        ∃ l', SkipList.level0 (h.set a { n with value := v }) sl = .ok l' ∧
          l'.map Prod.fst = l.map Prod.fst) ∧
    (∀ v1, ∃ h1 sl1 rng1 h2 l1 l2,
      SkipList.Insert h sl rng k v1 = .ok (h1, sl1, rng1) ∧
      SkipList.Insert h1 sl1 rng1 k v = .ok (h2, sl1, rng1) ∧
      SkipList.level0 h1 sl1 = .ok l1 ∧ SkipList.level0 h2 sl1 = .ok l2 ∧
      l2.length = l1.length ∧ SkipList.Search h2 sl1 k = .ok (v, true)) := by
  obtain ⟨hd, L, R⟩ := hr.rep
  constructor
  · intro l hl hk
    rw [R.level0_eq] at hl
    cases hl
    obtain ⟨a, n, hn, hkey, hins, R', hp, hkeys⟩ := R.insert_present_spec rng k v hk
    refine ⟨a, n, hn, hkey, hins, ?_, _, R'.level0_eq, hkeys⟩
    rw [R'.search_eq, hp, lookup_upsert, if_pos rfl]
    rfl
  · intro v1
    obtain ⟨h1, sl1, rng1, L1, e1, R1, p1, -⟩ := R.insert_spec rng k v1
    have hk : k ∈ (pairs h1 L1).map Prod.fst := by
      rw [← lookup_isSome_iff, p1, lookup_upsert, if_pos rfl]
      rfl
    obtain ⟨a, n, -, -, hins, R2, hp, hkeys⟩ := R1.insert_present_spec rng1 k v hk
    refine ⟨h1, sl1, rng1, _, _, _, e1, hins, R1.level0_eq, R2.level0_eq, ?_, ?_⟩
    · have := congrArg List.length hkeys
      simpa using this
    · rw [R2.search_eq, hp, lookup_upsert, if_pos rfl]
      rfl

/-- C3 on the index that holds `"a"` and `"b"`: `Insert("a","9")` only rewrites the value of
the node of `"a"`. -/
theorem insert_existing_key_witness :
    Reachable abHeap abList ∧
      SkipList.level0 abHeap abList = .ok [("a", "1"), ("b", "2")] ∧
      ∃ a n, abHeap[a]? = some n ∧ n.key = "a" ∧
        SkipList.Insert abHeap abList zeroRand "a" "9"
          = .ok (abHeap.set a { n with value := "9" }, abList, zeroRand) := by
  refine ⟨reachable_ab, rfl, ?_⟩
  obtain ⟨a, n, h1, h2, h3, -⟩ :=
    (insert_existing_key abHeap abList reachable_ab zeroRand "a" "9").1
      [("a", "1"), ("b", "2")] rfl (by decide)
  exact ⟨a, n, h1, h2, h3⟩

/-- C4: on a reachable index `Delete(k)` returns, and it returns `true` exactly when `k` is
among the level-0 keys; when it returns `true` the size has gone down by one and a following
`Search(k)` gives `("", false)`. -/
theorem delete_true_iff_present (h : Heap) (sl : SkipList) (hr : Reachable h sl) (k : String) :
    ∃ l h1 sl1 b, SkipList.level0 h sl = .ok l ∧
      SkipList.Delete h sl k = .ok (h1, sl1, b) ∧
      (b = true ↔ k ∈ l.map Prod.fst) ∧
      (b = true → sl1.size = sl.size - 1 ∧ SkipList.Search h1 sl1 k = .ok ("", false)) := by
  obtain ⟨hd, L, R⟩ := hr.rep
  obtain ⟨h1, sl1, b, L1, e, R1, hp, -, -, -, hb, hsize, -⟩ := R.delete_spec k
  refine ⟨_, h1, sl1, b, R.level0_eq, e, ?_, ?_⟩
  · rw [hb]
    exact lookup_isSome_iff
  · intro hbt
    refine ⟨hsize hbt, ?_⟩
    rw [R1.search_eq, hp, lookup_remove_self (keys_pairs_sorted R.sorted)]
    rfl

/-- C4 on the index that holds `"a"` and `"b"`, for the key `"a"`. -/
theorem delete_true_iff_present_witness :
    Reachable abHeap abList ∧
      ∃ h1 sl1, SkipList.Delete abHeap abList "a" = .ok (h1, sl1, true) ∧
        sl1.size = abList.size - 1 ∧ SkipList.Search h1 sl1 "a" = .ok ("", false) := by
  refine ⟨reachable_ab, ?_⟩
  obtain ⟨l, h1, sl1, b, hl, hdel, hiff, hafter⟩ :=
    delete_true_iff_present abHeap abList reachable_ab "a"
  have hl2 : SkipList.level0 abHeap abList = .ok [("a", "1"), ("b", "2")] := rfl
  rw [hl2] at hl
  cases hl
  have hb : b = true := hiff.mpr (by decide)
  subst hb
  exact ⟨h1, sl1, hdel, hafter rfl⟩

/-- C5: on a reachable index `Delete(k)` of a key that is not among the level-0 keys returns
`false` and leaves the heap (every node, link and value) and the index record (size and
level) as they were. -/
theorem delete_absent_unchanged (h : Heap) (sl : SkipList) (hr : Reachable h sl) (k : String)
    (hk : ∃ l, SkipList.level0 h sl = .ok l ∧ k ∉ l.map Prod.fst) :
    SkipList.Delete h sl k = .ok (h, sl, false) := by
  obtain ⟨hd, L, R⟩ := hr.rep
  obtain ⟨l, hl, hnot⟩ := hk
  rw [R.level0_eq] at hl
  cases hl
  obtain ⟨h1, sl1, b, L1, e, -, -, -, -, -, hb, -, hsame⟩ := R.delete_spec k
  have hbf : b = false := by
    rw [hb]
    cases hlk : lookup k (pairs h L) with
    | none => rfl
    | some v =>
      exfalso
      exact hnot (lookup_isSome_iff.mp (by rw [hlk]; rfl))
  subst hbf
  obtain ⟨rfl, rfl⟩ := hsame rfl
  exact e

/-- C5, the third scenario of the spec: `delete("missing")` on the index that holds `"a"`
and `"b"`. -/
theorem delete_absent_unchanged_witness :
    Reachable abHeap abList ∧
      SkipList.level0 abHeap abList = .ok [("a", "1"), ("b", "2")] ∧
      SkipList.Delete abHeap abList "missing" = .ok (abHeap, abList, false) :=
  ⟨reachable_ab, rfl,
    delete_absent_unchanged abHeap abList reachable_ab "missing"
      ⟨[("a", "1"), ("b", "2")], rfl, by decide⟩⟩

/-- C6 (as the code does it): on a reachable index the level-0 traversal of `GetAll` visits
all live pairs with strictly ascending keys, no key twice, and `GetAll` returns them in a Go
map, which holds exactly these pairs and whose iteration may give them in the order of the
traversal. -/
theorem getAll_holds_sorted_traversal (h : Heap) (sl : SkipList) (hr : Reachable h sl) :
    ∃ l m, SkipList.level0 h sl = .ok l ∧ (l.map Prod.fst).Pairwise (· < ·) ∧
      (l.map Prod.fst).Nodup ∧ SkipList.GetAll h sl = .ok m ∧ m.RangeOrder l := by
  obtain ⟨hd, L, R⟩ := hr.rep
  have hs := keys_pairs_sorted R.sorted
  refine ⟨_, _, R.level0_eq, hs, nodup_of_sorted_keys hs, R.getAll_eq, ?_⟩
  unfold GoMap.RangeOrder
  rw [GoMap.entries_setAll _ _ (nodup_of_sorted_keys hs) (by intro q _ r hr; cases hr)]
  show (pairs h L).Perm ((pairs h L).reverse ++ [])
  rw [List.append_nil]
  exact (List.reverse_perm _).symm

/-- C6 on the index that holds `"a"` and `"b"`. -/
theorem getAll_holds_sorted_traversal_witness :
    Reachable abHeap abList ∧
      ∃ m, SkipList.level0 abHeap abList = .ok [("a", "1"), ("b", "2")] ∧
        SkipList.GetAll abHeap abList = .ok m ∧ m.RangeOrder [("a", "1"), ("b", "2")] := by
  refine ⟨reachable_ab, ?_⟩
  obtain ⟨l, m, hl, -, -, hm, hro⟩ := getAll_holds_sorted_traversal abHeap abList reachable_ab
  have hl2 : SkipList.level0 abHeap abList = .ok [("a", "1"), ("b", "2")] := rfl
  rw [hl2] at hl
  cases hl
  exact ⟨m, rfl, hm, hro⟩

/-- C6 fails as stated: `GetAll` returns a Go map, not an ordered sequence. On the reachable
index that holds `"a"` and `"b"` the returned map may be iterated as `"b"`, `"a"`, which is
not ascending. -/
theorem getAll_range_not_ascending :
    Reachable abHeap abList ∧
      SkipList.GetAll abHeap abList = .ok ⟨[("b", "2"), ("a", "1")]⟩ ∧
      GoMap.RangeOrder ⟨[("b", "2"), ("a", "1")]⟩ [("b", "2"), ("a", "1")] ∧
      ¬ ([("b", "2"), ("a", "1")].map Prod.fst).Pairwise (fun a b : String => a < b) := by
  refine ⟨reachable_ab, rfl, List.Perm.refl _, ?_⟩
  intro hc
  have hlt : ("b" : String) < "a" := by
    simpa using hc
  rw [← strLess_iff] at hlt
  revert hlt
  decide

/-- C9: on a reachable index `IsFull()` is true exactly when the level-0 traversal holds at
least 50 pairs, whose keys are distinct; and a run of inserts of distinct keys into an empty
reachable index gives `IsFull() = false` after 49 keys and `true` after 50. -/
theorem isFull_iff_live_count (h : Heap) (sl : SkipList) (hr : Reachable h sl) :
    (∃ l, SkipList.level0 h sl = .ok l ∧ (l.map Prod.fst).Nodup ∧
      (SkipList.IsFull sl = true ↔ 50 ≤ l.length)) ∧
    (SkipList.level0 h sl = .ok [] →
      ∀ (rng : Rand) (kvs : List (String × String)), (kvs.map Prod.fst).Nodup →
        ∃ h1 sl1 rng1, SkipList.insertAll kvs h sl rng = .ok (h1, sl1, rng1) ∧
          (SkipList.IsFull sl1 = true ↔ 50 ≤ kvs.length) ∧
          (kvs.length = 49 → SkipList.IsFull sl1 = false) ∧
          (kvs.length = 50 → SkipList.IsFull sl1 = true)) := by
  obtain ⟨hd, L, R⟩ := hr.rep
  have full_iff : ∀ {h1 : Heap} {sl1 : SkipList} {L1 : List Nat}, Rep h1 sl1 hd L1 →
      (SkipList.IsFull sl1 = true ↔ 50 ≤ (pairs h1 L1).length) := by
    intro h1 sl1 L1 R1
    rw [length_pairs]
    simp only [SkipList.IsFull, memtableLimit, R1.size_eq, decide_eq_true_eq, ge_iff_le]
    omega
  refine ⟨⟨_, R.level0_eq, nodup_of_sorted_keys (keys_pairs_sorted R.sorted), full_iff R⟩, ?_⟩
  intro hempty rng kvs hnd
  rw [R.level0_eq] at hempty
  have hp0 : pairs h L = [] := Except.ok.inj hempty
  obtain ⟨h1, sl1, rng1, L1, e, R1, hp⟩ := Rep.insertAll_spec kvs R rng
  have hlen : (pairs h1 L1).length = kvs.length := by
    rw [hp, hp0, length_upsertAll kvs [] hnd (by intro q _ r hr; cases hr)]
    simp
  have hiff := full_iff R1
  rw [hlen] at hiff
  refine ⟨h1, sl1, rng1, e, hiff, ?_, ?_⟩
  · intro h49
    cases hf : SkipList.IsFull sl1 with
    | false => rfl
    | true => have := hiff.mp hf; omega
  · intro h50
    exact hiff.mpr (by omega)

/-- C9 on the index that holds `"a"` and `"b"`: two live pairs, not full. -/
theorem isFull_iff_live_count_witness :
    Reachable abHeap abList ∧
      SkipList.level0 abHeap abList = .ok [("a", "1"), ("b", "2")] ∧
      SkipList.IsFull abList = false := by
  refine ⟨reachable_ab, rfl, ?_⟩
  obtain ⟨l, hl, -, hiff⟩ := (isFull_iff_live_count abHeap abList reachable_ab).1
  have hl2 : SkipList.level0 abHeap abList = .ok [("a", "1"), ("b", "2")] := rfl
  rw [hl2] at hl
  cases hl
  cases hf : SkipList.IsFull abList with
  | false => rfl
  | true => have := hiff.mp hf; simp at this

/-- C10: from every index state `Reset()` gives the empty state: level 0, size 0 and a header
at a fresh address with all `maxLevel + 1` links nil, the rest of the heap as it was; then the
level-0 traversal and the map of `GetAll` are empty, `IsFull()` is false and `Search(k)` gives
`("", false)` for every key. -/
theorem reset_yields_empty (h : Heap) (sl : SkipList) :
    (SkipList.Reset h sl).2.level = 0 ∧ (SkipList.Reset h sl).2.size = 0 ∧
      (SkipList.Reset h sl).2.header = some h.length ∧
      (SkipList.Reset h sl).1 =
        h ++ [{ key := "", value := "", forward := List.replicate (maxLevel + 1) none }] ∧
      SkipList.level0 (SkipList.Reset h sl).1 (SkipList.Reset h sl).2 = .ok [] ∧
      (∃ m, SkipList.GetAll (SkipList.Reset h sl).1 (SkipList.Reset h sl).2 = .ok m ∧
        m.entries = []) ∧
      SkipList.IsFull (SkipList.Reset h sl).2 = false ∧
      ∀ k, SkipList.Search (SkipList.Reset h sl).1 (SkipList.Reset h sl).2 k
        = .ok ("", false) := by
  have R := rep_reset h sl
  refine ⟨rfl, rfl, rfl, rfl, R.level0_eq, ⟨_, R.getAll_eq, rfl⟩, ?_, ?_⟩
  · simp [SkipList.IsFull, SkipList.Reset, memtableLimit]
  · intro k
    rw [R.search_eq]
    rfl

/-- C10 on the index that holds `"a"` and `"b"`. -/
theorem reset_yields_empty_witness :
    SkipList.level0 (SkipList.Reset abHeap abList).1 (SkipList.Reset abHeap abList).2 = .ok [] ∧
      SkipList.IsFull (SkipList.Reset abHeap abList).2 = false ∧
      SkipList.Search (SkipList.Reset abHeap abList).1 (SkipList.Reset abHeap abList).2 "a"
        = .ok ("", false) :=
  ⟨(reset_yields_empty abHeap abList).2.2.2.2.1, (reset_yields_empty abHeap abList).2.2.2.2.2.2.1,
    (reset_yields_empty abHeap abList).2.2.2.2.2.2.2 "a"⟩

/-! ## Clone -/

theorem upsert_after_all {k v : String} {l : List (String × String)}
    (hl : ∀ q ∈ l, q.1 < k) : upsert k v l = l ++ [(k, v)] := by
  have := upsert_append_below (k := k) (v := v) [] hl
  rwa [List.append_nil] at this

/-- The loop of `Clone`: with the nodes `done` of the source already copied and `rest` still
to visit, the loop returns, the clone holds the pairs of `done ++ rest`, the heap below
`len(h0)` is untouched and the clone only owns addresses from `len(h0)` on. -/
theorem cloneLoop_spec (h0 : Heap) (hc : Nat) :
    ∀ (rest done : List Nat) (x fuel : Nat) (g : Heap) (c : SkipList) (Lc : List Nat)
      (rng : Rand),
      Linked h0 0 x rest → (∀ a ∈ rest, 0 < hgt h0 a) →
      (done ++ rest).Pairwise (fun a b => keyOf h0 a < keyOf h0 b) →
      rest.length < fuel →
      Rep g c hc Lc → pairs g Lc = pairs h0 done →
      (∀ a, a < h0.length → g[a]? = h0[a]?) → (∀ a ∈ hc :: Lc, h0.length ≤ a) →
      h0.length ≤ g.length →
      ∃ g' c' rng' Lc', SkipList.cloneLoop fuel rest.head? g c rng = .ok (g', c', rng') ∧
        Rep g' c' hc Lc' ∧ pairs g' Lc' = pairs h0 (done ++ rest) ∧
        (∀ a, a < h0.length → g'[a]? = h0[a]?) ∧ (∀ a ∈ hc :: Lc', h0.length ≤ a) ∧
        h0.length ≤ g'.length
  | [], done, _, fuel, g, c, Lc, rng, _, _, _, hf, R, hp, hold, hfresh, hlen => by
    obtain ⟨f, rfl⟩ : ∃ f, fuel = f + 1 := ⟨fuel - 1, by simp at hf; omega⟩
    exact ⟨g, c, rng, Lc, rfl, R, by rw [List.append_nil]; exact hp, hold, hfresh, hlen⟩
  | a :: rest, done, x, fuel, g, c, Lc, rng, hl, hpos, hs, hf, R, hp, hold, hfresh, hlen => by
    obtain ⟨f, rfl⟩ : ∃ f, fuel = f + 1 := ⟨fuel - 1, by simp at hf; omega⟩
    have ha : 0 < hgt h0 a := hpos a (List.mem_cons_self _ _)
    have halt : a < h0.length := lt_length_of_hgt_pos ha
    have hga : 0 < hgt g a := by rw [hgt_congr (hold a halt)]; exact ha
    obtain ⟨n, hn, hk, hv⟩ := load_of_hgt_pos hga
    rw [keyOf_congr (hold a halt)] at hk
    rw [valOf_congr (hold a halt)] at hv
    obtain ⟨g1, c1, rng1, Lc1, e1, R1, p1, hlen1, hfr1, hmem1⟩ := R.insert_spec rng n.key n.value
    have hold1 : ∀ b, b < h0.length → g1[b]? = h0[b]? := by
      intro b hb
      rw [hfr1 b (by omega) (fun hc2 => by have := hfresh b hc2; omega), hold b hb]
    have hnext : forwardAt g1 (some a) 0 = .ok rest.head? := by
      apply forwardAt_of_fwd
      rw [fwd_congr 0 (hold1 a halt)]
      exact Linked.fwd_head hl.2
    have hbelow : ∀ q ∈ pairs h0 done, q.1 < n.key := by
      intro q hq
      obtain ⟨b, hb, rfl⟩ := List.mem_map.mp hq
      rw [hk]
      exact (List.pairwise_append.mp hs).2.2 b hb a (List.mem_cons_self _ _)
    obtain ⟨g', c', rng', Lc', e2, R2, p2, hold2, hfresh2, hlen2⟩ :=
      cloneLoop_spec h0 hc rest (done ++ [a]) a f g1 c1 Lc1 rng1 hl.2
        (fun b hb => hpos b (List.mem_cons_of_mem _ hb))
        (by rw [List.append_assoc]; exact hs) (by simpa using hf) R1
        (by rw [p1, hp, upsert_after_all hbelow, pairs_append, hk, hv]; rfl) hold1
        (by
          intro b hb
          rcases List.mem_cons.mp hb with rfl | hb
          · exact hfresh b (List.mem_cons_self _ _)
          · rcases hmem1 b hb with e | e
            · exact hfresh b (List.mem_cons_of_mem _ e)
            · omega)
        (by omega)
    refine ⟨g', c', rng', Lc', ?_, R2, ?_, hold2, hfresh2, hlen2⟩
    · simp only [List.head?_cons, SkipList.cloneLoop, hn, e1, hnext]
      exact e2
    · rw [p2, List.append_assoc]
      rfl

/-- `Clone` returns on every well-formed skip list; the clone is a well-formed skip list
with the same pairs, built from fresh nodes only, and the old heap is left as it was. -/
theorem Rep.clone_spec {h : Heap} {sl : SkipList} {hd : Nat} {L : List Nat}
    (R : Rep h sl hd L) (seed : Rand) :
    ∃ h1 c rng1 Lc, SkipList.Clone h sl seed = .ok (h1, c, rng1) ∧
      Rep h1 c h.length Lc ∧ pairs h1 Lc = pairs h L ∧
      (∀ a, a < h.length → h1[a]? = h[a]?) ∧ (∀ a ∈ h.length :: Lc, h.length ≤ a) ∧
      h.length ≤ h1.length := by
  have hl := R.linked 0 (Nat.zero_le _)
  rw [lane_zero R.hgt_pos] at hl
  have hold0 : ∀ a, a < h.length → (NewSkipList h seed).1[a]? = h[a]? :=
    fun a ha => getElem?_alloc_old h _ ha
  have hfirst : forwardAt (NewSkipList h seed).1 sl.header 0 = .ok L.head? := by
    rw [R.header_eq]
    apply forwardAt_of_fwd
    rw [fwd_congr 0 (hold0 hd R.hd_lt)]
    exact Linked.fwd_head hl
  obtain ⟨g', c', rng', Lc', e, R', p', hold', hfresh', hlen'⟩ :=
    cloneLoop_spec h h.length L [] hd (h.length + 1) (NewSkipList h seed).1
      (NewSkipList h seed).2.1 [] (NewSkipList h seed).2.2 hl R.hgt_pos
      (by rw [List.nil_append]; exact R.sorted) (by have := R.length_le; omega)
      (rep_new h seed) rfl hold0 (by intro a ha; simp at ha; omega)
      (by simp [NewSkipList, newNode])
  refine ⟨g', c', rng', Lc', ?_, R', by rw [p', List.nil_append], hold', hfresh', hlen'⟩
  unfold SkipList.Clone
  rw [hfirst]
  exact e

theorem take_eq_of_agree {h h1 : Heap} (hold : ∀ a, a < h.length → h1[a]? = h[a]?) :
    h1.take h.length = h := by
  apply List.ext_getElem?
  intro a
  by_cases ha : a < h.length
  · rw [List.getElem?_take_of_lt ha, hold a ha]
  · rw [List.getElem?_eq_none (by simp; omega), List.getElem?_eq_none (by omega)]

/-- C7: on a reachable index `Clone()` returns, for any random draws; the clone has the same
level-0 sequence of pairs and the same size as the source, and the source is unchanged: every
node of the heap before the call is as it was, and so is the level-0 sequence of the
source. -/
theorem clone_same_entries (h : Heap) (sl : SkipList) (hr : Reachable h sl) (seed : Rand) :
    ∃ h1 c rng1 l, SkipList.Clone h sl seed = .ok (h1, c, rng1) ∧
      SkipList.level0 h sl = .ok l ∧ SkipList.level0 h1 c = .ok l ∧ c.size = sl.size ∧
      h1.take h.length = h ∧ SkipList.level0 h1 sl = .ok l := by
  obtain ⟨hd, L, R⟩ := hr.rep
  obtain ⟨h1, c, rng1, Lc, e, Rc, hp, hold, -, -⟩ := R.clone_spec seed
  obtain ⟨Rs, hps⟩ := @Rep.frame h sl hd L R h1 (fun a ha => hold a (R.mem_lt ha))
  refine ⟨h1, c, rng1, pairs h L, e, R.level0_eq, by rw [Rc.level0_eq, hp], ?_,
    take_eq_of_agree hold, by rw [Rs.level0_eq, hps]⟩
  rw [Rc.size_eq, R.size_eq, ← length_pairs h1 Lc, hp, length_pairs]

/-- C7 on the index that holds `"a"` and `"b"`. -/
theorem clone_same_entries_witness :
    Reachable abHeap abList ∧
      ∃ h1 c rng1, SkipList.Clone abHeap abList zeroRand = .ok (h1, c, rng1) ∧
        SkipList.level0 h1 c = .ok [("a", "1"), ("b", "2")] ∧ c.size = 2 := by
  refine ⟨reachable_ab, ?_⟩
  obtain ⟨h1, c, rng1, l, e, hl, hlc, hsize, -⟩ :=
    clone_same_entries abHeap abList reachable_ab zeroRand
  have hl2 : SkipList.level0 abHeap abList = .ok [("a", "1"), ("b", "2")] := rfl
  rw [hl2] at hl
  cases hl
  exact ⟨h1, c, rng1, e, hlc, hsize⟩

/-! ## Two indexes in one heap -/

/-- A call on one skip list leaves another skip list of the same heap alone when the two
share no node. -/
theorem Rep.applyOp_frame {h : Heap} {sl : SkipList} {hd : Nat} {L : List Nat}
    (R : Rep h sl hd L) (rng : Rand) (op : Op) {o : SkipList} {ho : Nat} {Lo : List Nat}
    (Ro : Rep h o ho Lo) (hdis : ∀ a ∈ ho :: Lo, a ∉ hd :: L) :
    ∃ h1 sl1 rng1 L1, applyOp h sl rng op = .ok (h1, sl1, rng1) ∧ Rep h1 sl1 hd L1 ∧
      Rep h1 o ho Lo ∧ pairs h1 Lo = pairs h Lo ∧ (∀ a ∈ ho :: Lo, a ∉ hd :: L1) := by
  cases op with
  | insert key value =>
    obtain ⟨h1, sl1, rng1, L1, e, R1, -, -, hfr, hmem⟩ := R.insert_spec rng key value
    obtain ⟨Ro1, hpo⟩ := @Rep.frame h o ho Lo Ro h1
      (fun a ha => hfr a (Ro.mem_lt ha) (hdis a ha))
    refine ⟨h1, sl1, rng1, L1, e, R1, Ro1, hpo, ?_⟩
    intro a ha hc
    rcases List.mem_cons.mp hc with rfl | hc
    · exact hdis a ha (List.mem_cons_self _ _)
    · rcases hmem a hc with e2 | e2
      · exact hdis a ha (List.mem_cons_of_mem _ e2)
      · have := Ro.mem_lt ha
        omega
  | delete key =>
    obtain ⟨h1, sl1, b, L1, e, R1, -, -, hfr, hmem, -⟩ := R.delete_spec key
    obtain ⟨Ro1, hpo⟩ := @Rep.frame h o ho Lo Ro h1 (fun a ha => hfr a (hdis a ha))
    refine ⟨h1, sl1, rng, L1, by simp only [applyOp, e], R1, Ro1, hpo, ?_⟩
    intro a ha hc
    rcases List.mem_cons.mp hc with rfl | hc
    · exact hdis a ha (List.mem_cons_self _ _)
    · exact hdis a ha (List.mem_cons_of_mem _ (hmem a hc))

theorem Rep.runOps_frame {hd ho : Nat} {o : SkipList} {Lo : List Nat} :
    ∀ (ops : List Op) {h : Heap} {sl : SkipList} {L : List Nat} (_ : Rep h sl hd L)
      (rng : Rand) (_ : Rep h o ho Lo) (_ : ∀ a ∈ ho :: Lo, a ∉ hd :: L),
      ∃ h1 sl1 rng1 L1, runOps ops h sl rng = .ok (h1, sl1, rng1) ∧ Rep h1 sl1 hd L1 ∧
        Rep h1 o ho Lo ∧ pairs h1 Lo = pairs h Lo
  | [], h, sl, L, R, rng, Ro, _ => ⟨h, sl, rng, L, rfl, R, Ro, rfl⟩
  | op :: ops, h, sl, L, R, rng, Ro, hdis => by
    obtain ⟨h1, sl1, rng1, L1, e1, R1, Ro1, hp1, hdis1⟩ := R.applyOp_frame rng op Ro hdis
    obtain ⟨h2, sl2, rng2, L2, e2, R2, Ro2, hp2⟩ := Rep.runOps_frame ops R1 rng1 Ro1 hdis1
    refine ⟨h2, sl2, rng2, L2, ?_, R2, Ro2, by rw [hp2, hp1]⟩
    simp only [runOps, e1]
    exact e2

theorem scanLevel_none_of_absent {key : String} {seq : Nat} :
    ∀ {l : List Entry}, (∀ e ∈ l, e.Key ≠ key) → scanLevel key seq l = none
  | [], _ => rfl
  | e :: es, hl => by
    have h1 : eligible key seq e = false := by
      simp [eligible, hl e (List.mem_cons_self _ _)]
    simp only [scanLevel, h1]
    exact scanLevel_none_of_absent (fun x hx => hl x (List.mem_cons_of_mem _ hx))

theorem lookup_none_of_found {o : Option String} (ho : found o = ("", false)) : o = none := by
  cases o with
  | none => rfl
  | some v => simp [found] at ho

/-- C8: after `c = s.Clone()` on a reachable index, any run of `Insert`/`Delete` calls on `s`
returns and leaves the level-0 sequence, the result of `GetAll` and every `Search` of `c` as
they were, and any run on `c` leaves those of `s` as they were. So a snapshot over `c` reports not-found for a key
that was absent from `s` when the clone was taken and is in no on-disk collection, whatever
was inserted into `s` afterwards. -/
theorem clone_independent (h : Heap) (s : SkipList) (hr : Reachable h s) (seed : Rand) :
    ∃ h1 c rng1, SkipList.Clone h s seed = .ok (h1, c, rng1) ∧
      (∀ ops rng, ∃ h2 s2 rng2, runOps ops h1 s rng = .ok (h2, s2, rng2) ∧
        SkipList.level0 h2 c = SkipList.level0 h1 c ∧
        SkipList.GetAll h2 c = SkipList.GetAll h1 c ∧
        (∀ k, SkipList.Search h2 c k = SkipList.Search h1 c k) ∧
        (∀ k tables seq released, SkipList.Search h s k = .ok ("", false) →
          (∀ e ∈ tables.flatten, e.Key ≠ k) →
          Snapshot.Get h2 ⟨c, tables, seq, released⟩ k = .ok ("", false))) ∧
      (∀ ops rng, ∃ h2 c2 rng2, runOps ops h1 c rng = .ok (h2, c2, rng2) ∧
        SkipList.level0 h2 s = SkipList.level0 h1 s ∧
        SkipList.GetAll h2 s = SkipList.GetAll h1 s ∧
        (∀ k, SkipList.Search h2 s k = SkipList.Search h1 s k)) := by
  obtain ⟨hd, L, R⟩ := hr.rep
  obtain ⟨h1, c, rng1, Lc, e, Rc, hp, hold, hfresh, -⟩ := R.clone_spec seed
  obtain ⟨Rs, hps⟩ := @Rep.frame h s hd L R h1 (fun a ha => hold a (R.mem_lt ha))
  have hdis1 : ∀ a ∈ h.length :: Lc, a ∉ hd :: L := by
    intro a ha hc
    have h1 := hfresh a ha
    have h2 := R.mem_lt hc
    omega
  have hdis2 : ∀ a ∈ hd :: L, a ∉ h.length :: Lc := fun a ha hc => hdis1 a hc ha
  refine ⟨h1, c, rng1, e, ?_, ?_⟩
  · intro ops rng
    obtain ⟨h2, s2, rng2, L2, e2, -, Rc2, hp2⟩ := Rep.runOps_frame ops Rs rng Rc hdis1
    refine ⟨h2, s2, rng2, e2, by rw [Rc2.level0_eq, Rc.level0_eq, hp2],
      by rw [Rc2.getAll_eq, Rc.getAll_eq, hp2],
      fun k => by rw [Rc2.search_eq, Rc.search_eq, hp2], ?_⟩
    intro k tables seq released habs hnone
    rw [R.search_eq] at habs
    have hlk : lookup k (pairs h L) = none := lookup_none_of_found (Except.ok.inj habs)
    have hsearch : SkipList.Search h2 c k = .ok ("", false) := by
      rw [Rc2.search_eq, hp2, hp, hlk]
      rfl
    rw [snapshot_get_of_absent hsearch]
    simp only [scanLevel_none_of_absent hnone]
  · intro ops rng
    obtain ⟨h2, c2, rng2, L2, e2, -, Rs2, hp2⟩ := Rep.runOps_frame ops Rc rng Rs hdis2
    exact ⟨h2, c2, rng2, e2, by rw [Rs2.level0_eq, Rs.level0_eq, hp2],
      by rw [Rs2.getAll_eq, Rs.getAll_eq, hp2],
      fun k => by rw [Rs2.search_eq, Rs.search_eq, hp2]⟩

/-- C8 on the index that holds `"a"` and `"b"`: a key `"z"` inserted into the live index
after the clone is not seen through a snapshot over the clone. -/
theorem clone_independent_witness :
    Reachable abHeap abList ∧ SkipList.Search abHeap abList "z" = .ok ("", false) ∧
      ∃ h1 c rng1 h2 s2 rng2, SkipList.Clone abHeap abList zeroRand = .ok (h1, c, rng1) ∧
        runOps [Op.insert "z" "26"] h1 abList zeroRand = .ok (h2, s2, rng2) ∧
        Snapshot.Get h2 ⟨c, [], 10, false⟩ "z" = .ok ("", false) := by
  refine ⟨reachable_ab, rfl, ?_⟩
  obtain ⟨h1, c, rng1, e, hs, -⟩ := clone_independent abHeap abList reachable_ab zeroRand
  obtain ⟨h2, s2, rng2, e2, -, -, -, hsnap⟩ := hs [Op.insert "z" "26"] zeroRand
  exact ⟨h1, c, rng1, h2, s2, rng2, e, e2,
    hsnap "z" [] 10 false rfl (by intro x hx; cases hx)⟩

/-! ## Snapshot reads: the memtable first, then the collections -/

theorem eligible_iff (key : String) (seq : Nat) (e : Entry) :
    eligible key seq e = true ↔ e.Key = key ∧ e.SequenceNumber ≤ seq := by
  simp [eligible]

theorem scanLevel_some {key : String} {seq : Nat} {v : String} :
    ∀ {l : List Entry}, scanLevel key seq l = some v →
      ∃ e ∈ l, eligible key seq e = true ∧ e.Value = v
  | [], hs => by simp [scanLevel] at hs
  | e :: es, hs => by
    by_cases he : eligible key seq e = true
    · simp only [scanLevel, he, if_true, Option.some.injEq] at hs
      exact ⟨e, List.mem_cons_self _ _, he, hs⟩
    · simp only [scanLevel, he] at hs
      obtain ⟨x, hx, h1, h2⟩ := scanLevel_some hs
      exact ⟨x, List.mem_cons_of_mem _ hx, h1, h2⟩

theorem scanLevel_none {key : String} {seq : Nat} :
    ∀ {l : List Entry}, (∀ e ∈ l, eligible key seq e = false) → scanLevel key seq l = none
  | [], _ => rfl
  | e :: es, hl => by
    have h1 : eligible key seq e = false := hl e (List.mem_cons_self _ _)
    simp only [scanLevel, h1]
    exact scanLevel_none (fun x hx => hl x (List.mem_cons_of_mem _ hx))

theorem scanLevel_none_all {key : String} {seq : Nat} :
    ∀ {l : List Entry}, scanLevel key seq l = none → ∀ e ∈ l, eligible key seq e = false
  | [], _, e, he => by cases he
  | x :: xs, hs, e, he => by
    by_cases hx : eligible key seq x = true
    · simp [scanLevel, hx] at hs
    · simp only [scanLevel, hx] at hs
      rcases List.mem_cons.mp he with rfl | he
      · simpa using hx
      · exact scanLevel_none_all hs e he

theorem scanLevel_filter (key : String) (seq : Nat) :
    ∀ l : List Entry,
      scanLevel key seq (l.filter (fun e => decide (e.SequenceNumber ≤ seq)))
        = scanLevel key seq l
  | [] => rfl
  | e :: es => by
    by_cases hs : e.SequenceNumber ≤ seq
    · rw [List.filter_cons_of_pos (by simpa using hs)]
      simp only [scanLevel, scanLevel_filter key seq es]
    · have he : eligible key seq e = false := by simp [eligible, hs]
      rw [List.filter_cons_of_neg (by simpa using hs)]
      simp only [scanLevel, he, scanLevel_filter key seq es]
      rfl

theorem scanSSTables_visible (key : String) (seq : Nat) :
    ∀ tables : List (List Entry),
      scanSSTables key seq (visibleTables seq tables) = scanSSTables key seq tables
  | [] => rfl
  | level :: rest => by
    have ih := scanSSTables_visible key seq rest
    unfold visibleTables at ih ⊢
    simp only [List.map_cons, scanSSTables, scanLevel_filter, ih]

theorem get_of_search_hit {h : Heap} {s : Snapshot} {k v : String}
    (hs : SkipList.Search h s.Memtable k = .ok (v, true)) :
    Snapshot.Get h s k = .ok (v, true) := by
  simp only [Snapshot.Get, SkipList.Get, hs]

theorem lookup_of_mem_sorted {k v : String} :
    ∀ {m : List (String × String)}, (m.map Prod.fst).Pairwise (· < ·) → (k, v) ∈ m →
      lookup k m = some v
  | [], _, hm => by cases hm
  | (a, b) :: t, hs, hm => by
    rw [List.map_cons, List.pairwise_cons] at hs
    rcases List.mem_cons.mp hm with e | e
    · cases e
      exact lookup_cons_eq _ _ _
    · have hlt : a < k := hs.1 k (List.mem_map.mpr ⟨(k, v), e, rfl⟩)
      rw [lookup_cons_ne _ _ (ne_of_lt hlt)]
      exact lookup_of_mem_sorted hs.2 e

theorem mem_of_lookup {k v : String} :
    ∀ {m : List (String × String)}, lookup k m = some v → (k, v) ∈ m
  | [], hl => by cases hl
  | (a, b) :: t, hl => by
    by_cases ha : a = k
    · subst ha
      rw [lookup_cons_eq] at hl
      cases hl
      exact List.mem_cons_self _ _
    · rw [lookup_cons_ne _ _ ha] at hl
      exact List.mem_cons_of_mem _ (mem_of_lookup hl)

/-- C11: when the memtable clone of a snapshot holds `k` with value `v`, `Snapshot.Get(k)`
returns `(v, true)`, for every content of the on-disk collections and every sequence
ceiling. Holding `k` is stated twice: as the result of `Search` on the clone, and, for a
reachable clone, as membership of the pair in its level-0 sequence. -/
theorem snapshot_get_memtable_first (h : Heap) (s : Snapshot) (k v : String) :
    (SkipList.Search h s.Memtable k = .ok (v, true) → Snapshot.Get h s k = .ok (v, true)) ∧
    (Reachable h s.Memtable → ∀ l, SkipList.level0 h s.Memtable = .ok l → (k, v) ∈ l →
      Snapshot.Get h s k = .ok (v, true)) := by
  refine ⟨get_of_search_hit, ?_⟩
  intro hr l hl hkv
  obtain ⟨hd, L, R⟩ := hr.rep
  rw [R.level0_eq] at hl
  have hl2 : pairs h L = l := Except.ok.inj hl
  apply get_of_search_hit
  rw [R.search_eq, hl2, lookup_of_mem_sorted (hl2 ▸ keys_pairs_sorted R.sorted) hkv]
  rfl

/-- C11 on a snapshot whose memtable holds `"a"` with `"1"` while a collection holds `"a"`
with another value at a sequence number below the ceiling. -/
theorem snapshot_get_memtable_first_witness :
    Reachable abHeap abList ∧
      SkipList.level0 abHeap abList = .ok [("a", "1"), ("b", "2")] ∧
      Snapshot.Get abHeap ⟨abList, [[⟨"a", "disk", 3⟩]], 10, false⟩ "a" = .ok ("1", true) :=
  ⟨reachable_ab, rfl,
    (snapshot_get_memtable_first abHeap ⟨abList, [[⟨"a", "disk", 3⟩]], 10, false⟩ "a" "1").2
      reachable_ab _ rfl (by decide)⟩

/-- C12: for a key that is absent from the memtable clone, `Snapshot.Get` reports found
exactly when some entry of some collection has the key and a sequence number not above the
ceiling; the value returned is that of such an entry; and the result is the same when every
entry above the ceiling is taken out of the collections. -/
theorem snapshot_get_visible_iff (h : Heap) (s : Snapshot) (k : String)
    (habs : SkipList.Search h s.Memtable k = .ok ("", false)) :
    (∃ r, Snapshot.Get h s k = .ok r) ∧
    ((∃ v, Snapshot.Get h s k = .ok (v, true)) ↔
      ∃ e ∈ s.SSTables.flatten, e.Key = k ∧ e.SequenceNumber ≤ s.Sequence) ∧
    (∀ v, Snapshot.Get h s k = .ok (v, true) →
      ∃ e ∈ s.SSTables.flatten, e.Key = k ∧ e.SequenceNumber ≤ s.Sequence ∧ e.Value = v) ∧
    ((∀ e ∈ s.SSTables.flatten, ¬ (e.Key = k ∧ e.SequenceNumber ≤ s.Sequence)) →
      Snapshot.Get h s k = .ok ("", false)) ∧
    Snapshot.Get h { s with SSTables := visibleTables s.Sequence s.SSTables } k
      = Snapshot.Get h s k := by
  have hget := snapshot_get_of_absent habs
  have hval : ∀ v, Snapshot.Get h s k = .ok (v, true) →
      ∃ e ∈ s.SSTables.flatten, e.Key = k ∧ e.SequenceNumber ≤ s.Sequence ∧ e.Value = v := by
    intro v hv
    rw [hget] at hv
    cases hsc : scanLevel k s.Sequence s.SSTables.flatten with
    | none => simp [hsc] at hv
    | some w =>
      simp only [hsc, Except.ok.injEq, Prod.mk.injEq, and_true] at hv
      obtain ⟨e, he, h1, h2⟩ := scanLevel_some hsc
      have := (eligible_iff k s.Sequence e).mp h1
      exact ⟨e, he, this.1, this.2, by rw [h2, hv]⟩
  have hnone : (∀ e ∈ s.SSTables.flatten, ¬ (e.Key = k ∧ e.SequenceNumber ≤ s.Sequence)) →
      Snapshot.Get h s k = .ok ("", false) := by
    intro hno
    rw [hget, scanLevel_none (fun e he => by
      cases hel : eligible k s.Sequence e with
      | false => rfl
      | true => exact absurd ((eligible_iff k s.Sequence e).mp hel) (hno e he))]
  refine ⟨?_, ⟨?_, ?_⟩, hval, hnone, ?_⟩
  · rw [hget]
    cases scanLevel k s.Sequence s.SSTables.flatten with
    | none => exact ⟨_, rfl⟩
    | some w => exact ⟨_, rfl⟩
  · rintro ⟨v, hv⟩
    obtain ⟨e, he, h1, h2, -⟩ := hval v hv
    exact ⟨e, he, h1, h2⟩
  · rintro ⟨e, he, h1, h2⟩
    rw [hget]
    cases hsc : scanLevel k s.Sequence s.SSTables.flatten with
    | some w => exact ⟨w, rfl⟩
    | none =>
      exfalso
      have hel : eligible k s.Sequence e = true := (eligible_iff k s.Sequence e).mpr ⟨h1, h2⟩
      rw [scanLevel_none_all hsc e he] at hel
      cases hel
  · simp only [Snapshot.Get, SkipList.Get, habs, scanSSTables_visible]

/-- C12, the fifth scenario of the spec: at ceiling 10, with entries for `"x"` at sequence 5
and at sequence 12 in either order, `Get("x")` returns the value of the sequence-5 entry. -/
theorem snapshot_get_visible_iff_witness :
    SkipList.Search (NewSkipList [] zeroRand).1 (ceilingSnapshot true).Memtable "x"
        = .ok ("", false) ∧
      Snapshot.Get (NewSkipList [] zeroRand).1 (ceilingSnapshot true) "x" = .ok ("seen", true) ∧
      Snapshot.Get (NewSkipList [] zeroRand).1 (ceilingSnapshot false) "x" = .ok ("seen", true) ∧
      ∃ e ∈ (ceilingSnapshot true).SSTables.flatten,
        e.Key = "x" ∧ e.SequenceNumber ≤ (ceilingSnapshot true).Sequence := by
  have hfound : ∃ v, Snapshot.Get (NewSkipList [] zeroRand).1 (ceilingSnapshot true) "x"
      = .ok (v, true) := ⟨"seen", rfl⟩
  exact ⟨rfl, rfl, rfl,
    (snapshot_get_visible_iff (NewSkipList [] zeroRand).1 (ceilingSnapshot true) "x" rfl).2.1.mp
      hfound⟩

/-- C13 (as the code does it): `Snapshot.Get` never reads the `Released` flag; for every
snapshot and key it returns what it returns for the same snapshot with any other value of
the flag, so on a released snapshot it returns the looked-up result of an active one. -/
theorem snapshot_get_ignores_released (h : Heap) (s : Snapshot) (k : String)
    (_ : s.Released = true) :
    Snapshot.Get h s k = Snapshot.Get h { s with Released := false } k ∧
    (∀ v, SkipList.Search h s.Memtable k = .ok (v, true) →
      Snapshot.Get h s k = .ok (v, true)) ∧
    (SkipList.Search h s.Memtable k = .ok ("", false) →
      ∀ (pre post : List Entry) (e : Entry), s.SSTables.flatten = pre ++ e :: post →
        eligible k s.Sequence e = true → (∀ x ∈ pre, eligible k s.Sequence x = false) →
        Snapshot.Get h s k = .ok (e.Value, true)) := by
  refine ⟨rfl, fun v hv => get_of_search_hit hv, ?_⟩
  intro habs pre post e hsplit he hpre
  rw [snapshot_get_of_absent habs, hsplit, scanLevel_first post he pre hpre]

/-- C13 on the released snapshot `releasedSnapshot`: `Get("x")` returns what the active
snapshot returns. -/
theorem snapshot_get_ignores_released_witness :
    releasedSnapshot.Released = true ∧
      Snapshot.Get (NewSkipList [] zeroRand).1 releasedSnapshot "x"
        = Snapshot.Get (NewSkipList [] zeroRand).1 { releasedSnapshot with Released := false }
            "x" :=
  ⟨rfl, (snapshot_get_ignores_released (NewSkipList [] zeroRand).1 releasedSnapshot "x" rfl).1⟩

/-- C13 fails as stated: on the released snapshot `releasedSnapshot` the call `Get("x")` does
not fail; it returns the value found in the on-disk collection. -/
theorem snapshot_get_after_release :
    releasedSnapshot.Released = true ∧
      Snapshot.Get (NewSkipList [] zeroRand).1 releasedSnapshot "x" = .ok ("old", true) ∧
      ∀ f : Fault, Snapshot.Get (NewSkipList [] zeroRand).1 releasedSnapshot "x" ≠ .error f := by
  refine ⟨rfl, rfl, ?_⟩
  intro f hc
  have h1 : Snapshot.Get (NewSkipList [] zeroRand).1 releasedSnapshot "x" = .ok ("old", true) :=
    rfl
  rw [h1] at hc
  cases hc

/-! ## The level draw -/

theorem leadingBelow_le (draws : Nat → ℚ) :
    ∀ (cap start : Nat), leadingBelow draws start cap ≤ cap
  | 0, _ => le_refl _
  | cap + 1, start => by
    unfold leadingBelow
    split
    · have := leadingBelow_le draws cap (start + 1)
      omega
    · omega

theorem randomLevelLoop_eq :
    ∀ (fuel lvl : Nat) (r : Rand), lvl ≤ maxLevel → maxLevel + 1 ≤ lvl + fuel →
      randomLevelLoop fuel lvl r =
        (lvl + leadingBelow r.draws r.pos (maxLevel - lvl),
          ⟨r.draws, r.pos + leadingBelow r.draws r.pos (maxLevel - lvl) + 1⟩)
  | 0, lvl, r, h1, h2 => by omega
  | fuel + 1, lvl, r, h1, h2 => by
    unfold randomLevelLoop
    by_cases hc : (r.Float64).1 < p ∧ lvl < maxLevel
    · rw [if_pos hc]
      have ih := randomLevelLoop_eq fuel (lvl + 1) (r.Float64).2 (by omega) (by omega)
      rw [ih]
      obtain ⟨c, hcap⟩ : ∃ c, maxLevel - lvl = c + 1 := ⟨maxLevel - lvl - 1, by omega⟩
      have hc2 : maxLevel - (lvl + 1) = c := by omega
      have hd : r.draws r.pos < p := hc.1
      rw [hcap, hc2]
      simp only [Rand.Float64, leadingBelow, hd, if_true]
      refine Prod.ext (by simp; omega) ?_
      simp only [Rand.mk.injEq, true_and]
      omega
    · rw [if_neg hc]
      have hz : leadingBelow r.draws r.pos (maxLevel - lvl) = 0 := by
        by_cases hl : lvl < maxLevel
        · obtain ⟨c, hcap⟩ : ∃ c, maxLevel - lvl = c + 1 := ⟨maxLevel - lvl - 1, by omega⟩
          have hd : ¬ r.draws r.pos < p := fun hd => hc ⟨hd, hl⟩
          rw [hcap]
          simp only [leadingBelow, hd, if_false]
        · have : maxLevel - lvl = 0 := by omega
          rw [this]
          rfl
      rw [hz]
      rfl

/-- C16: for every random source `randomLevel` ends after at most `maxLevel + 1` draws: the
level it returns is the number of leading draws below `p`, capped at `maxLevel`, it consumes
exactly that many draws and one more, and any larger loop budget gives the same result. -/
theorem randomLevel_spec (r : Rand) :
    (randomLevel r).1 = leadingBelow r.draws r.pos maxLevel ∧
      (randomLevel r).1 ≤ maxLevel ∧
      (randomLevel r).2.draws = r.draws ∧
      (randomLevel r).2.pos = r.pos + (randomLevel r).1 + 1 ∧
      (randomLevel r).2.pos - r.pos ≤ maxLevel + 1 ∧
      ∀ fuel, maxLevel + 1 ≤ fuel → randomLevelLoop fuel 0 r = randomLevel r := by
  have hmain : ∀ fuel, maxLevel + 1 ≤ fuel → randomLevelLoop fuel 0 r =
      (leadingBelow r.draws r.pos maxLevel,
        ⟨r.draws, r.pos + leadingBelow r.draws r.pos maxLevel + 1⟩) := by
    intro fuel hf
    have := randomLevelLoop_eq fuel 0 r (Nat.zero_le _) (by omega)
    simpa using this
  have hr : randomLevel r = (leadingBelow r.draws r.pos maxLevel,
      ⟨r.draws, r.pos + leadingBelow r.draws r.pos maxLevel + 1⟩) := hmain _ (le_refl _)
  have hle := leadingBelow_le r.draws maxLevel r.pos
  refine ⟨by rw [hr], by rw [hr]; exact hle, by rw [hr], by rw [hr], ?_, ?_⟩
  · rw [hr]
    show r.pos + leadingBelow r.draws r.pos maxLevel + 1 - r.pos ≤ maxLevel + 1
    omega
  · intro fuel hf
    rw [hmain fuel hf, hr]

/-- C16 on two sources: draws that are all `0` give level 6 after 7 draws, draws that are all
`3/4` give level 0 after 1 draw. -/
theorem randomLevel_spec_witness :
    (randomLevel zeroRand).1 = 6 ∧ (randomLevel zeroRand).2.pos = 7 ∧
      (randomLevel highRand).1 = 0 ∧ (randomLevel highRand).2.pos = 1 :=
  ⟨(randomLevel_spec zeroRand).1.trans (by decide), by decide,
    (randomLevel_spec highRand).1.trans (by decide), by decide⟩

/-! ## The descent against the linear lookup -/

theorem linearSearch_eq_found (k : String) :
    ∀ l : List (String × String), linearSearch k l = found (lookup k l)
  | [] => rfl
  | (a, b) :: t => by
    by_cases ha : a = k
    · subst ha
      rw [lookup_cons_eq]
      simp [linearSearch, found]
    · rw [lookup_cons_ne _ _ ha, ← linearSearch_eq_found k t]
      simp only [linearSearch, if_neg ha]

/-- C17: on a reachable index the multi-level descent of `Search(k)` returns what the linear
lookup of `k` in the level-0 sequence returns: `(v, true)` when the pair `(k, v)` is in the
sequence and `("", false)` when no pair has key `k`; `SkipList.Get` reports the same found
flag and, when found, the same value. -/
theorem search_refines_linear (h : Heap) (sl : SkipList) (hr : Reachable h sl) (k : String) :
    ∃ l, SkipList.level0 h sl = .ok l ∧
      SkipList.Search h sl k = .ok (linearSearch k l) ∧
      (∀ v, (k, v) ∈ l → SkipList.Search h sl k = .ok (v, true)) ∧
      (k ∉ l.map Prod.fst → SkipList.Search h sl k = .ok ("", false)) ∧
      (∀ v, linearSearch k l = (v, true) → SkipList.Get h sl k = .ok (some v, true)) ∧
      (∀ v, linearSearch k l = (v, false) → SkipList.Get h sl k = .ok (none, false)) := by
  obtain ⟨hd, L, R⟩ := hr.rep
  have hs : SkipList.Search h sl k = .ok (linearSearch k (pairs h L)) := by
    rw [R.search_eq, linearSearch_eq_found]
  refine ⟨_, R.level0_eq, hs, ?_, ?_, ?_, ?_⟩
  · intro v hv
    rw [R.search_eq, lookup_of_mem_sorted (keys_pairs_sorted R.sorted) hv]
    rfl
  · intro hk
    rw [R.search_eq, lookup_eq_none_iff.mpr hk]
    rfl
  · intro v hv
    simp only [SkipList.Get, hs, hv]
  · intro v hv
    simp only [SkipList.Get, hs, hv]

/-- C17 on the index that holds `"a"` and `"b"`, for the keys `"b"` and `"c"`. -/
theorem search_refines_linear_witness :
    Reachable abHeap abList ∧
      SkipList.level0 abHeap abList = .ok [("a", "1"), ("b", "2")] ∧
      SkipList.Search abHeap abList "b" = .ok ("2", true) ∧
      SkipList.Search abHeap abList "c" = .ok ("", false) := by
  have hl2 : SkipList.level0 abHeap abList = .ok [("a", "1"), ("b", "2")] := rfl
  obtain ⟨l, hl, -, hin, -, -, -⟩ := search_refines_linear abHeap abList reachable_ab "b"
  obtain ⟨l', hl', -, -, hout, -, -⟩ := search_refines_linear abHeap abList reachable_ab "c"
  rw [hl2] at hl hl'
  cases hl
  cases hl'
  exact ⟨reachable_ab, rfl, hin "2" (by decide), hout (by decide)⟩

/-! ## Chains are determined by the heap -/

theorem Linked.unique {h : Heap} {i : Nat} :
    ∀ (l1 l2 : List Nat) (x : Nat), Linked h i x l1 → Linked h i x l2 → l1 = l2
  | [], [], _, _, _ => rfl
  | [], b :: l2, x, h1, h2 => by
    have e1 : fwd h x i = some none := h1
    have e2 : fwd h x i = some (some b) := h2.1
    rw [e1] at e2
    cases e2
  | a :: l1, [], x, h1, h2 => by
    have e1 : fwd h x i = some (some a) := h1.1
    have e2 : fwd h x i = some none := h2
    rw [e1] at e2
    cases e2
  | a :: l1, b :: l2, x, h1, h2 => by
    have e1 : fwd h x i = some (some a) := h1.1
    have e2 : fwd h x i = some (some b) := h2.1
    rw [e1] at e2
    cases e2
    rw [Linked.unique l1 l2 a h1.2 h2.2]

theorem Rep.lane_hgt {h : Heap} {sl : SkipList} {hd : Nat} {L : List Nat} (R : Rep h sl hd L)
    {i : Nat} (hi : i ≤ maxLevel) : ∀ a ∈ hd :: lane h i L, i < hgt h a := by
  intro a ha
  rcases List.mem_cons.mp ha with rfl | ha
  · rw [R.header_hgt]; omega
  · exact (mem_lane.mp ha).2

/-- `Delete` of a key that is present, with the node it removes. -/
theorem Rep.delete_present_spec {h : Heap} {sl : SkipList} {hd : Nat} {L : List Nat}
    (R : Rep h sl hd L) (k : String) (hk : k ∈ (pairs h L).map Prod.fst) :
    ∃ b h1 La Lb, L = La ++ b :: Lb ∧ keyOf h b = k ∧
      SkipList.Delete h sl k = .ok (h1, { sl with size := sl.size - 1 }, true) ∧
      Rep h1 { sl with size := sl.size - 1 } hd (La ++ Lb) ∧
      pairs h1 (La ++ Lb) = pairs h La ++ pairs h Lb ∧
      pairs h1 (La ++ Lb) = remove k (pairs h L) := by
  obtain ⟨L1, L2, C⟩ := exists_cut h k L R.sorted
  rcases Rep.present_or_absent h k L2 with ⟨b, L2', e, hb⟩ | hm
  · obtain ⟨h1, e1, R1, p1, -, -, -, hkey, hval⟩ := R.delete_present C e hb
    refine ⟨b, h1, L1, L2', by rw [C.split, e], hb, e1, R1, ?_, p1⟩
    rw [@pairs_congr h h1 _ (fun a _ => hkey a) (fun a _ => hval a), pairs_append]
  · exfalso
    obtain ⟨q, hq, hqk⟩ := List.mem_map.mp hk
    exact R.keys_ne_absent C hm q hq hqk

/-- C19: on a reachable index `Delete(k)` of a present key returns `true`; afterwards the
node that held `k` is on no chain from the header, at any level `0..maxLevel`; the level-0
sequence is the previous one without the pair of `k`; and `Search` of every other key gives
what it gave before. -/
theorem delete_unlinks_node (h : Heap) (sl : SkipList) (hr : Reachable h sl) (k : String)
    (l : List (String × String)) (hl : SkipList.level0 h sl = .ok l)
    (hk : k ∈ l.map Prod.fst) :
    ∃ hd b n h1 sl1 pre v post,
      sl.header = some hd ∧ h[b]? = some n ∧ n.key = k ∧ b ≠ hd ∧
      (∃ chain, Linked h 0 hd chain ∧ b ∈ chain) ∧
      SkipList.Delete h sl k = .ok (h1, sl1, true) ∧ sl1.header = some hd ∧
      (∀ i, i ≤ maxLevel →
        (∃ chain, Linked h1 i hd chain) ∧ ∀ chain, Linked h1 i hd chain → b ∉ chain) ∧
      l = pre ++ (k, v) :: post ∧ SkipList.level0 h1 sl1 = .ok (pre ++ post) ∧
      ∀ k', k' ≠ k → SkipList.Search h1 sl1 k' = SkipList.Search h sl k' := by
  obtain ⟨hd, L, R⟩ := hr.rep
  rw [R.level0_eq] at hl
  have hl2 : pairs h L = l := Except.ok.inj hl
  subst hl2
  obtain ⟨b, h1, La, Lb, hsplit, hkey, hdel, R1, hp1, hp2⟩ := R.delete_present_spec k hk
  have hbL : b ∈ L := by rw [hsplit]; simp
  obtain ⟨n, hn⟩ := valid_of_hgt_pos (R.hgt_pos b hbL)
  have hnd : (La ++ b :: Lb).Nodup := by
    have := (List.nodup_cons.mp R.nodup).2
    rwa [hsplit] at this
  have hb_notin : b ∉ La ++ Lb := by
    have h2 := (List.perm_middle.nodup_iff).mp hnd
    exact (List.nodup_cons.mp h2).1
  have hchain0 : Linked h 0 hd L := by
    have := R.linked 0 (Nat.zero_le _)
    rwa [lane_zero R.hgt_pos] at this
  refine ⟨hd, b, n, h1, _, pairs h La, valOf h b, pairs h Lb, R.header_eq, hn,
    by rw [← hkey]; simp [keyOf, hn], ?_, ⟨L, hchain0, hbL⟩, hdel, R.header_eq, ?_, ?_, ?_, ?_⟩
  · rintro rfl
    exact R.hd_not_mem hbL
  · intro i hi
    refine ⟨⟨_, R1.linked i hi⟩, ?_⟩
    intro chain hc hb
    rw [Linked.unique _ _ hd hc (R1.linked i hi)] at hb
    exact hb_notin (mem_lane.mp hb).1
  · rw [hsplit, pairs_append, pairs_cons, hkey]
  · rw [R1.level0_eq, hp1]
  · intro k' hne
    rw [R1.search_eq, R.search_eq, hp2, lookup_remove_ne hne]

/-- C19 on the index that holds `"a"` and `"b"`, for the key `"a"`. -/
theorem delete_unlinks_node_witness :
    Reachable abHeap abList ∧
      SkipList.level0 abHeap abList = .ok [("a", "1"), ("b", "2")] ∧
      ∃ h1 sl1, SkipList.Delete abHeap abList "a" = .ok (h1, sl1, true) ∧
        SkipList.Search h1 sl1 "b" = .ok ("2", true) := by
  refine ⟨reachable_ab, rfl, ?_⟩
  obtain ⟨hd, b, n, h1, sl1, pre, v, post, -, -, -, -, -, hdel, -, -, -, -, hother⟩ :=
    delete_unlinks_node abHeap abList reachable_ab "a" [("a", "1"), ("b", "2")] rfl
      (by decide)
  refine ⟨h1, sl1, hdel, ?_⟩
  rw [hother "b" (by decide)]
  rfl

/-! ## No operation faults -/

/-- C15: on a reachable index the level is within `0..maxLevel`; at every level the chain
from the header only visits nodes whose `forward` slice is longer than the level; for every
key the descent of `Insert` and `Delete` returns an `update` array whose entries up to the
level are non-nil, and after the header has been entered for the new top levels so are the
entries up to the drawn level; and `Search`, `Insert` and `Delete` return, for every key and
every random draw, without a nil dereference, an index out of range or an endless loop. -/
theorem operations_total (h : Heap) (sl : SkipList) (hr : Reachable h sl) :
    0 ≤ sl.level ∧ sl.level ≤ maxLevel ∧
    (∃ hd, sl.header = some hd ∧ ∀ i, i ≤ maxLevel →
      ∃ chain, Linked h i hd chain ∧ ∀ a ∈ hd :: chain, i < hgt h a) ∧
    ∀ (key value : String) (rng : Rand),
      (∃ r, SkipList.Search h sl key = .ok r) ∧
      (∃ r, SkipList.Insert h sl rng key value = .ok r) ∧
      (∃ r, SkipList.Delete h sl key = .ok r) ∧
      ∃ x update,
        findUpdate h key (sl.level + 1).toNat sl.header (List.replicate (maxLevel + 1) none)
          = .ok (x, update) ∧
        (∀ i : Nat, (i : Int) ≤ sl.level → ∃ a, update[i]? = some (some a)) ∧
        ∃ update1,
          (if ((randomLevel rng).1 : Int) > sl.level then
              raiseHeader sl.header ((randomLevel rng).1 - sl.level).toNat (sl.level + 1) update
            else .ok update) = .ok update1 ∧
          ∀ i, i ≤ (randomLevel rng).1 → ∃ a, update1[i]? = some (some a) := by
  obtain ⟨hd, L, R⟩ := hr.rep
  refine ⟨R.level_nonneg, R.level_le,
    ⟨hd, R.header_eq, fun i hi => ⟨_, R.linked i hi, R.lane_hgt hi⟩⟩, ?_⟩
  intro key value rng
  obtain ⟨h1, sl1, rng1, L1, e1, -⟩ := R.insert_spec rng key value
  obtain ⟨h2, sl2, b, L2, e2, -⟩ := R.delete_spec key
  obtain ⟨La, Lb, C⟩ := exists_cut h key L R.sorted
  obtain ⟨upd, hfu, hlen, hlow, -⟩ := R.findUpdate_top C
  obtain ⟨update1, hraise, hupd⟩ := R.raised_spec C hlen hlow (randomLevel_le rng)
  refine ⟨⟨_, R.search_eq key⟩, ⟨_, e1⟩, ⟨_, e2⟩, _, upd, hfu, ?_, update1, hraise, ?_⟩
  · intro i hi
    have := R.level_nonneg
    exact ⟨_, hlow i (by omega)⟩
  · intro i hi
    exact ⟨_, hupd i hi⟩

/-- C15 on the index that holds `"a"` and `"b"`. -/
theorem operations_total_witness :
    Reachable abHeap abList ∧
      (∃ r, SkipList.Insert abHeap abList zeroRand "c" "3" = .ok r) ∧
      (∃ r, SkipList.Delete abHeap abList "b" = .ok r) :=
  ⟨reachable_ab,
    ((operations_total abHeap abList reachable_ab).2.2.2 "c" "3" zeroRand).2.1,
    ((operations_total abHeap abList reachable_ab).2.2.2 "b" "" zeroRand).2.2.1⟩

/-! ## Runs of calls -/

/-- Every run of calls on a well-formed skip list returns; the state it ends in is a
well-formed skip list whose pairs and `Delete` results are those of the abstract run. -/
theorem Rep.runCalls_spec (seeds : Nat → Rand) :
    ∀ (cs : List Call) (n : Nat) {h : Heap} {sl : SkipList} {hd : Nat} {L : List Nat}
      (_ : Rep h sl hd L) (rng : Rand),
      ∃ h1 sl1 rng1 bs hd1 L1, runCalls seeds cs n h sl rng = .ok (h1, sl1, rng1, bs) ∧
        Rep h1 sl1 hd1 L1 ∧ pairs h1 L1 = (absCalls cs (pairs h L)).1 ∧
        bs = (absCalls cs (pairs h L)).2
  | [], _, h, sl, hd, L, R, rng => ⟨h, sl, rng, [], hd, L, rfl, R, rfl, rfl⟩
  | Call.insert key value :: cs, n, h, sl, hd, L, R, rng => by
    obtain ⟨h1, sl1, rng1, L1, e1, R1, p1, -⟩ := R.insert_spec rng key value
    obtain ⟨h2, sl2, rng2, bs, hd2, L2, e2, R2, p2, hb⟩ := Rep.runCalls_spec seeds cs n R1 rng1
    refine ⟨h2, sl2, rng2, bs, hd2, L2, ?_, R2, ?_, ?_⟩
    · simp only [runCalls, e1]
      exact e2
    · rw [p2, p1]; rfl
    · rw [hb, p1]; rfl
  | Call.delete key :: cs, n, h, sl, hd, L, R, rng => by
    obtain ⟨h1, sl1, b, L1, e1, R1, p1, -, -, -, hbdef, -⟩ := R.delete_spec key
    obtain ⟨h2, sl2, rng2, bs, hd2, L2, e2, R2, p2, hb⟩ := Rep.runCalls_spec seeds cs n R1 rng
    refine ⟨h2, sl2, rng2, b :: bs, hd2, L2, ?_, R2, ?_, ?_⟩
    · simp only [runCalls, e1, e2]
    · rw [p2, p1]; rfl
    · rw [hb, p1, hbdef]; rfl
  | Call.reset :: cs, n, h, sl, hd, L, _, rng => by
    obtain ⟨h2, sl2, rng2, bs, hd2, L2, e2, R2, p2, hb⟩ :=
      Rep.runCalls_spec seeds cs n (rep_reset h sl) rng
    exact ⟨h2, sl2, rng2, bs, hd2, L2, e2, R2, p2, hb⟩
  | Call.clone :: cs, n, h, sl, hd, L, R, rng => by
    obtain ⟨h1, c, rng1, Lc, e1, Rc, p1, -⟩ := R.clone_spec (seeds n)
    obtain ⟨h2, sl2, rng2, bs, hd2, L2, e2, R2, p2, hb⟩ :=
      Rep.runCalls_spec seeds cs (n + 1) Rc rng1
    refine ⟨h2, sl2, rng2, bs, hd2, L2, ?_, R2, ?_, ?_⟩
    · simp only [runCalls, e1]
      exact e2
    · rw [p2, p1]; rfl
    · rw [hb, p1]; rfl
  | Call.cloneAside :: cs, n, h, sl, hd, L, R, rng => by
    obtain ⟨h1, c, rng1, Lc, e1, -, -, hold, -⟩ := R.clone_spec (seeds n)
    obtain ⟨Rs, ps⟩ := @Rep.frame h sl hd L R h1 (fun a ha => hold a (R.mem_lt ha))
    obtain ⟨h2, sl2, rng2, bs, hd2, L2, e2, R2, p2, hb⟩ :=
      Rep.runCalls_spec seeds cs (n + 1) Rs rng1
    refine ⟨h2, sl2, rng2, bs, hd2, L2, ?_, R2, ?_, ?_⟩
    · simp only [runCalls, e1]
      exact e2
    · rw [p2, ps]; rfl
    · rw [hb, ps]; rfl

theorem runFromNew_spec (seeds : Nat → Rand) (calls : List Call) (h0 : Heap) :
    ∃ h1 sl1 rng1 bs hd1 L1, runFromNew seeds calls h0 = .ok (h1, sl1, rng1, bs) ∧
      Rep h1 sl1 hd1 L1 ∧ pairs h1 L1 = (absCalls calls []).1 ∧ bs = (absCalls calls []).2 :=
  Rep.runCalls_spec seeds calls 1 (rep_new h0 (seeds 0)) (seeds 0)

theorem Rep.isFull_iff {h : Heap} {sl : SkipList} {hd : Nat} {L : List Nat}
    (R : Rep h sl hd L) : SkipList.IsFull sl = decide (50 ≤ (pairs h L).length) := by
  rw [length_pairs]
  simp only [SkipList.IsFull, memtableLimit, R.size_eq, ge_iff_le]
  congr 1
  apply propext
  omega

theorem Rep.size_pairs {h : Heap} {sl : SkipList} {hd : Nat} {L : List Nat}
    (R : Rep h sl hd L) : sl.size = ((pairs h L).length : Int) := by
  rw [length_pairs, R.size_eq]

/-- C18: two runs of the same calls `Insert`/`Delete`/`Reset`/`Clone` from `NewSkipList`,
under any two random sources (and in any two heaps), both return, with the same `Delete`
results, the same size and `IsFull()`, the same level-0 sequence of pairs and the same
`Search` result for every key. -/
theorem observations_independent_of_draws (seeds1 seeds2 : Nat → Rand) (h0 h0' : Heap)
    (calls : List Call) :
    ∃ h1 sl1 rng1 bs1 h2 sl2 rng2 bs2,
      runFromNew seeds1 calls h0 = .ok (h1, sl1, rng1, bs1) ∧
      runFromNew seeds2 calls h0' = .ok (h2, sl2, rng2, bs2) ∧
      bs1 = bs2 ∧ sl1.size = sl2.size ∧ SkipList.IsFull sl1 = SkipList.IsFull sl2 ∧
      (∃ l, SkipList.level0 h1 sl1 = .ok l ∧ SkipList.level0 h2 sl2 = .ok l) ∧
      ∀ k, ∃ r, SkipList.Search h1 sl1 k = .ok r ∧ SkipList.Search h2 sl2 k = .ok r := by
  obtain ⟨h1, sl1, rng1, bs1, hd1, L1, e1, R1, p1, b1⟩ := runFromNew_spec seeds1 calls h0
  obtain ⟨h2, sl2, rng2, bs2, hd2, L2, e2, R2, p2, b2⟩ := runFromNew_spec seeds2 calls h0'
  refine ⟨h1, sl1, rng1, bs1, h2, sl2, rng2, bs2, e1, e2, by rw [b1, b2], ?_, ?_, ?_, ?_⟩
  · rw [R1.size_pairs, R2.size_pairs, p1, p2]
  · rw [R1.isFull_iff, R2.isFull_iff, p1, p2]
  · exact ⟨_, R1.level0_eq, by rw [R2.level0_eq, p2, p1]⟩
  · intro k
    exact ⟨_, R1.search_eq k, by rw [R2.search_eq, p2, p1]⟩

/-- C18 on a run that inserts twice, clones, deletes and inserts again, under the source of
zero draws and the source of high draws. -/
theorem observations_independent_of_draws_witness :
    ∃ h1 sl1 rng1 bs1 h2 sl2 rng2 bs2,
      runFromNew (fun _ => zeroRand)
        [Call.insert "a" "1", Call.insert "b" "2", Call.clone, Call.delete "a",
          Call.insert "c" "3"] [] = .ok (h1, sl1, rng1, bs1) ∧
      runFromNew (fun _ => highRand)
        [Call.insert "a" "1", Call.insert "b" "2", Call.clone, Call.delete "a",
          Call.insert "c" "3"] [] = .ok (h2, sl2, rng2, bs2) ∧
      bs1 = bs2 ∧ SkipList.level0 h1 sl1 = SkipList.level0 h2 sl2 := by
  obtain ⟨h1, sl1, rng1, bs1, h2, sl2, rng2, bs2, e1, e2, hb, -, -, ⟨l, l1, l2⟩, -⟩ :=
    observations_independent_of_draws (fun _ => zeroRand) (fun _ => highRand) [] []
      [Call.insert "a" "1", Call.insert "b" "2", Call.clone, Call.delete "a",
        Call.insert "c" "3"]
  exact ⟨h1, sl1, rng1, bs1, h2, sl2, rng2, bs2, e1, e2, hb, by rw [l1, l2]⟩

/-! ## The invariant of the data model -/

theorem eq_of_key_eq {h : Heap} :
    ∀ {L : List Nat}, L.Pairwise (fun a b => keyOf h a < keyOf h b) →
      ∀ a ∈ L, ∀ b ∈ L, keyOf h a = keyOf h b → a = b
  | [], _, a, ha, _, _, _ => by cases ha
  | c :: L, hs, a, ha, b, hb, hk => by
    rw [List.pairwise_cons] at hs
    rcases List.mem_cons.mp ha with ea | ha1
    · rcases List.mem_cons.mp hb with eb | hb1
      · rw [ea, eb]
      · rw [ea] at hk
        exact absurd hk (ne_of_lt (hs.1 b hb1))
    · rcases List.mem_cons.mp hb with eb | hb1
      · rw [eb] at hk
        exact absurd hk.symm (ne_of_lt (hs.1 a ha1))
      · exact eq_of_key_eq hs.2 a ha1 b hb1 hk

theorem Rep.invariant {h : Heap} {sl : SkipList} {hd : Nat} {L : List Nat}
    (R : Rep h sl hd L) : Invariant h sl := by
  refine ⟨hd, fun i => lane h i L, R.header_eq, ?_, ?_, ?_⟩
  · intro i hi
    have hle : i ≤ maxLevel := by have := R.level_le; omega
    exact ⟨R.linked i hle, R.sorted.sublist (lane_sublist h i L)⟩
  · intro i j _ _ a ha b hb hk
    exact eq_of_key_eq R.sorted a (mem_lane.mp ha).1 b (mem_lane.mp hb).1 hk
  · show sl.size = ((lane h 0 L).length : Int)
    rw [lane_zero R.hgt_pos]
    exact R.size_eq

/-- C14: the invariant holds of the index that `NewSkipList` returns and of the index at the
end of every run of `Insert`, `Delete`, `Reset` and `Clone` calls, for every random source;
and from such a state each of `Insert` (for every draw), `Delete`, `Reset` and `Clone`
returns and gives a state in which it holds, for the clone and for the source. -/
theorem invariant_of_runs (seeds : Nat → Rand) (h0 : Heap) (calls : List Call) :
    Invariant (NewSkipList h0 (seeds 0)).1 (NewSkipList h0 (seeds 0)).2.1 ∧
    ∃ h sl rng bs, runFromNew seeds calls h0 = .ok (h, sl, rng, bs) ∧ Invariant h sl ∧
      (∀ (key value : String) (r : Rand), ∃ h1 sl1 r1,
        SkipList.Insert h sl r key value = .ok (h1, sl1, r1) ∧ Invariant h1 sl1) ∧
      (∀ key : String, ∃ h1 sl1 b,
        SkipList.Delete h sl key = .ok (h1, sl1, b) ∧ Invariant h1 sl1) ∧
      Invariant (SkipList.Reset h sl).1 (SkipList.Reset h sl).2 ∧
      (∀ seed : Rand, ∃ h1 c r1,
        SkipList.Clone h sl seed = .ok (h1, c, r1) ∧ Invariant h1 c ∧ Invariant h1 sl) := by
  refine ⟨(rep_new h0 (seeds 0)).invariant, ?_⟩
  obtain ⟨h, sl, rng, bs, hd, L, e, R, -, -⟩ := runFromNew_spec seeds calls h0
  refine ⟨h, sl, rng, bs, e, R.invariant, ?_, ?_, (rep_reset h sl).invariant, ?_⟩
  · intro key value r
    obtain ⟨h1, sl1, r1, L1, e1, R1, -⟩ := R.insert_spec r key value
    exact ⟨h1, sl1, r1, e1, R1.invariant⟩
  · intro key
    obtain ⟨h1, sl1, b, L1, e1, R1, -⟩ := R.delete_spec key
    exact ⟨h1, sl1, b, e1, R1.invariant⟩
  · intro seed
    obtain ⟨h1, c, r1, Lc, e1, Rc, -, hold, -⟩ := R.clone_spec seed
    obtain ⟨Rs, -⟩ := @Rep.frame h sl hd L R h1 (fun a ha => hold a (R.mem_lt ha))
    exact ⟨h1, c, r1, e1, Rc.invariant, Rs.invariant⟩

/-- C14 on a run that inserts, deletes, resets and clones. -/
theorem invariant_of_runs_witness :
    ∃ h sl rng bs,
      runFromNew (fun _ => zeroRand)
        [Call.insert "b" "2", Call.insert "a" "1", Call.delete "b", Call.cloneAside,
          Call.reset, Call.insert "c" "3", Call.clone] [] = .ok (h, sl, rng, bs) ∧
      Invariant h sl := by
  obtain ⟨h, sl, rng, bs, e, hinv, -⟩ :=
    (invariant_of_runs (fun _ => zeroRand) []
      [Call.insert "b" "2", Call.insert "a" "1", Call.delete "b", Call.cloneAside,
        Call.reset, Call.insert "c" "3", Call.clone]).2
  exact ⟨h, sl, rng, bs, e, hinv⟩

/-! ## The empty string as a key -/

theorem not_lt_empty (a : String) : ¬ a < "" := by
  rw [String.lt_iff_toList_lt]
  simp

theorem mem_remove {k : String} {q : String × String} :
    ∀ {m : List (String × String)}, q ∈ remove k m → q ∈ m
  | [], hq => hq
  | (a, b) :: t, hq => by
    by_cases ha : a = k
    · subst ha
      rw [remove_head] at hq
      exact List.mem_cons_of_mem _ hq
    · have hr : remove k ((a, b) :: t) = (a, b) :: remove k t := by
        simp only [remove, if_neg ha]
      rw [hr] at hq
      rcases List.mem_cons.mp hq with e | e
      · rw [e]; exact List.mem_cons_self _ _
      · exact List.mem_cons_of_mem _ (mem_remove e)

/-- Inserting a key that no key of an ascending sequence lies below puts its pair first. -/
theorem upsert_min {k v : String} {m : List (String × String)}
    (hs : (m.map Prod.fst).Pairwise (· < ·)) (hmin : ∀ q ∈ m, ¬ q.1 < k) :
    upsert k v m = (k, v) :: remove k m ∧ ∀ q ∈ remove k m, k < q.1 := by
  cases m with
  | nil => exact ⟨rfl, fun q hq => by cases hq⟩
  | cons q t =>
    obtain ⟨a, b⟩ := q
    rw [List.map_cons, List.pairwise_cons] at hs
    have h1 : ¬ a < k := hmin (a, b) (List.mem_cons_self _ _)
    have htail : ∀ q ∈ t, a < q.1 := fun q hq => hs.1 q.1 (List.mem_map_of_mem _ hq)
    by_cases h2 : a = k
    · subst h2
      rw [upsert_cons_eq, remove_head]
      exact ⟨rfl, htail⟩
    · have hka : k < a := lt_of_le_of_ne (not_lt.mp h1) (Ne.symm h2)
      have hr : remove k ((a, b) :: t) = (a, b) :: t := by
        apply remove_of_absent
        intro q hq
        rcases List.mem_cons.mp hq with e | e
        · rw [e]; exact h2
        · exact ne_of_gt (lt_trans hka (htail q e))
      rw [upsert_cons_gt h1 h2, hr]
      refine ⟨rfl, ?_⟩
      intro q hq
      rcases List.mem_cons.mp hq with e | e
      · rw [e]; exact hka
      · exact lt_trans hka (htail q e)

theorem mem_absCalls {q : String × String} :
    ∀ (cs : List Call) (m : List (String × String)), q ∈ (absCalls cs m).1 →
      q ∈ m ∨ ∃ v, Call.insert q.1 v ∈ cs
  | [], _, hq => Or.inl hq
  | Call.insert key value :: cs, m, hq => by
    rcases mem_absCalls cs (upsert key value m) hq with e | ⟨v, hv⟩
    · rcases mem_upsert e with e2 | e2
      · exact Or.inr ⟨value, by rw [e2]; exact List.mem_cons_self _ _⟩
      · exact Or.inl e2
    · exact Or.inr ⟨v, List.mem_cons_of_mem _ hv⟩
  | Call.delete key :: cs, m, hq => by
    rcases mem_absCalls cs (remove key m) hq with e | ⟨v, hv⟩
    · exact Or.inl (mem_remove e)
    · exact Or.inr ⟨v, List.mem_cons_of_mem _ hv⟩
  | Call.reset :: cs, m, hq => by
    rcases mem_absCalls cs [] hq with e | ⟨v, hv⟩
    · cases e
    · exact Or.inr ⟨v, List.mem_cons_of_mem _ hv⟩
  | Call.clone :: cs, m, hq => by
    rcases mem_absCalls cs m hq with e | ⟨v, hv⟩
    · exact Or.inl e
    · exact Or.inr ⟨v, List.mem_cons_of_mem _ hv⟩
  | Call.cloneAside :: cs, m, hq => by
    rcases mem_absCalls cs m hq with e | ⟨v, hv⟩
    · exact Or.inl e
    · exact Or.inr ⟨v, List.mem_cons_of_mem _ hv⟩

/-- C20: the empty string is a key like any other. On a reachable index `Insert("", v)`
returns; then `Search("")` gives `(v, true)`, the pair is the first of the level-0 sequence
and the only one with key `""`, it is counted once in `size`, and the other keys are found
as before; `Delete("")` then returns `true` and takes exactly that pair away. And at the end
of a run of calls on a new index in which `""` is never inserted `Search("")` gives
`("", false)`: the header is not reported as an entry. -/
theorem empty_key_is_ordinary (h : Heap) (sl : SkipList) (hr : Reachable h sl) (v : String)
    (rng : Rand) :
    (∃ h1 sl1 rng1 rest, SkipList.Insert h sl rng "" v = .ok (h1, sl1, rng1) ∧
      SkipList.Search h1 sl1 "" = .ok (v, true) ∧
      SkipList.level0 h1 sl1 = .ok (("", v) :: rest) ∧ (∀ q ∈ rest, q.1 ≠ "") ∧
      sl1.size = rest.length + 1 ∧
      (∀ k, k ≠ "" → SkipList.Search h1 sl1 k = SkipList.Search h sl k) ∧
      ∃ h2 sl2, SkipList.Delete h1 sl1 "" = .ok (h2, sl2, true) ∧
        SkipList.level0 h2 sl2 = .ok rest ∧ sl2.size = rest.length ∧
        SkipList.Search h2 sl2 "" = .ok ("", false)) ∧
    (∀ (seeds : Nat → Rand) (h0 : Heap) (calls : List Call),
      (∀ w, Call.insert "" w ∉ calls) →
      ∃ h1 sl1 rng1 bs, runFromNew seeds calls h0 = .ok (h1, sl1, rng1, bs) ∧
        SkipList.Search h1 sl1 "" = .ok ("", false)) := by
  obtain ⟨hd, L, R⟩ := hr.rep
  constructor
  · obtain ⟨h1, sl1, rng1, L1, e1, R1, p1, -⟩ := R.insert_spec rng "" v
    obtain ⟨hup, hrest⟩ := upsert_min (k := "") (v := v) (keys_pairs_sorted R.sorted)
      (fun q _ => not_lt_empty q.1)
    rw [hup] at p1
    obtain ⟨h2, sl2, b, L2, e2, R2, p2, -, -, -, hb, -⟩ := R1.delete_spec ""
    have hbt : b = true := by rw [hb, p1, lookup_cons_eq]; rfl
    subst hbt
    rw [p1, remove_head] at p2
    refine ⟨h1, sl1, rng1, remove "" (pairs h L), e1, ?_, ?_, ?_, ?_, ?_, h2, sl2, e2, ?_, ?_,
      ?_⟩
    · rw [R1.search_eq, p1, lookup_cons_eq]; rfl
    · rw [R1.level0_eq, p1]
    · exact fun q hq => ne_of_gt (hrest q hq)
    · rw [R1.size_pairs, p1]; simp
    · intro k hk
      rw [R1.search_eq, R.search_eq, p1, ← hup, lookup_upsert, if_neg hk]
    · rw [R2.level0_eq, p2]
    · rw [R2.size_pairs, p2]
    · rw [R2.search_eq, p2, lookup_eq_none (fun q hq => ne_of_gt (hrest q hq))]; rfl
  · intro seeds h0 calls hno
    obtain ⟨h1, sl1, rng1, bs, hd1, L1, e, R1, p, -⟩ := runFromNew_spec seeds calls h0
    refine ⟨h1, sl1, rng1, bs, e, ?_⟩
    rw [R1.search_eq, p, lookup_eq_none]
    · rfl
    · intro q hq hk
      rcases mem_absCalls calls [] hq with e2 | ⟨w, hw⟩
      · cases e2
      · rw [hk] at hw
        exact hno w hw

/-- C20 on the index that holds `"a"` and `"b"`. -/
theorem empty_key_is_ordinary_witness :
    Reachable abHeap abList ∧
      ∃ h1 sl1 rng1 rest, SkipList.Insert abHeap abList zeroRand "" "e" = .ok (h1, sl1, rng1) ∧
        SkipList.Search h1 sl1 "" = .ok ("e", true) ∧
        SkipList.level0 h1 sl1 = .ok (("", "e") :: rest) ∧
        SkipList.Search h1 sl1 "a" = .ok ("1", true) := by
  refine ⟨reachable_ab, ?_⟩
  obtain ⟨h1, sl1, rng1, rest, e1, hs, hl, -, -, hother, -⟩ :=
    (empty_key_is_ordinary abHeap abList reachable_ab "e" zeroRand).1
  refine ⟨h1, sl1, rng1, rest, e1, hs, hl, ?_⟩
  rw [hother "a" (by decide)]
  rfl

end MangoDB
